import Mathlib

/-!
# go-jolt9: task registry, dependency graph and expression evaluation

A shallow embedding of `pkg/expr/expr.go` and `pkg/tasks/map.go` and the
properties of the dependency-graph resolver and of `Expression.Eval`.

Conventions of the embedding

* A Go `map[string]V` is an association list with first-match lookup.  Go
  leaves the iteration order of a map unspecified; the order of the list stands
  for the order in which one particular run ranges over the map, and every
  theorem quantifies over all lists.
* A Go pointer `*T` that may be nil is an `Option T`.
* A function that can return a Go `error`, dereference nil, or recurse without
  bound returns `Except Fault _`: `Fault.error` is a returned Go error,
  `Fault.nilDeref` a run-time panic, `Fault.outOfFuel` says that the recursion
  budget given to the model was too small.  `Fault.typeAssert` is the panic of a
  failed type assertion `x.(T)`, `Fault.nilMapWrite` the panic of an assignment
  to an entry of a nil map.
-/

namespace Jolt9

/-! ## Go values -/

/-- Floating point payload of a Go `float32` / `float64`. -/
inductive GoFloat where
  | finite (q : ℚ)
  | posInf
  | negInf
  | nan
  deriving DecidableEq

/-- The zero of a floating point type. -/
def GoFloat.zero : GoFloat := .finite 0

/-- The dynamic values an `interface{}` holds in this code base. -/
inductive Value where
  | null
  | str (s : String)
  | bool (b : Bool)
  | int (n : Int)
  | int32 (n : Int)
  | int64 (n : Int)
  | uint32 (n : Nat)
  | uint64 (n : Nat)
  | float32 (f : GoFloat)
  | float64 (f : GoFloat)
  deriving DecidableEq

/-- Which of the two sentinel errors a `*strconv.NumError` wraps. -/
inductive NumErrKind where
  | invalid
  | range
  deriving DecidableEq

/-- A Go `error` value. -/
inductive GoError where
  | msg (text : String)
  | num (func : String) (input : String) (kind : NumErrKind)
  deriving DecidableEq

/-- Ways in which a call does not return a normal result. -/
inductive Fault where
  | error (e : GoError)
  | nilDeref
  | outOfFuel
  | typeAssert
  | nilMapWrite
  deriving DecidableEq

instance {ε α : Type} [DecidableEq ε] [DecidableEq α] : DecidableEq (Except ε α)
  | .ok a, .ok b =>
    if h : a = b then isTrue (congrArg Except.ok h)
    else isFalse (fun h' => h (Except.ok.inj h'))
  | .error a, .error b =>
    if h : a = b then isTrue (congrArg Except.error h)
    else isFalse (fun h' => h (Except.error.inj h'))
  | .ok _, .error _ => isFalse (fun h => Except.noConfusion h)
  | .error _, .ok _ => isFalse (fun h => Except.noConfusion h)

/-! ## The Go standard library functions used by `Expression.Eval`

Go strings are byte strings; the model reads them as the sequence of their
Unicode code points, which is what `strings.TrimSpace` and `strconv` see on
valid UTF-8. -/

/-- `unicode.IsSpace`. -/
def isSpace (c : Char) : Bool :=
  c == '\t' || c == '\n' || c.val == 0x0B || c.val == 0x0C || c == '\r' || c == ' ' ||
  c.val == 0x85 || c.val == 0xA0 || c.val == 0x1680 ||
  (0x2000 ≤ c.val && c.val ≤ 0x200A) ||
  c.val == 0x2028 || c.val == 0x2029 || c.val == 0x202F || c.val == 0x205F || c.val == 0x3000

/-- `strings.TrimSpace`: drops the leading and the trailing white space. -/
def TrimSpace (s : String) : String :=
  String.mk ((s.data.dropWhile isSpace).rdropWhile isSpace)

/-- The value of a digit character in `strconv.ParseUint`, `none` for a
character that is no digit or letter. -/
def digitVal (c : Char) : Option Nat :=
  if '0' ≤ c ∧ c ≤ '9' then some (c.toNat - '0'.toNat)
  else if 'a' ≤ c ∧ c ≤ 'z' then some (c.toNat - 'a'.toNat + 10)
  else if 'A' ≤ c ∧ c ≤ 'Z' then some (c.toNat - 'A'.toNat + 10)
  else none

/-- The digit loop of `strconv.ParseUint`: the first invalid character or the
first overflow ends the loop, whichever comes first.  `s0` is the whole input,
`n` the value read so far. -/
def parseUintLoop (s0 : String) (base maxVal : Nat) : List Char → Nat → Except GoError Nat
  | [], n => .ok n
  | c :: cs, n =>
    match digitVal c with
    | none => .error (.num "ParseUint" s0 .invalid)
    | some d =>
      if d ≥ base then .error (.num "ParseUint" s0 .invalid)
      else if n ≥ (2 ^ 64 - 1) / base + 1 then .error (.num "ParseUint" s0 .range)
      else
        let n1 := n * base + d
        if n1 ≥ 2 ^ 64 ∨ n1 > maxVal then .error (.num "ParseUint" s0 .range)
        else parseUintLoop s0 base maxVal cs n1

/-- `strconv.ParseUint(s, base, bitSize)` for an explicit base `2 ≤ base ≤ 36` and
`1 ≤ bitSize ≤ 64` (every call in the repository passes base 10 and bit size 32
or 64). -/
def ParseUint (s : String) (base bitSize : Nat) : Except GoError Nat :=
  if s = "" then .error (.num "ParseUint" s .invalid)
  else parseUintLoop s base (2 ^ bitSize - 1) s.data 0

/-- `strconv.ParseInt(s, base, bitSize)`, same domain as `ParseUint`.  A range
error of `ParseUint` is replaced by the range error of `ParseInt`: an overflowing
magnitude is at least the cutoff. -/
def ParseInt (s : String) (base bitSize : Nat) : Except GoError Int :=
  if s = "" then .error (.num "ParseInt" s .invalid)
  else
    let neg := s.data.head? = some '-'
    let body := if s.data.head? = some '+' ∨ s.data.head? = some '-' then s.data.tail else s.data
    match ParseUint (String.mk body) base bitSize with
    | .error (.num _ _ .invalid) => .error (.num "ParseInt" s .invalid)
    | .error (.msg t) => .error (.msg t)
    | .error (.num _ _ .range) => .error (.num "ParseInt" s .range)
    | .ok un =>
      let cutoff := 2 ^ (bitSize - 1)
      if ¬ neg ∧ un ≥ cutoff then .error (.num "ParseInt" s .range)
      else if neg ∧ un > cutoff then .error (.num "ParseInt" s .range)
      else .ok (if neg then - (un : Int) else (un : Int))

/-- `strconv.ParseBool`. -/
def ParseBool (str : String) : Except GoError Bool :=
  if str = "1" ∨ str = "t" ∨ str = "T" ∨ str = "true" ∨ str = "TRUE" ∨ str = "True" then
    .ok true
  else if str = "0" ∨ str = "f" ∨ str = "F" ∨ str = "false" ∨ str = "FALSE" ∨ str = "False" then
    .ok false
  else .error (.num "ParseBool" str .invalid)

/-- The type of `strconv.ParseFloat(s, bitSize)`.  Decimal-to-binary rounding is
not modelled: the function is a parameter of everything that calls it. -/
abbrev FloatParser := String → Nat → Except GoError GoFloat

/-- The conversion `uint32(i)` of an `int64`. -/
def toUint32 (i : Int) : Nat := (i % 2 ^ 32).toNat

/-- The conversion `uint64(i)` of an `int64`. -/
def toUint64 (i : Int) : Nat := (i % 2 ^ 64).toNat

/-- The conversion `int32(i)` of an `int64`. -/
def toInt32 (i : Int) : Int := (i + 2 ^ 31) % 2 ^ 32 - 2 ^ 31

/-! ## pkg/expr -/

/-- The struct `expr.Expression`. -/
structure Expression where
  Raw : String := ""
  ValueString : String := ""
  Value : Value := .null
  IsEvaluated : Bool := false
  Typ : String := ""
  deriving DecidableEq

/-- The interface `expr.Evaluator`: `Eval(template, ctx)` returns a string or an
error.  An implementation may keep state of its own (type `σ`), which every call
reads and may change; `κ` is the type of the context map. -/
abbrev Evaluator (σ κ : Type) := String → κ → σ → Except GoError String × σ

/-- What a call of `Expression.Eval` leaves behind: the returned `error` (`none`
is nil), the receiver after the call, and the state of the Evaluator. -/
structure EvalResult (σ : Type) where
  err : Option GoError
  expr : Expression
  state : σ

/-- The body shared by the numeric and bool cases of the type switch: store the
zero value, trim, and parse unless the trimmed text is empty. -/
def coerceCase {σ : Type} (e : Expression) (s : σ) (zero : Value)
    (parse : String → Except GoError Value) : EvalResult σ :=
  let e := { e with Value := zero }
  let str := TrimSpace e.ValueString
  if str ≠ "" then
    match parse str with
    | .error err => ⟨some err, e, s⟩
    | .ok v => ⟨none, { e with Value := v }, s⟩
  else ⟨none, e, s⟩

/-- `Expression.Eval`. -/
def Expression.Eval {σ κ : Type} (pf : FloatParser) (evaluator : Evaluator σ κ) (ctx : κ)
    (e : Expression) (s : σ) : EvalResult σ :=
  if !e.IsEvaluated then
    match evaluator e.Raw ctx s with
    | (.error err, s) => ⟨some err, e, s⟩
    | (.ok v, s) =>
      let e := { e with ValueString := v, IsEvaluated := true }
      if e.Typ = "string" then
        ⟨none, { e with Value := .str e.ValueString }, s⟩
      else if e.Typ = "uint32" then
        coerceCase e s (.uint32 0) fun str => (ParseInt str 10 32).map fun i => .uint32 (toUint32 i)
      else if e.Typ = "int32" then
        coerceCase e s (.int32 0) fun str => (ParseInt str 10 32).map fun i => .int32 (toInt32 i)
      else if e.Typ = "int" ∨ e.Typ = "int64" then
        coerceCase e s (.int64 0) fun str => (ParseInt str 10 64).map fun i => .int64 i
      else if e.Typ = "uint" ∨ e.Typ = "uint64" then
        coerceCase e s (.uint64 0) fun str => (ParseInt str 10 64).map fun i => .uint64 (toUint64 i)
      else if e.Typ = "float32" then
        coerceCase e s (.float32 .zero) fun str => (pf str 32).map fun f => .float32 f
      else if e.Typ = "float64" then
        coerceCase e s (.float64 .zero) fun str => (pf str 64).map fun f => .float64 f
      else if e.Typ = "bool" then
        coerceCase e s (.bool false) fun str => (ParseBool str).map fun b => .bool b
      else
        ⟨none, e, s⟩
  else
    ⟨none, e, s⟩

/-! ## pkg/tasks: Task and TaskMap -/

/-- The struct `tasks.Task`. -/
structure Task where
  Id : String := ""
  Name : String := ""
  Uses : String := ""
  Description : String := ""
  With : List (String × Expression) := []
  Env : List (String × Expression) := []
  Timeout : Option Expression := none
  Force : Option Expression := none
  If : Option Expression := none
  Cwd : Option Expression := none
  Needs : List String := []
  RunExpr : Option Expression := none
  deriving DecidableEq

/-- The struct `tasks.TaskMap`: `tasks` is `map[string]*Task` (`none` is the nil
map, an entry `(k, none)` a nil pointer stored under `k`), `order` the slice of
keys. -/
structure TaskMap where
  tasks : Option (List (String × Option Task)) := none
  order : List String := []
  deriving DecidableEq

namespace TaskMap

/-- The entries of the lookup table; reading a nil map reads an empty one. -/
def entries (o : TaskMap) : List (String × Option Task) :=
  o.tasks.getD []

/-- `TaskMap.Has`. -/
def Has (o : TaskMap) (key : String) : Bool :=
  match o.tasks with
  | none => false
  | some t => (t.lookup key).isSome

/-- `TaskMap.Get`: the stored pointer, nil when the key is absent. -/
def Get (o : TaskMap) (key : String) : Option Task :=
  match o.tasks with
  | none => none
  | some t => (t.lookup key).join

/-- `TaskMap.Keys`. -/
def Keys (o : TaskMap) : List String :=
  o.order

/-- The loop of `TaskMap.Values`: `*o.tasks[key]` dereferences the pointer stored
under `key`, nil when the key is absent. -/
def valuesLoop (o : TaskMap) : List String → List Task → Except Fault (List Task)
  | [], values => .ok values
  | key :: keys, values =>
    match (o.entries.lookup key).join with
    | none => .error .nilDeref
    | some t => valuesLoop o keys (values ++ [t])

/-- `TaskMap.Values`. -/
def Values (o : TaskMap) : Except Fault (List Task) :=
  valuesLoop o o.order []

end TaskMap

/-- The linear search `for _, next := range results { if next.Id == id ... }`. -/
def foundId (results : List Task) (id : String) : Bool :=
  results.any (fun next => next.Id == id)

/-- The inner loop of `flatten` over `task.Needs`; `recur` is the recursive call
`flatten(tasks, []Task{*child})`. -/
def flattenDeps (recur : Task → Except Fault (List Task)) (tasks : TaskMap) (task : Task) :
    List String → List Task → Except Fault (List Task)
  | [], results => .ok results
  | dep :: deps, results =>
    if !tasks.Has dep then
      flattenDeps recur tasks task deps results
    else
      match tasks.Get dep with
      | none =>
        .error (.error (.msg ("task " ++ task.Id ++ " depends on missing task " ++ dep)))
      | some child =>
        match recur child with
        | .error e => .error e
        | .ok childResult =>
          let results := results ++ childResult
          let results := if foundId results child.Id then results else results ++ [child]
          flattenDeps recur tasks task deps results

/-- The outer loop of `flatten` over `set`. -/
def flattenSet (recur : Task → Except Fault (List Task)) (tasks : TaskMap) :
    List Task → List Task → Except Fault (List Task)
  | [], results => .ok results
  | task :: set, results =>
    match flattenDeps recur tasks task task.Needs results with
    | .error e => .error e
    | .ok results =>
      let results := if foundId results task.Id then results else results ++ [task]
      flattenSet recur tasks set results

/-- The function `flatten`; `fuel` bounds the depth of the recursion. -/
def flatten : Nat → TaskMap → List Task → Except Fault (List Task)
  | 0, _, _ => .error .outOfFuel
  | fuel + 1, tasks, set =>
    flattenSet (fun child => flatten fuel tasks [child]) tasks set []

/-- `TaskMap.Flatten`. -/
def TaskMap.Flatten (fuel : Nat) (o : TaskMap) (targets : List Task) :
    Except Fault (List Task) :=
  if targets.length = 0 then
    match o.Values with
    | .error e => .error e
    | .ok values => flatten fuel o values
  else
    flatten fuel o targets

/-- The search at the head of `findCycle`: the index of the first element of the
stack with the Id, `-1` when there is none. -/
def stackIndex (s : List Task) (id : String) : Int :=
  match s.findIdx? (fun t => t.Id == id) with
  | some i => (i : Int)
  | none => -1

/-- The loop of `findCycle` over `task.Needs`.  `recur` is the recursive call
`findCycle(child, stack, tasks)`; the second component of a result is the slice
that `*stack` holds afterwards. -/
def findCycleDeps (recur : Task → List Task → Except Fault (Bool × List Task))
    (tasks : TaskMap) : List String → List Task → Except Fault (Bool × List Task)
  | [], stack => .ok (true, stack)
  | dep :: deps, stack =>
    if !tasks.Has dep then
      findCycleDeps recur tasks deps stack
    else
      match tasks.Get dep with
      | none => findCycleDeps recur tasks deps stack
      | some child =>
        match recur child stack with
        | .error e => .error e
        | .ok (false, stack) => .ok (false, stack)
        | .ok (true, stack) => findCycleDeps recur tasks deps stack

/-- The function `findCycle`: the result and the slice left in `*stack`.  `fuel`
bounds the depth of the recursion. -/
def findCycle : Nat → Task → List Task → TaskMap → Except Fault (Bool × List Task)
  | 0, _, _, _ => .error .outOfFuel
  | fuel + 1, task, stack, tasks =>
    let s := stack
    if stackIndex s task.Id ≥ 0 then
      .ok (false, stack)
    else
      let s := s ++ [task]
      match findCycleDeps (fun child st => findCycle fuel child st tasks) tasks task.Needs s with
      | .error e => .error e
      | .ok (false, stack) => .ok (false, stack)
      | .ok (true, _) => .ok (true, s.dropLast)

/-- The loop of `FindCyclicalReferences` over the map, threading `cycles` and the
shared `stack`. -/
def findCyclicalLoop (fuel : Nat) (o : TaskMap) :
    List (String × Option Task) → List Task → List Task → Except Fault (List Task)
  | [], cycles, _ => .ok cycles
  | (_, none) :: _, _, _ => .error .nilDeref
  | (_, some task) :: rest, cycles, stack =>
    match findCycle fuel task stack o with
    | .error e => .error e
    | .ok (false, stack) => findCyclicalLoop fuel o rest (cycles ++ [task]) stack
    | .ok (true, stack) => findCyclicalLoop fuel o rest cycles stack

/-- `TaskMap.FindCyclicalReferences`; `none` is the nil slice. -/
def TaskMap.FindCyclicalReferences (fuel : Nat) (o : TaskMap) :
    Except Fault (Option (List Task)) :=
  match findCyclicalLoop fuel o o.entries [] [] with
  | .error e => .error e
  | .ok cycles => if cycles.length = 0 then .ok none else .ok (some cycles)

/-- The struct `MissingDepResult`. -/
structure MissingDepResult where
  Task : Option Task := none
  Missing : List String := []
  deriving DecidableEq

/-- The struct `MissingDependencyError`. -/
structure MissingDependencyError where
  message : String
  Tasks : MissingDepResult
  deriving DecidableEq

/-- The inner loop of `MissingDependencies` over `task.Needs`. -/
def missingDepsOfTask (o : TaskMap) (task : Task) :
    List String → MissingDepResult → MissingDepResult
  | [], missing => missing
  | dep :: deps, missing =>
    if !o.Has dep then
      let missing := if missing.Task = none then { missing with Task := some task } else missing
      missingDepsOfTask o task deps { missing with Missing := missing.Missing ++ [dep] }
    else
      missingDepsOfTask o task deps missing

/-- The outer loop of `MissingDependencies` over the map. -/
def missingDepsLoop (o : TaskMap) :
    List (String × Option Task) → MissingDepResult → Except Fault MissingDepResult
  | [], missing => .ok missing
  | (_, none) :: _, _ => .error .nilDeref
  | (_, some task) :: rest, missing =>
    missingDepsLoop o rest (missingDepsOfTask o task task.Needs missing)

/-- `TaskMap.MissingDependencies`; `none` is the nil error. -/
def TaskMap.MissingDependencies (o : TaskMap) : Except Fault (Option MissingDependencyError) :=
  match missingDepsLoop o o.entries {} with
  | .error e => .error e
  | .ok missing =>
    if missing.Task ≠ none then
      .ok (some { message := "missing dependencies", Tasks := missing })
    else
      .ok none

/-! ## pkg/primitives -/

/-- The assignment `m[key] = value` on a map that is not nil. -/
def goMapSet {β : Type} (key : String) (value : β) : List (String × β) → List (String × β)
  | [] => [(key, value)]
  | (k, v) :: rest =>
    if k = key then (k, value) :: rest else (k, v) :: goMapSet key value rest

/-- The struct `primitives.InputDescriptor`; `Default` is an `interface{}`, nil is
`Value.null`. -/
structure InputDescriptor where
  Name : String := ""
  Description : String := ""
  Typ : String := ""
  IsRequired : Bool := false
  Default : Value := .null
  IsSecret : Bool := false
  deriving DecidableEq

/-- The struct `primitives.OutputDescriptor`. -/
structure OutputDescriptor where
  Name : String := ""
  Description : String := ""
  Typ : String := ""
  IsSecret : Bool := false
  IsRequired : Bool := false
  deriving DecidableEq

/-- The struct `primitives.ObjectMap`: `Items` is `map[string]interface{}` (`none`
is the nil map), `order` the slice of keys.  The values are the scalars of
`Value`. -/
structure ObjectMap where
  Items : Option (List (String × Value)) := none
  order : List String := []
  deriving DecidableEq

namespace ObjectMap

/-- `ObjectMap.Has`. -/
def Has (o : ObjectMap) (key : String) : Bool :=
  match o.Items with
  | none => false
  | some items => (items.lookup key).isSome

/-- `ObjectMap.Get`: the stored value, nil when the key is absent. -/
def Get (o : ObjectMap) (key : String) : Value :=
  match o.Items with
  | none => .null
  | some items => (items.lookup key).getD .null

/-- `ObjectMap.Set`. -/
def Set (o : ObjectMap) (key : String) (value : Value) : ObjectMap :=
  let items := match o.Items with
    | none => []
    | some items => items
  let order := if (items.lookup key).isSome then o.order else o.order ++ [key]
  { Items := some (goMapSet key value items), order := order }

/-- `ObjectMap.Keys`. -/
def Keys (o : ObjectMap) : List String :=
  o.order

end ObjectMap

/-! ## pkg/tasks: descriptors, state and context -/

/-- The struct `tasks.TaskDescriptor`; the maps are read only, a nil map reads as
an empty one. -/
structure TaskDescriptor where
  Id : String := ""
  Version : String := ""
  Description : String := ""
  Inputs : List (String × InputDescriptor) := []
  Outputs : List (String × OutputDescriptor) := []
  Redirect : Bool := false
  RunFile : String := ""
  Uses : String := ""
  deriving DecidableEq

/-- The struct `tasks.TaskState`; `Inputs` and `Outputs` are pointers, `Env` is a
map (`none` is nil in all three), `Timeout` is a `uint32`.  A Go map is a
reference: `EnvShared` says that the field `Env` refers to the very map that
`ctx.Env` refers to.  The entries of that map are then the ones of `ctx.Env`, and
the list in `Env` is not read. -/
structure TaskState where
  Id : String := ""
  Name : String := ""
  Uses : String := ""
  Description : String := ""
  Inputs : Option ObjectMap := none
  Outputs : Option ObjectMap := none
  Force : Bool := false
  Timeout : Nat := 0
  If : Bool := false
  Env : Option (List (String × String)) := none
  EnvShared : Bool := false
  Cwd : String := ""
  Needs : List String := []
  RunExpr : String := ""
  deriving DecidableEq

/-- The struct `tasks.TaskContext` with the fields of the embedded
`primitives.Context` that `Task.Eval` touches (`Signal`, `Services` and `Bus` are
not used by it).  The field `Evaluator` is passed to `Task.Eval` as an argument
of its own: the call never assigns it. -/
structure TaskContext where
  Env : Option (List (String × String)) := none
  Vars : Option ObjectMap := none
  Secrets : Option (List (String × String)) := none
  Outputs : Option ObjectMap := none
  State : Option TaskState := none
  Descriptor : Option TaskDescriptor := none
  deriving DecidableEq

/-- The map `data` that `Task.Eval` hands to the Evaluator.  `env` is the map of
the context itself, so the Evaluator sees the entries written so far. -/
structure EvalData where
  env : Option (List (String × String))
  secrets : Option (List (String × String))
  outputs : List (String × Value)
  vars : List (String × Value)
  deriving DecidableEq

/-! ## pkg/tasks: Task.Eval -/

/-- The type assertion `x.(string)`. -/
def Value.assertString : Value → Except Fault String
  | .str s => .ok s
  | _ => .error .typeAssert

/-- The type assertion `x.(uint32)`. -/
def Value.assertUint32 : Value → Except Fault Nat
  | .uint32 n => .ok n
  | _ => .error .typeAssert

/-- The type assertion `x.(bool)`. -/
def Value.assertBool : Value → Except Fault Bool
  | .bool b => .ok b
  | _ => .error .typeAssert

/-- The state `Task.Eval` creates when the context has none. -/
def freshState (t : Task) : TaskState :=
  { Id := t.Id, Name := t.Name, Uses := t.Uses, Description := t.Description,
    Inputs := some {}, Outputs := some {}, Force := false, Timeout := 0, If := true,
    Env := some [], Cwd := "", RunExpr := "" }

/-- The head of `Task.Eval`: `if ctx.State == nil { ctx.State = &TaskState{...} }`. -/
def initState (t : Task) (ctx : TaskContext) : TaskContext :=
  match ctx.State with
  | some _ => ctx
  | none => { ctx with State := some (freshState t) }

/-- The assignment `ctx.Env[k] = v`.  A state that refers to the same map sees the
entry as well: its entries are read from `ctx.Env` (`TaskState.EnvShared`). -/
def ctxEnvSet (ctx : TaskContext) (k v : String) : Except Fault TaskContext :=
  match ctx.Env with
  | none => .error .nilMapWrite
  | some env => .ok { ctx with Env := some (goMapSet k v env) }

/-- The assignment `ctx.State.Env[k] = v`; it writes to the map of `ctx.Env` when
the state refers to that map. -/
def stateEnvSet (ctx : TaskContext) (k v : String) : Except Fault TaskContext :=
  match ctx.State with
  | none => .error .nilDeref
  | some st =>
    if st.EnvShared then ctxEnvSet ctx k v
    else
      match st.Env with
      | none => .error .nilMapWrite
      | some env => .ok { ctx with State := some { st with Env := some (goMapSet k v env) } }

/-- The call `ctx.State.Inputs.Set(key, value)`. -/
def stateInputsSet (ctx : TaskContext) (key : String) (value : Value) :
    Except Fault TaskContext :=
  match ctx.State with
  | none => .error .nilDeref
  | some st =>
    match st.Inputs with
    | none => .error .nilDeref
    | some inputs => .ok { ctx with State := some { st with Inputs := some (inputs.Set key value) } }

/-- The call `ctx.State.Inputs.Has(name)`. -/
def stateInputsHas (ctx : TaskContext) (name : String) : Except Fault Bool :=
  match ctx.State with
  | none => .error .nilDeref
  | some st =>
    match st.Inputs with
    | none => .error .nilDeref
    | some inputs => .ok (inputs.Has name)

/-- The loop `for k, v := range ctx.Env { ctx.State.Env[k] = v }`. -/
def mergeEnvLoop : List (String × String) → TaskContext → Except Fault TaskContext
  | [], ctx => .ok ctx
  | (k, v) :: rest, ctx =>
    match stateEnvSet ctx k v with
    | .error f => .error f
    | .ok ctx => mergeEnvLoop rest ctx

/-- The loop of `mapOutputs` over the keys; the two cases for nested maps never
fire on the scalars of `Value`. -/
def mapOutputsLoop (outputs : ObjectMap) :
    List String → List (String × Value) → List (String × Value)
  | [], result => result
  | key :: keys, result =>
    let value := outputs.Get key
    if value = .null then mapOutputsLoop outputs keys result
    else mapOutputsLoop outputs keys (goMapSet key value result)

/-- The function `mapOutputs`; `outputs.Keys()` dereferences the pointer. -/
def mapOutputs (outputs : Option ObjectMap) : Except Fault (List (String × Value)) :=
  match outputs with
  | none => .error .nilDeref
  | some o => .ok (mapOutputsLoop o o.Keys [])

/-- The map `data` as the Evaluator sees it at this point of the call. -/
def mkData (ctx : TaskContext) (outputs vars : List (String × Value)) : EvalData :=
  { env := ctx.Env, secrets := ctx.Secrets, outputs := outputs, vars := vars }

/-- The guarded call `if !value.IsEvaluated { err := value.Eval(...) }`. -/
def resolve {σ : Type} (pf : FloatParser) (ev : Evaluator σ EvalData) (data : EvalData)
    (value : Expression) (es : σ) : EvalResult σ :=
  if !value.IsEvaluated then value.Eval pf ev data es else ⟨none, value, es⟩

/-- Where a loop of `Task.Eval` stands: what it returns if it stops here (`ok`
when it goes on), the context, and the state of the Evaluator.  After a panic
the context is the one the model last recorded. -/
structure Step (σ : Type) where
  outcome : Except Fault Unit
  ctx : TaskContext
  es : σ

/-- The body of the loop over `t.Env`; `value` is the loop variable, a copy of
the map entry. -/
def envStep {σ : Type} (pf : FloatParser) (ev : Evaluator σ EvalData)
    (outputs vars : List (String × Value)) (key : String) (value : Expression)
    (ctx : TaskContext) (es : σ) : Step σ :=
  let r := resolve pf ev (mkData ctx outputs vars) value es
  match r.err with
  | some err => ⟨.error (.error err), ctx, r.state⟩
  | none =>
    match r.expr.Value.assertString with
    | .error f => ⟨.error f, ctx, r.state⟩
    | .ok s =>
      match ctxEnvSet ctx key s with
      | .error f => ⟨.error f, ctx, r.state⟩
      | .ok ctx1 =>
        match stateEnvSet ctx1 key s with
        | .error f => ⟨.error f, ctx1, r.state⟩
        | .ok ctx2 => ⟨.ok (), ctx2, r.state⟩

/-- The loop over `t.Env`. -/
def envLoop {σ : Type} (pf : FloatParser) (ev : Evaluator σ EvalData)
    (outputs vars : List (String × Value)) :
    List (String × Expression) → TaskContext → σ → Step σ
  | [], ctx, es => ⟨.ok (), ctx, es⟩
  | (key, value) :: rest, ctx, es =>
    match envStep pf ev outputs vars key value ctx es with
    | ⟨.error f, ctx, es⟩ => ⟨.error f, ctx, es⟩
    | ⟨.ok (), ctx, es⟩ => envLoop pf ev outputs vars rest ctx es

/-- The type switch of the loop over `t.With`: the value to store under the
key (`none` when no case matches the declared type, so that nothing is stored),
or the error of the case.  `value` is the resolved string. -/
def coerceInput (pf : FloatParser) (t : Task) (key : String) (inp : InputDescriptor)
    (value : String) : Except GoError (Option Value) :=
  if inp.Typ = "int" ∨ inp.Typ = "int64" then
    if value ≠ "" then
      match ParseInt value 10 64 with
      | .error _ =>
        .error (.msg ("input " ++ key ++ " must be a valid integer for task " ++ t.Id))
      | .ok i2 => .ok (some (.int64 i2))
    else
      match inp.Default with
      | .int64 v => .ok (some (.int64 v))
      | _ => .ok (some (.int64 0))
  else if inp.Typ = "int32" then
    if value ≠ "" then
      match ParseInt value 10 32 with
      | .error _ =>
        .error (.msg ("input " ++ key ++ " must be a valid integer for task " ++ t.Id))
      | .ok i2 => .ok (some (.int32 (toInt32 i2)))
    else
      match inp.Default with
      | .int32 v => .ok (some (.int32 v))
      | _ => .ok (some (.int32 0))
  else if inp.Typ = "uint" ∨ inp.Typ = "uint64" then
    if value ≠ "" then
      match ParseUint value 10 64 with
      | .error _ =>
        .error (.msg ("input " ++ key ++ " must be a valid unsigned integer for task " ++ t.Id))
      | .ok i2 => .ok (some (.uint64 i2))
    else
      match inp.Default with
      | .uint64 v => .ok (some (.uint64 v))
      | _ => .ok (some (.uint64 0))
  else if inp.Typ = "uint32" then
    if value ≠ "" then
      match ParseUint value 10 32 with
      | .error _ =>
        .error (.msg ("input " ++ key ++ " must be a valid unsigned integer for task " ++ t.Id))
      | .ok i2 => .ok (some (.uint32 (i2 % 2 ^ 32)))
    else
      match inp.Default with
      | .uint32 v => .ok (some (.uint32 v))
      | _ => .ok (some (.uint32 0))
  else if inp.Typ = "number" ∨ inp.Typ = "float" ∨ inp.Typ = "float64" then
    if value ≠ "" then
      match pf value 64 with
      | .error _ => .error (.msg ("input " ++ key ++ " must be a valid float for task " ++ t.Id))
      | .ok f2 => .ok (some (.float64 f2))
    else
      match inp.Default with
      | .float64 v => .ok (some (.float64 v))
      | _ => .ok (some (.float64 .zero))
  else if inp.Typ = "float32" then
    if value ≠ "" then
      match pf value 32 with
      | .error _ => .error (.msg ("input " ++ key ++ " must be a valid float for task " ++ t.Id))
      | .ok f2 => .ok (some (.float32 f2))
    else
      match inp.Default with
      | .float32 v => .ok (some (.float32 v))
      | _ => .ok (some (.float32 .zero))
  else if inp.Typ = "bool" then
    if value ≠ "" then
      match ParseBool value with
      | .error _ =>
        .error (.msg ("input " ++ key ++ " must be a valid boolean for task " ++ t.Id))
      | .ok b2 => .ok (some (.bool b2))
    else
      match inp.Default with
      | .bool v => .ok (some (.bool v))
      | _ => .ok (some (.bool false))
  else
    .ok none

/-- The loop `for _, input := range ctx.Descriptor.Inputs` that sits at the end
of the body of the loop over `t.With`. -/
def requiredCheck (t : Task) (ctx : TaskContext) :
    List (String × InputDescriptor) → Except Fault Unit
  | [] => .ok ()
  | (_, input) :: rest =>
    if input.IsRequired then
      match stateInputsHas ctx input.Name with
      | .error f => .error f
      | .ok true => requiredCheck t ctx rest
      | .ok false =>
        .error (.error (.msg ("input " ++ input.Name ++ " is required for task " ++ t.Id)))
    else requiredCheck t ctx rest

/-- The body of the loop over `t.With`; `underscore` is
`xstrings.Underscore(key, xstrings.Screaming)` of the library go-xstrings. -/
def withStep {σ : Type} (pf : FloatParser) (underscore : String → String)
    (ev : Evaluator σ EvalData) (outputs vars : List (String × Value)) (t : Task)
    (d : TaskDescriptor) (key : String) (value : Expression) (ctx : TaskContext) (es : σ) :
    Step σ :=
  match d.Inputs.lookup key with
  | none =>
    ⟨.error (.error (.msg ("input " ++ key ++ " is not defined for task " ++ t.Id))), ctx, es⟩
  | some inp =>
    let r := resolve pf ev (mkData ctx outputs vars) value es
    match r.err with
    | some err => ⟨.error (.error err), ctx, r.state⟩
    | none =>
      match r.expr.Value.assertString with
      | .error f => ⟨.error f, ctx, r.state⟩
      | .ok value =>
        if inp.IsRequired ∧ value = "" then
          ⟨.error (.error (.msg ("input " ++ key ++ " is required for task " ++ t.Id))), ctx,
            r.state⟩
        else
          match ctxEnvSet ctx ("INPUT_" ++ underscore key) value with
          | .error f => ⟨.error f, ctx, r.state⟩
          | .ok ctx1 =>
            match coerceInput pf t key inp value with
            | .error e => ⟨.error (.error e), ctx1, r.state⟩
            | .ok none => ⟨requiredCheck t ctx1 d.Inputs, ctx1, r.state⟩
            | .ok (some x) =>
              match stateInputsSet ctx1 key x with
              | .error f => ⟨.error f, ctx1, r.state⟩
              | .ok ctx2 => ⟨requiredCheck t ctx2 d.Inputs, ctx2, r.state⟩

/-- The loop over `t.With`. -/
def withLoop {σ : Type} (pf : FloatParser) (underscore : String → String)
    (ev : Evaluator σ EvalData) (outputs vars : List (String × Value)) (t : Task)
    (d : TaskDescriptor) : List (String × Expression) → TaskContext → σ → Step σ
  | [], ctx, es => ⟨.ok (), ctx, es⟩
  | (key, value) :: rest, ctx, es =>
    match withStep pf underscore ev outputs vars t d key value ctx es with
    | ⟨.error f, ctx, es⟩ => ⟨.error f, ctx, es⟩
    | ⟨.ok (), ctx, es⟩ => withLoop pf underscore ev outputs vars t d rest ctx es

/-- The block `if len(t.With) > 0 { ... }`. -/
def withPhase {σ : Type} (pf : FloatParser) (underscore : String → String)
    (ev : Evaluator σ EvalData) (outputs vars : List (String × Value)) (t : Task)
    (ctx : TaskContext) (es : σ) : Step σ :=
  if t.With.length > 0 then
    match ctx.Descriptor with
    | none => ⟨.error (.error (.msg ("inputs are not defined for task " ++ t.Id))), ctx, es⟩
    | some d => withLoop pf underscore ev outputs vars t d t.With ctx es
  else ⟨.ok (), ctx, es⟩

/-- Where the evaluation of one of the optional fields stands: as `Step`, with
the field after the call (the pointer's target is changed in place). -/
structure FieldStep (σ : Type) where
  outcome : Except Fault Unit
  field : Option Expression
  ctx : TaskContext
  es : σ

/-- The pattern shared by `Timeout`, `Force`, `Cwd`, `If` and `RunExpr`:
`if t.F != nil { if !t.F.IsEvaluated { ... }; ctx.State.F = t.F.Value.(T) }`. -/
def evalField {σ : Type} (pf : FloatParser) (ev : Evaluator σ EvalData)
    (outputs vars : List (String × Value)) (field : Option Expression)
    (assign : Value → TaskState → Except Fault TaskState) (ctx : TaskContext) (es : σ) :
    FieldStep σ :=
  match field with
  | none => ⟨.ok (), none, ctx, es⟩
  | some e =>
    let r := resolve pf ev (mkData ctx outputs vars) e es
    match r.err with
    | some err => ⟨.error (.error err), some r.expr, ctx, r.state⟩
    | none =>
      match ctx.State with
      | none => ⟨.error .nilDeref, some r.expr, ctx, r.state⟩
      | some st =>
        match assign r.expr.Value st with
        | .error f => ⟨.error f, some r.expr, ctx, r.state⟩
        | .ok st => ⟨.ok (), some r.expr, { ctx with State := some st }, r.state⟩

/-- The assignment `ctx.State.Timeout = t.Timeout.Value.(uint32)`. -/
def assignTimeout (v : Value) (st : TaskState) : Except Fault TaskState :=
  match v.assertUint32 with
  | .error f => .error f
  | .ok n => .ok { st with Timeout := n }

/-- The assignment `ctx.State.Force = t.Force.Value.(bool)`. -/
def assignForce (v : Value) (st : TaskState) : Except Fault TaskState :=
  match v.assertBool with
  | .error f => .error f
  | .ok b => .ok { st with Force := b }

/-- The assignment `ctx.State.Cwd = t.Cwd.Value.(string)`. -/
def assignCwd (v : Value) (st : TaskState) : Except Fault TaskState :=
  match v.assertString with
  | .error f => .error f
  | .ok s => .ok { st with Cwd := s }

/-- The assignment `ctx.State.If = t.If.Value.(bool)`. -/
def assignIf (v : Value) (st : TaskState) : Except Fault TaskState :=
  match v.assertBool with
  | .error f => .error f
  | .ok b => .ok { st with If := b }

/-- The assignment `ctx.State.RunExpr = t.RunExpr.Value.(string)`. -/
def assignRunExpr (v : Value) (st : TaskState) : Except Fault TaskState :=
  match v.assertString with
  | .error f => .error f
  | .ok s => .ok { st with RunExpr := s }

/-- What a call of `Task.Eval` leaves behind: what it returns (`ok` is the nil
error), the receiver, the context and the state of the Evaluator after the
call. -/
structure TaskEvalResult (σ : Type) where
  outcome : Except Fault Unit
  task : Task
  ctx : TaskContext
  es : σ

/-- The tail of `Task.Eval`: the five optional fields, in the order of the
source. -/
def fieldsPhase {σ : Type} (pf : FloatParser) (ev : Evaluator σ EvalData)
    (outputs vars : List (String × Value)) (t : Task) (ctx : TaskContext) (es : σ) :
    TaskEvalResult σ :=
  match evalField pf ev outputs vars t.Timeout assignTimeout ctx es with
  | ⟨.error f, fld, ctx, es⟩ => ⟨.error f, { t with Timeout := fld }, ctx, es⟩
  | ⟨.ok (), fld, ctx, es⟩ =>
    let t := { t with Timeout := fld }
    match evalField pf ev outputs vars t.Force assignForce ctx es with
    | ⟨.error f, fld, ctx, es⟩ => ⟨.error f, { t with Force := fld }, ctx, es⟩
    | ⟨.ok (), fld, ctx, es⟩ =>
      let t := { t with Force := fld }
      match evalField pf ev outputs vars t.Cwd assignCwd ctx es with
      | ⟨.error f, fld, ctx, es⟩ => ⟨.error f, { t with Cwd := fld }, ctx, es⟩
      | ⟨.ok (), fld, ctx, es⟩ =>
        let t := { t with Cwd := fld }
        match evalField pf ev outputs vars t.If assignIf ctx es with
        | ⟨.error f, fld, ctx, es⟩ => ⟨.error f, { t with If := fld }, ctx, es⟩
        | ⟨.ok (), fld, ctx, es⟩ =>
          let t := { t with If := fld }
          match evalField pf ev outputs vars t.RunExpr assignRunExpr ctx es with
          | ⟨.error f, fld, ctx, es⟩ => ⟨.error f, { t with RunExpr := fld }, ctx, es⟩
          | ⟨.ok (), fld, ctx, es⟩ => ⟨.ok (), { t with RunExpr := fld }, ctx, es⟩

/-- `Task.Eval`.  The loops over `t.Env` and `t.With` work on copies of the map
entries, so the maps of the receiver are as before; the five optional fields are
pointers and are evaluated in place. -/
def Task.Eval {σ : Type} (pf : FloatParser) (underscore : String → String)
    (ev : Evaluator σ EvalData) (t : Task) (ctx : TaskContext) (es : σ) : TaskEvalResult σ :=
  let ctx := initState t ctx
  match mergeEnvLoop (ctx.Env.getD []) ctx with
  | .error f => ⟨.error f, t, ctx, es⟩
  | .ok ctx =>
    match mapOutputs ctx.Outputs with
    | .error f => ⟨.error f, t, ctx, es⟩
    | .ok outputs =>
      match mapOutputs ctx.Vars with
      | .error f => ⟨.error f, t, ctx, es⟩
      | .ok vars =>
        match envLoop pf ev outputs vars t.Env ctx es with
        | ⟨.error f, ctx, es⟩ => ⟨.error f, t, ctx, es⟩
        | ⟨.ok (), ctx, es⟩ =>
          match withPhase pf underscore ev outputs vars t ctx es with
          | ⟨.error f, ctx, es⟩ => ⟨.error f, t, ctx, es⟩
          | ⟨.ok (), ctx, es⟩ => fieldsPhase pf ev outputs vars t ctx es

/-- The case `timeout` of `Task.UnmarshalYAML` for a scalar node with the text
`value`: the Expression stored in `s.Timeout`, or the error of the case.  The
untyped constant in `s.Timeout.Value = 0` becomes an `int` in the interface. -/
def unmarshalTimeout (value : String) (line column : Nat) : Except GoError Expression :=
  let timeout : Expression := { Raw := value, IsEvaluated := false, Typ := "uint32" }
  let actual := TrimSpace value
  if actual = "" then
    .ok { timeout with Value := .int 0, IsEvaluated := true, ValueString := "0" }
  else if ¬ ("$\x7b\x7b".data <:+: actual.data) then
    match ParseUint actual 10 32 with
    | .error _ =>
      .error (.msg ("timeout must be a valid unsigned integer on line " ++ toString line ++
        " at column " ++ toString column))
    | .ok v => .ok { timeout with Value := .uint32 (v % 2 ^ 32), IsEvaluated := true,
                                  ValueString := actual }
  else .ok timeout

/-! ## Go maps and slices in the containers -/

/-- The statement `delete(m, key)` on a map that is not nil. -/
def goMapDelete {β : Type} (key : String) (m : List (String × β)) : List (String × β) :=
  m.filter fun kv => kv.1 != key

/-- The loop `for key, value := range m { result[key] = value }`. -/
def goMapCopy {β : Type} : List (String × β) → List (String × β) → List (String × β)
  | [], result => result
  | (key, value) :: rest, result => goMapCopy rest (goMapSet key value result)

/-- The call `slices.Index(s, key)`: the first index of `key`, `-1` when there is
none. -/
def slicesIndex (s : List String) (key : String) : Int :=
  match s.findIdx? (fun k => k == key) with
  | some i => (i : Int)
  | none => -1

/-- The slice `append(s[:index], s[index+1:]...)` for an index in range. -/
def removeAt (s : List String) (index : Nat) : List String :=
  s.take index ++ s.drop (index + 1)

/-! ## pkg/primitives: the other methods of ObjectMap -/

namespace ObjectMap

/-- `ObjectMap.Add`: the map after the call and the returned bool. -/
def Add (o : ObjectMap) (key : String) (value : Value) : ObjectMap × Bool :=
  let items := match o.Items with
    | none => []
    | some items => items
  if (items.lookup key).isSome then ({ o with Items := some items }, false)
  else ({ Items := some (goMapSet key value items), order := o.order ++ [key] }, true)

/-- `ObjectMap.Delete`: `delete(o.Items, key)` and nothing else. -/
def Delete (o : ObjectMap) (key : String) : ObjectMap :=
  match o.Items with
  | none => o
  | some items => { o with Items := some (goMapDelete key items) }

/-- `ObjectMap.Values`; a key of `order` that the map does not hold gives nil. -/
def Values (o : ObjectMap) : List Value :=
  o.order.map fun key => ((o.Items.getD []).lookup key).getD .null

/-- `ObjectMap.Len`: `len(o.Items)`. -/
def Len (o : ObjectMap) : Nat :=
  match o.Items with
  | none => 0
  | some items => items.length

/-- `ObjectMap.Clear`. -/
def Clear (_ : ObjectMap) : ObjectMap :=
  { Items := some [], order := [] }

end ObjectMap

/-! ## pkg/collections: OrderedMap -/

/-- The struct `collections.OrderedMap[V]`; `none` is the nil map. -/
structure OrderedMap (V : Type) where
  items : Option (List (String × V)) := none
  order : List String := []
  deriving DecidableEq

namespace OrderedMap

variable {V : Type}

/-- The entries of the lookup table; reading a nil map reads an empty one. -/
def entries (o : OrderedMap V) : List (String × V) :=
  o.items.getD []

/-- `OrderedMap.Add`: the map after the call and the returned bool. -/
def Add (o : OrderedMap V) (key : String) (value : V) : OrderedMap V × Bool :=
  let items := match o.items with
    | none => []
    | some items => items
  if (items.lookup key).isSome then ({ o with items := some items }, false)
  else ({ items := some (goMapSet key value items), order := o.order ++ [key] }, true)

/-- `OrderedMap.Keys`. -/
def Keys (o : OrderedMap V) : List String :=
  o.order

/-- `OrderedMap.Values`; `default` is the zero value of `V`. -/
def Values [Inhabited V] (o : OrderedMap V) : List V :=
  o.order.map fun key => (o.entries.lookup key).getD default

/-- `OrderedMap.Len`. -/
def Len (o : OrderedMap V) : Nat :=
  o.order.length

/-- `OrderedMap.Clear`. -/
def Clear (_ : OrderedMap V) : OrderedMap V :=
  { items := none, order := [] }

/-- `OrderedMap.Copy`. -/
def Copy (o : OrderedMap V) : OrderedMap V :=
  { items := some (goMapCopy o.entries []), order := o.order }

/-- `OrderedMap.At`; `default` is the zero value of `V`. -/
def At [Inhabited V] (o : OrderedMap V) (index : Int) : String × V × Bool :=
  if index < 0 ∨ index ≥ o.order.length then ("", default, false)
  else
    let key := o.order.getD index.toNat ""
    match o.entries.lookup key with
    | some value => (key, value, true)
    | none => (key, default, false)

/-- `OrderedMap.Has`. -/
def Has (o : OrderedMap V) (key : String) : Bool :=
  match o.items with
  | none => false
  | some items => (items.lookup key).isSome

/-- `OrderedMap.Get`; `default` is the zero value of `V`. -/
def Get [Inhabited V] (o : OrderedMap V) (key : String) : V :=
  match o.items with
  | none => default
  | some items => (items.lookup key).getD default

/-- `OrderedMap.Set`. -/
def Set (o : OrderedMap V) (key : String) (value : V) : OrderedMap V :=
  let items := match o.items with
    | none => []
    | some items => items
  let order := if (items.lookup key).isSome then o.order else o.order ++ [key]
  { items := some (goMapSet key value items), order := order }

/-- `OrderedMap.Delete`. -/
def Delete (o : OrderedMap V) (key : String) : OrderedMap V :=
  match o.items with
  | none => o
  | some items =>
    if ¬ (items.lookup key).isSome then o
    else
      let index := slicesIndex o.order key
      { items := some (goMapDelete key items),
        order := if index ≠ -1 then removeAt o.order index.toNat else o.order }

end OrderedMap

/-! ## pkg/tasks: the other methods of TaskMap -/

namespace TaskMap

/-- `TaskMap.Add`: the map after the call and the returned bool; `value` is a
pointer and may be nil. -/
def Add (o : TaskMap) (key : String) (value : Option Task) : TaskMap × Bool :=
  let tasks := match o.tasks with
    | none => []
    | some tasks => tasks
  if (tasks.lookup key).isSome then ({ o with tasks := some tasks }, false)
  else ({ tasks := some (goMapSet key value tasks), order := o.order ++ [key] }, true)

/-- `TaskMap.Set`: the map stores a pointer to the argument. -/
def Set (o : TaskMap) (key : String) (value : Task) : TaskMap :=
  let tasks := match o.tasks with
    | none => []
    | some tasks => tasks
  let order := if (tasks.lookup key).isSome then o.order else o.order ++ [key]
  { tasks := some (goMapSet key (some value) tasks), order := order }

/-- `TaskMap.Delete`. -/
def Delete (o : TaskMap) (key : String) : TaskMap :=
  match o.tasks with
  | none => o
  | some tasks =>
    let index := slicesIndex o.order key
    { tasks := some (goMapDelete key tasks),
      order := if index ≥ 0 then removeAt o.order index.toNat else o.order }

/-- `TaskMap.Len`. -/
def Len (o : TaskMap) : Nat :=
  o.order.length

/-- `TaskMap.Clear`. -/
def Clear (_ : TaskMap) : TaskMap :=
  { tasks := none, order := [] }

/-- `TaskMap.Copy`. -/
def Copy (o : TaskMap) : TaskMap :=
  { tasks := some (goMapCopy o.entries []), order := o.order }

/-- `TaskMap.At`: `*value` dereferences the pointer read from the map, which is
nil when the key is absent or a nil pointer is stored. -/
def At (o : TaskMap) (index : Int) : Except Fault (String × Task × Bool) :=
  if index < 0 ∨ index ≥ o.order.length then .ok ("", {}, false)
  else
    let key := o.order.getD index.toNat ""
    match o.entries.lookup key with
    | some (some value) => .ok (key, value, true)
    | some none => .error .nilDeref
    | none => .error .nilDeref

end TaskMap

/-! ## pkg/tasks: TaskResult -/

/-- The struct `tasks.TaskResult`; the two `time.Time` fields are time stamps. -/
structure TaskResult where
  Id : String := ""
  Outputs : Option ObjectMap := none
  Status : Int := 0
  Error : Option GoError := none
  StartedAt : Nat := 0
  FinishedAt : Nat := 0
  deriving DecidableEq

namespace TaskResult

/-- `TaskResult.SetError`. -/
def SetError (t : TaskResult) (err : Option GoError) : TaskResult :=
  { t with Error := err, Status := 10 }

/-- `TaskResult.SetOutputs`. -/
def SetOutputs (t : TaskResult) (outputs : Option ObjectMap) : TaskResult :=
  { t with Outputs := outputs }

/-- `TaskResult.SetStatus`. -/
def SetStatus (t : TaskResult) (status : Int) : TaskResult :=
  { t with Status := status }

/-- `TaskResult.Start`; `now` is what `time.Now()` returns. -/
def Start (t : TaskResult) (now : Nat) : TaskResult :=
  { t with StartedAt := now }

/-- `TaskResult.Finish`. -/
def Finish (t : TaskResult) (now : Nat) : TaskResult :=
  { t with FinishedAt := now, Status := 1 }

/-- `TaskResult.Cancel`. -/
def Cancel (t : TaskResult) (now : Nat) : TaskResult :=
  { t with FinishedAt := now, Status := 5 }

/-- `TaskResult.Fail`; a nil `err` is `none`. -/
def Fail (t : TaskResult) (now : Nat) (err : Option GoError) : TaskResult :=
  { t with FinishedAt := now, Status := 10, Error := err }

/-- `TaskResult.Skip`. -/
def Skip (t : TaskResult) : TaskResult :=
  { t with Status := 2 }

end TaskResult

/-! ## pkg/tasks: how environment entries are built -/

/-- The Expression that `SetEnv`, `SetEnvEntry`, `SetWith` and `SetWithEntry` build
for a new entry. -/
def literalEntry (value : String) : Expression :=
  { Raw := value, Value := .str value, ValueString := value, IsEvaluated := true,
    Typ := "string" }

/-- The Expression that `SetEnvEntry` leaves when the key exists: the fields of
the old entry are overwritten, its Type is kept. -/
def overwriteEntry (old : Expression) (value : String) : Expression :=
  { old with Raw := value, Value := .str value, ValueString := value, IsEvaluated := true }

/-- `Task.SetEnv`: a new map with one literal entry for each entry of `env`. -/
def Task.SetEnv (t : Task) (env : List (String × String)) : Task :=
  { t with Env := env.foldl (fun m kv => goMapSet kv.1 (literalEntry kv.2) m) [] }

/-- `Task.SetEnvEntry`. -/
def Task.SetEnvEntry (t : Task) (key value : String) : Task :=
  match t.Env.lookup key with
  | none => { t with Env := goMapSet key (literalEntry value) t.Env }
  | some e => { t with Env := goMapSet key (overwriteEntry e value) t.Env }

/-- The entry that the case `env` of `Task.UnmarshalYAML` stores for a value node
with the text `value`. -/
def unmarshalEnvEntry (value : String) : Expression :=
  let target : Expression := { Raw := value, IsEvaluated := false, Typ := "string" }
  if value = "" ∨ ¬ ("$\x7b\x7b".data <:+: value.data) then
    { target with Value := .str value, ValueString := value, IsEvaluated := true }
  else target

/-! ## Vocabulary of the specification -/

namespace TaskMap

/-- The association list stands for a Go map: no key occurs twice. -/
def UniqueKeys (m : TaskMap) : Prop :=
  (m.entries.map Prod.fst).Nodup

/-- Each task is registered under its own Id (and no entry is a nil pointer). -/
def OwnId (m : TaskMap) : Prop :=
  ∀ kv ∈ m.entries, ∃ t : Task, kv.2 = some t ∧ t.Id = kv.1

/-- The invariant of the container: the order sequence has no duplicate and
holds exactly the keys of the lookup table. -/
def Inv (m : TaskMap) : Prop :=
  m.order.Nodup ∧ (∀ k ∈ m.order, m.Has k = true) ∧ ∀ kv ∈ m.entries, kv.1 ∈ m.order

/-- The task `t` is registered in the map (under some key). -/
def Registered (m : TaskMap) (t : Task) : Prop :=
  ∃ k, (k, some t) ∈ m.entries

/-- A direct need: the task registered under `a` lists `b` in its Needs. -/
def NeedsId (m : TaskMap) (a b : String) : Prop :=
  ∃ t, m.Get a = some t ∧ b ∈ t.Needs

/-- An edge of the dependency graph between registered tasks. -/
def Edge (m : TaskMap) (a b : String) : Prop :=
  ∃ t c, m.Get a = some t ∧ b ∈ t.Needs ∧ m.Get b = some c

/-- Every Id listed in the Needs of a registered task is registered. -/
def NeedsRegistered (m : TaskMap) : Prop :=
  ∀ kv ∈ m.entries, ∀ t ∈ kv.2, ∀ d ∈ t.Needs, m.Has d = true

/-- The graph of Needs edges between registered tasks has no cycle; an edge from
a task to itself is a cycle. -/
def Acyclic (m : TaskMap) : Prop :=
  ∀ a, ¬ Relation.TransGen m.Edge a a

/-- From `a` a cycle of the graph can be reached along zero or more edges. -/
def ReachesCycle (m : TaskMap) (a : String) : Prop :=
  ∃ x, Relation.ReflTransGen m.Edge a x ∧ Relation.TransGen m.Edge x x

instance (m : TaskMap) : Decidable m.UniqueKeys := by
  unfold UniqueKeys; infer_instance

instance (m : TaskMap) : Decidable m.OwnId := by
  unfold OwnId; infer_instance

instance (m : TaskMap) : Decidable m.Inv := by
  unfold Inv; infer_instance

instance (m : TaskMap) : Decidable m.NeedsRegistered := by
  unfold NeedsRegistered; infer_instance

end TaskMap

/-- Every element of `r` has all the tasks it transitively needs either in `seen`
or at an earlier position of `r`. -/
def DepsBefore (m : TaskMap) : List String → List Task → Prop
  | _, [] => True
  | seen, t :: r =>
    (∀ id, Relation.TransGen m.Edge t.Id id → id ∈ seen) ∧ DepsBefore m (t.Id :: seen) r

/-- What flattening the single registered task `c` yields in front of `c`. -/
def GoodResult (m : TaskMap) (c : Task) (r : List Task) : Prop :=
  DepsBefore m [] (r ++ [c]) ∧
    ∀ u ∈ r, m.Get u.Id = some u ∧ Relation.TransGen m.Edge c.Id u.Id

/-- `ts` is a chain: each task after the first needs exactly the task before
it. -/
def IsChain : List Task → Prop
  | [] => True
  | [_] => True
  | a :: b :: rest => b.Needs = [a.Id] ∧ IsChain (b :: rest)

instance IsChain.instDecidable : (ts : List Task) → Decidable (IsChain ts)
  | [] => isTrue trivial
  | [_] => isTrue trivial
  | a :: b :: rest =>
    match IsChain.instDecidable (b :: rest) with
    | isTrue h => if h' : b.Needs = [a.Id] then isTrue ⟨h', h⟩ else isFalse (fun hc => h' hc.1)
    | isFalse h => isFalse (fun hc => h hc.2)

/-- A check that `rank` decreases along every edge of the graph. -/
def rankOk (m : TaskMap) (rank : String → Nat) : Bool :=
  m.entries.all fun kv =>
    match kv.2 with
    | none => true
    | some t => t.Needs.all fun d => !m.Has d || decide (rank d < rank kv.1)

/-- The Go error that `flatten` builds: it names a task and an Id of its Needs
that the map holds with a nil task. -/
def IsMissingTaskError (m : TaskMap) (e : GoError) : Prop :=
  ∃ (task : Task) (dep : String),
    e = .msg ("task " ++ task.Id ++ " depends on missing task " ++ dep) ∧
      dep ∈ task.Needs ∧ m.Has dep = true ∧ m.Get dep = none

/-- The invariant of the path stack: no Id twice, and every element is the task
registered under its Id. -/
def StackOK (m : TaskMap) (st : List Task) : Prop :=
  (st.map Task.Id).Nodup ∧ ∀ u ∈ st, m.Get u.Id = some u

/-- From `a` one reaches, along zero or more edges, a task of the stack or a
task on a cycle. -/
def Blocked (m : TaskMap) (st : List Task) (a : String) : Prop :=
  ∃ x, Relation.ReflTransGen m.Edge a x ∧
    (x ∈ st.map Task.Id ∨ Relation.TransGen m.Edge x x)

/-- What a call of `findCycle` on the task with Id `a` and the stack `st` does:
it returns true and restores the stack when nothing blocks `a`, and otherwise
returns false and leaves the stack extended by blocked tasks. -/
def CycleOutcome (m : TaskMap) (st : List Task) (a : String)
    (res : Except Fault (Bool × List Task)) : Prop :=
  (¬ Blocked m st a ∧ res = .ok (true, st)) ∨
    (Blocked m st a ∧ ∃ st', res = .ok (false, st ++ st') ∧ StackOK m (st ++ st') ∧
      ∀ u ∈ st', Blocked m st u.Id)

/-- The Evaluator `ev` with a counter of its calls next to its state. -/
def Evaluator.counted {σ κ : Type} (ev : Evaluator σ κ) : Evaluator (σ × Nat) κ :=
  fun template ctx s => ((ev template ctx s.1).1, ((ev template ctx s.1).2, s.2 + 1))

/-- No entry of the map is a nil pointer. -/
def TaskMap.NoNil (m : TaskMap) : Prop :=
  ∀ kv ∈ m.entries, kv.2 ≠ none

instance (m : TaskMap) : Decidable m.NoNil := by
  unfold TaskMap.NoNil; infer_instance

/-- The Inputs of the state of a context, when both pointers are set. -/
def inputsOf (ctx : TaskContext) : Option ObjectMap :=
  ctx.State.bind fun st => st.Inputs

/-- The Expression `e` resolves to the string `v` in `Task.Eval`: either it is
already evaluated and holds `v`, or it is an unevaluated string Expression on
whose raw text the Evaluator answers `v` in every context. -/
def ResolvesTo {σ : Type} (ev : Evaluator σ EvalData) (e : Expression) (v : String) : Prop :=
  (e.IsEvaluated = true ∧ e.Value = .str v) ∨
    (e.IsEvaluated = false ∧ e.Typ = "string" ∧ ∀ data s, (ev e.Raw data s).1 = .ok v)

/-- The reading of "the Default has exactly the declared type": the dynamic type
of the value is the Go type that the declared type names (`int` names int64,
`uint` names uint64, `number` and `float` name float64). -/
def hasDeclaredType (typ : String) : Value → Bool
  | .int64 _ => typ = "int" ∨ typ = "int64"
  | .int32 _ => typ = "int32"
  | .uint64 _ => typ = "uint" ∨ typ = "uint64"
  | .uint32 _ => typ = "uint32"
  | .float64 _ => typ = "number" ∨ typ = "float" ∨ typ = "float64"
  | .float32 _ => typ = "float32"
  | .bool _ => typ = "bool"
  | _ => false

/-- The zero value of a declared input type. -/
def declaredZero (typ : String) : Value :=
  if typ = "int" ∨ typ = "int64" then .int64 0
  else if typ = "int32" then .int32 0
  else if typ = "uint" ∨ typ = "uint64" then .uint64 0
  else if typ = "uint32" then .uint32 0
  else if typ = "number" ∨ typ = "float" ∨ typ = "float64" then .float64 .zero
  else if typ = "float32" then .float32 .zero
  else if typ = "bool" then .bool false
  else .null

/-- What the claim expects under the key of an input given as the empty string:
the Default if it has the declared type, the zero value otherwise. -/
def expectedForEmpty (inp : InputDescriptor) : Value :=
  if hasDeclaredType inp.Typ inp.Default then inp.Default else declaredZero inp.Typ

/-- `Expression.Uint32`. -/
def Expression.Uint32 (s : Expression) : Except Fault Nat :=
  if !s.IsEvaluated || s.Typ != "uint32" then .ok 0 else s.Value.assertUint32

/-- The invariant of the path stack that needs no assumption on the map: no Id
twice, and every element is a task stored in the map. -/
def StackStored (m : TaskMap) (st : List Task) : Prop :=
  (st.map Task.Id).Nodup ∧ ∀ u ∈ st, m.Registered u

/-- The invariant of a container with the lookup table `items` and the order
sequence `order`: neither holds a key twice, and both hold the same keys. -/
def PairInv {β : Type} (items : List (String × β)) (order : List String) : Prop :=
  order.Nodup ∧ (items.map Prod.fst).Nodup ∧ ∀ k, k ∈ order ↔ k ∈ items.map Prod.fst

/-- A call that changes an `OrderedMap`. -/
inductive OrderedMap.Op (V : Type) where
  | add (key : String) (value : V)
  | set (key : String) (value : V)
  | delete (key : String)
  | clear
  | copy

/-- The container after one call; for `copy` it is the copy. -/
def OrderedMap.step {V : Type} (o : OrderedMap V) : OrderedMap.Op V → OrderedMap V
  | .add key value => (o.Add key value).1
  | .set key value => o.Set key value
  | .delete key => o.Delete key
  | .clear => o.Clear
  | .copy => o.Copy

/-- The container reached from the empty one by the calls `ops`, in this order. -/
def OrderedMap.run {V : Type} (ops : List (OrderedMap.Op V)) : OrderedMap V :=
  ops.foldl OrderedMap.step {}

/-- A call that changes a `TaskMap`; `Add` takes a pointer, `Set` a task. -/
inductive TaskMap.Op where
  | add (key : String) (value : Option Task)
  | set (key : String) (value : Task)
  | delete (key : String)
  | clear
  | copy

/-- The map after one call; for `copy` it is the copy. -/
def TaskMap.step (o : TaskMap) : TaskMap.Op → TaskMap
  | .add key value => (o.Add key value).1
  | .set key value => o.Set key value
  | .delete key => o.Delete key
  | .clear => o.Clear
  | .copy => o.Copy

/-- The map reached from the empty one by the calls `ops`, in this order. -/
def TaskMap.run (ops : List TaskMap.Op) : TaskMap :=
  ops.foldl TaskMap.step {}

/-- The state of the context refers to the map of `ctx.Env`. -/
def envShared (ctx : TaskContext) : Bool :=
  match ctx.State with
  | none => false
  | some st => st.EnvShared

/-- The two environment maps of a context as a reader sees them, `ctx.Env` and
`ctx.State.Env`, and whether they are one map. -/
def envsOf (ctx : TaskContext) :
    Option (List (String × String)) × Option (List (String × String)) × Bool :=
  (ctx.Env, (ctx.State.bind fun st => if st.EnvShared then ctx.Env else st.Env),
    envShared ctx)

/-- `ctx.Env[key]`, when the map holds the key. -/
def liveEnv (ctx : TaskContext) (key : String) : Option String :=
  (envsOf ctx).1.bind fun env => env.lookup key

/-- `ctx.State.Env[key]`, when the state is set and its map holds the key. -/
def stateEnv (ctx : TaskContext) (key : String) : Option String :=
  (envsOf ctx).2.1.bind fun env => env.lookup key

/-- The Expression `e` is an `Env` entry made for the text `value`: as `SetEnv`
and `SetEnvEntry` build it for a new key, as `SetEnvEntry` leaves an entry that
was there, or as `UnmarshalYAML` builds it from a value without the template
marker. -/
def BuiltLiteral (e : Expression) (value : String) : Prop :=
  e = literalEntry value ∨ (∃ old : Expression, e = overwriteEntry old value) ∨
    (e = unmarshalEnvEntry value ∧ ¬ ("$\x7b\x7b".data <:+: value.data))

/-! ## Concrete task maps -/

/-- A map of the given tasks, each registered under its own Id, in this order. -/
def TaskMap.ofTasks (ts : List Task) : TaskMap :=
  { tasks := some (ts.map fun t => (t.Id, some t)), order := ts.map Task.Id }

/-- The tasks of the scenario `build`, `test needs build`, `deploy needs test`. -/
def taskBuild : Task := { Id := "build" }
def taskTest : Task := { Id := "test", Needs := ["build"] }
def taskDeploy : Task := { Id := "deploy", Needs := ["test"] }
def pipelineMap : TaskMap := TaskMap.ofTasks [taskBuild, taskTest, taskDeploy]

/-- A rank for `pipelineMap`. -/
def pipelineRank (k : String) : Nat :=
  if k = "build" then 0 else if k = "test" then 1 else 2

/-- A diamond: `top` needs `left` and `right`, which both need `base`. -/
def taskBase : Task := { Id := "base" }
def taskLeft : Task := { Id := "left", Needs := ["base"] }
def taskRight : Task := { Id := "right", Needs := ["base"] }
def taskTop : Task := { Id := "top", Needs := ["left", "right"] }
def diamondMap : TaskMap := TaskMap.ofTasks [taskBase, taskLeft, taskRight, taskTop]

/-- A task that needs an Id nobody registered. -/
def taskLonely : Task := { Id := "lonely", Needs := ["ghost"] }
def lonelyMap : TaskMap := TaskMap.ofTasks [taskLonely]

/-- A task that needs the task `lonely`. -/
def taskHost : Task := { Id := "host", Needs := ["lonely"] }
def hostMap : TaskMap := TaskMap.ofTasks [taskLonely, taskHost]

/-- Two tasks that each need the other. -/
def taskPing : Task := { Id := "ping", Needs := ["pong"] }
def taskPong : Task := { Id := "pong", Needs := ["ping"] }
def pingPongMap : TaskMap := TaskMap.ofTasks [taskPing, taskPong]

/-- A task that needs itself, and a task that leads into it. -/
def taskEntry : Task := { Id := "entry", Needs := ["spin"] }
def taskSpin : Task := { Id := "spin", Needs := ["spin"] }
def spinMap : TaskMap := TaskMap.ofTasks [taskEntry, taskSpin]
def spinMapRev : TaskMap := TaskMap.ofTasks [taskSpin, taskEntry]

/-- Two tasks that each need an Id nobody registered. -/
def taskStray : Task := { Id := "stray", Needs := ["phantom"] }
def strayMap : TaskMap := TaskMap.ofTasks [taskLonely, taskStray]
def strayMapRev : TaskMap := TaskMap.ofTasks [taskStray, taskLonely]

/-- An Evaluator that answers `2` to every template and keeps no state. -/
def constEvaluator : Evaluator Unit Unit := fun _ _ s => (.ok "2", s)

/-- An Evaluator that fails on every template and keeps no state. -/
def failEvaluator : Evaluator Unit Unit := fun _ _ s => (.error (.msg "unresolved"), s)

/-- A float parser that rejects everything, for examples without floats. -/
def noFloats : FloatParser := fun _ _ => .error (.msg "no floats")

/-- An Expression of type int64 that has been evaluated to 1. -/
def exprOne : Expression :=
  { Raw := "${{ 1 }}", ValueString := "1", Value := .int64 1, IsEvaluated := true,
    Typ := "int64" }

/-- An Expression of type int64 that has not been evaluated. -/
def exprPending : Expression := { Raw := "${{ n }}", Typ := "int64" }

/-- An Evaluator that answers `v` to every template and keeps no state. -/
def sayEvaluator (v : String) : Evaluator Unit Unit := fun _ _ s => (.ok v, s)

/-- Unevaluated Expressions of the unsigned types. -/
def exprU32 : Expression := { Raw := "${{ n }}", Typ := "uint32" }
def exprU64 : Expression := { Raw := "${{ n }}", Typ := "uint64" }
def exprUint : Expression := { Raw := "${{ n }}", Typ := "uint" }

/-- An unevaluated Expression of type bool. -/
def exprFlag : Expression := { Raw := "${{ b }}", Typ := "bool" }

/-- A stand-in for `xstrings.Underscore(key, xstrings.Screaming)` in examples. -/
def screaming (s : String) : String := s.toUpper

/-- A context with allocated maps, no state yet, and the descriptor `d`. -/
def readyContext (d : TaskDescriptor) : TaskContext :=
  { Env := some [], Vars := some {}, Secrets := some [], Outputs := some {}, State := none,
    Descriptor := some d }

/-- A literal `With` or `Env` entry, as `SetWithEntry` and `SetEnvEntry` build it. -/
def literal (value : String) : Expression :=
  { Raw := value, Value := .str value, ValueString := value, IsEvaluated := true,
    Typ := "string" }

/-- A descriptor whose only input `count` is a required int64. -/
def countDescriptor : TaskDescriptor :=
  { Id := "job", Inputs := [("count", { Name := "count", Typ := "int64", IsRequired := true })] }

/-- A descriptor whose only input `count` is an optional int64. -/
def optionalCountDescriptor : TaskDescriptor :=
  { Id := "job", Inputs := [("count", { Name := "count", Typ := "int64" })] }

/-- A descriptor with two required int64 inputs. -/
def pairDescriptor : TaskDescriptor :=
  { Id := "job",
    Inputs := [("first", { Name := "first", Typ := "int64", IsRequired := true }),
               ("second", { Name := "second", Typ := "int64", IsRequired := true })] }

/-- A descriptor whose only input `msg` is an optional string. -/
def msgDescriptor : TaskDescriptor :=
  { Id := "job", Inputs := [("msg", { Name := "msg", Typ := "string" })] }

/-- A task without `With` entries. -/
def taskBare : Task := { Id := "job" }

/-- Tasks that give both inputs of `pairDescriptor`, in the two orders of
iteration. -/
def taskPair : Task := { Id := "job", With := [("first", literal "1"), ("second", literal "2")] }
def taskPairRev : Task :=
  { Id := "job", With := [("second", literal "2"), ("first", literal "1")] }

/-- A task that gives the input `msg`. -/
def taskMsg : Task := { Id := "job", With := [("msg", literal "hello")] }

/-- Tasks that give the input `count` with blanks around or instead of a numeral. -/
def taskPadded : Task := { Id := "job", With := [("count", literal " 5 ")] }
def taskBlank : Task := { Id := "job", With := [("count", literal "  ")] }

/-- The task that `UnmarshalYAML` builds from a mapping whose only key is
`timeout`, with the scalar text `value`. -/
def taskWithTimeout (value : String) : Option Task :=
  match unmarshalTimeout value 1 1 with
  | .error _ => none
  | .ok e => some { Timeout := some e }

/-- An Evaluator for `Task.Eval` that answers `v` to every template and keeps no
state. -/
def answer (v : String) : Evaluator Unit EvalData := fun _ _ s => (.ok v, s)

/-- A task whose only `With` entry `count` is an unevaluated string Expression. -/
def taskCount : Task :=
  { Id := "job", With := [("count", { Raw := "${{ 1 }}", Typ := "string" })] }

/-- A descriptor whose only input `count` is an optional int64 with the Default
7. -/
def defaultDescriptor : TaskDescriptor :=
  { Id := "job", Inputs := [("count", { Name := "count", Typ := "int64", Default := .int64 7 })] }

/-- A task that gives the input `count` as the empty string. -/
def taskEmptyCount : Task := { Id := "job", With := [("count", literal "")] }

/-- A descriptor whose only input `msg` is a required string. -/
def requiredMsgDescriptor : TaskDescriptor :=
  { Id := "job", Inputs := [("msg", { Name := "msg", Typ := "string", IsRequired := true })] }

/-- A task with one `Env` entry that is not evaluated yet. -/
def taskLazyEnv : Task :=
  { Id := "job", Env := [("GREETING", { Raw := "${{ g }}", Typ := "string" })] }

/-- A task whose `Env` entry has the name under which its `With` entry is
exported. -/
def taskClash : Task :=
  (({ Id := "job", With := [("count", literalEntry "5")] } : Task).SetEnvEntry
    "INPUT_COUNT" "a")

/-- A task with the input `count` given as "5" and, set by `SetEnvEntry`, the
environment entry `GREETING`. -/
def taskGreeting : Task :=
  (({ Id := "job", With := [("count", literalEntry "5")] } : Task).SetEnvEntry
    "GREETING" "hello")

/-- A context whose state was made by the caller, with `State.Env` set to the
map of `ctx.Env`. -/
def sharedContext (d : TaskDescriptor) : TaskContext :=
  { Env := some [], Vars := some {}, Secrets := some [], Outputs := some {},
    State := some { Id := "job", Inputs := some {}, Outputs := some {}, If := true,
                    EnvShared := true },
    Descriptor := some d }

/-- An error value. -/
def boom : GoError := .msg "boom"

/-- A stand-in for `xstrings.Underscore(key, xstrings.Screaming)` on keys of one
lower-case word: each character in upper case. -/
def shout (s : String) : String := ⟨s.data.map Char.toUpper⟩

/-- Calls of all five kinds on an `OrderedMap` of numbers; they leave the keys
`c` and `a`. -/
def numberCalls : List (OrderedMap.Op Nat) :=
  [.add "a" 1, .set "b" 2, .delete "a", .copy, .clear, .add "c" 3, .set "a" 4]

/-- Calls of all five kinds on a `TaskMap`; they leave the key `test`. -/
def taskCalls : List TaskMap.Op :=
  [.clear, .set "build" taskBuild, .add "test" (some taskTest), .delete "build", .copy]

/-! ## Basic facts about the lookup table -/

theorem lookup_mem {β : Type} (k : String) (v : β) :
    ∀ l : List (String × β), l.lookup k = some v → (k, v) ∈ l
  | [], h => by simp at h
  | (k', v') :: l, h => by
    rw [List.lookup_cons] at h
    by_cases hk : k = k'
    · subst hk
      simp at h
      subst h
      exact List.mem_cons_self _ _
    · have : (k == k') = false := by simpa using hk
      rw [this] at h
      exact List.mem_cons_of_mem _ (lookup_mem k v l h)

theorem lookup_of_mem {β : Type} (k : String) (v : β) :
    ∀ l : List (String × β), (l.map Prod.fst).Nodup → (k, v) ∈ l → l.lookup k = some v
  | [], _, h => by simp at h
  | (k', v') :: l, hn, h => by
    rw [List.lookup_cons]
    rw [List.map_cons, List.nodup_cons] at hn
    rcases List.mem_cons.1 h with h1 | h2
    · cases h1
      simp
    · have hk : k ≠ k' := by
        rintro rfl
        exact hn.1 (List.mem_map.2 ⟨(k, v), h2, rfl⟩)
      have : (k == k') = false := by simpa using hk
      rw [this]
      exact lookup_of_mem k v l hn.2 h2

namespace TaskMap

theorem Get_eq (m : TaskMap) (k : String) : m.Get k = (m.entries.lookup k).join := by
  unfold Get entries
  cases m.tasks <;> rfl

theorem Has_eq (m : TaskMap) (k : String) : m.Has k = (m.entries.lookup k).isSome := by
  unfold Has entries
  cases m.tasks <;> rfl

theorem mem_of_Get {m : TaskMap} {k : String} {t : Task} (h : m.Get k = some t) :
    (k, some t) ∈ m.entries := by
  rw [Get_eq] at h
  cases hl : m.entries.lookup k with
  | none => rw [hl] at h; simp at h
  | some v =>
    rw [hl] at h
    cases v with
    | none => simp at h
    | some t' =>
      simp at h
      subst h
      exact lookup_mem k _ _ hl

theorem Get_of_mem {m : TaskMap} (hU : m.UniqueKeys) {k : String} {t : Task}
    (h : (k, some t) ∈ m.entries) : m.Get k = some t := by
  rw [Get_eq, lookup_of_mem k (some t) m.entries hU h]
  rfl

theorem Has_of_Get {m : TaskMap} {k : String} {t : Task} (h : m.Get k = some t) :
    m.Has k = true := by
  rw [Get_eq] at h
  rw [Has_eq]
  cases hl : m.entries.lookup k with
  | none => rw [hl] at h; simp at h
  | some v => rfl

theorem Id_of_Get {m : TaskMap} (hO : m.OwnId) {k : String} {t : Task}
    (h : m.Get k = some t) : t.Id = k := by
  obtain ⟨t', ht', hid⟩ := hO _ (mem_of_Get h)
  simp at ht'
  subst ht'
  exact hid

theorem Get_of_Has {m : TaskMap} (hO : m.OwnId) {k : String} (h : m.Has k = true) :
    ∃ t, m.Get k = some t ∧ t.Id = k := by
  rw [Has_eq] at h
  cases hl : m.entries.lookup k with
  | none => rw [hl] at h; simp at h
  | some v =>
    obtain ⟨t, ht, hid⟩ := hO _ (lookup_mem k v _ hl)
    simp at ht
    subst ht
    refine ⟨t, ?_, hid⟩
    rw [Get_eq, hl]
    rfl

theorem Get_self {m : TaskMap} (hO : m.OwnId) {k : String} {t : Task}
    (h : m.Get k = some t) : m.Get t.Id = some t := by
  rw [Id_of_Get hO h]
  exact h

theorem mem_order_of_Has {m : TaskMap} (hI : m.Inv) {k : String} (h : m.Has k = true) :
    k ∈ m.order := by
  rw [Has_eq] at h
  cases hl : m.entries.lookup k with
  | none => rw [hl] at h; simp at h
  | some v => exact hI.2.2 _ (lookup_mem k v _ hl)

theorem Edge.left {m : TaskMap} {a b : String} (h : m.Edge a b) : m.Has a = true := by
  obtain ⟨t, c, ht, -, -⟩ := h
  exact Has_of_Get ht

theorem Edge.right {m : TaskMap} {a b : String} (h : m.Edge a b) : m.Has b = true := by
  obtain ⟨t, c, -, -, hc⟩ := h
  exact Has_of_Get hc

end TaskMap

theorem foundId_iff (results : List Task) (id : String) :
    foundId results id = true ↔ ∃ t ∈ results, t.Id = id := by
  simp [foundId, List.any_eq_true]

theorem foundId_iff_mem (results : List Task) (id : String) :
    foundId results id = true ↔ id ∈ results.map Task.Id := by
  rw [foundId_iff]
  simp [List.mem_map]

/-! ## Flatten: dependencies come first -/

theorem DepsBefore.mono (m : TaskMap) :
    ∀ (r : List Task) (s1 s2 : List String), s1 ⊆ s2 → DepsBefore m s1 r → DepsBefore m s2 r
  | [], _, _, _, _ => trivial
  | t :: r, s1, s2, hs, h =>
    ⟨fun id hid => hs (h.1 id hid),
      DepsBefore.mono m r (t.Id :: s1) (t.Id :: s2) (List.cons_subset_cons _ hs) h.2⟩

theorem DepsBefore.append (m : TaskMap) :
    ∀ (r1 r2 : List Task) (seen : List String),
      DepsBefore m seen (r1 ++ r2) ↔
        DepsBefore m seen r1 ∧ DepsBefore m ((r1.map Task.Id).reverse ++ seen) r2
  | [], r2, seen => by simp [DepsBefore]
  | t :: r1, r2, seen => by
    have ih := DepsBefore.append m r1 r2 (t.Id :: seen)
    show (_ ∧ DepsBefore m (t.Id :: seen) (r1 ++ r2)) ↔ _
    rw [ih]
    simp [DepsBefore, and_assoc]

theorem DepsBefore.append_of (m : TaskMap) {r1 r2 : List Task}
    (h1 : DepsBefore m [] r1) (h2 : DepsBefore m [] r2) : DepsBefore m [] (r1 ++ r2) :=
  (DepsBefore.append m r1 r2 []).2 ⟨h1, DepsBefore.mono m r2 _ _ (List.nil_subset _) h2⟩

theorem DepsBefore.snoc (m : TaskMap) {r : List Task} {t : Task}
    (h1 : DepsBefore m [] r)
    (h2 : ∀ id, Relation.TransGen m.Edge t.Id id → id ∈ r.map Task.Id) :
    DepsBefore m [] (r ++ [t]) :=
  (DepsBefore.append m r [t] []).2
    ⟨h1, fun id hid => by simpa using h2 id hid, trivial⟩

theorem DepsBefore.of_snoc (m : TaskMap) {r : List Task} {t : Task}
    (h : DepsBefore m [] (r ++ [t])) :
    ∀ id, Relation.TransGen m.Edge t.Id id → id ∈ r.map Task.Id := by
  intro id hid
  have := ((DepsBefore.append m r [t] []).1 h).2.1 id hid
  simpa using this

/-- The reading of `DepsBefore` by positions. -/
theorem DepsBefore.take (m : TaskMap) :
    ∀ (r : List Task) (seen : List String), DepsBefore m seen r →
      ∀ (i : Nat) (h : i < r.length) (id : String),
        Relation.TransGen m.Edge (r[i]).Id id → id ∈ seen ∨ id ∈ (r.take i).map Task.Id
  | [], _, _, i, h, _, _ => by simp at h
  | t :: r, seen, hd, 0, _, id, hid => Or.inl (hd.1 id hid)
  | t :: r, seen, hd, i + 1, h, id, hid => by
    have h' : i < r.length := by simpa using h
    rcases DepsBefore.take m r (t.Id :: seen) hd.2 i h' id (by simpa using hid) with h1 | h1
    · rcases List.mem_cons.1 h1 with h2 | h2
      · right
        simp [h2]
      · exact Or.inl h2
    · right
      simp only [List.take_succ_cons, List.map_cons, List.mem_cons]
      exact Or.inr h1

/-- In a map without cycles the relation "is needed by" is well founded. -/
theorem TaskMap.wf_of_acyclic (m : TaskMap) (hA : m.Acyclic) :
    WellFounded (fun d a => m.Edge a d) := by
  have hfin : {k : String | m.Has k = true}.Finite := by
    refine (List.finite_toSet (m.entries.map Prod.fst)).subset ?_
    intro k hk
    simp only [Set.mem_setOf_eq] at hk ⊢
    rw [TaskMap.Has_eq] at hk
    cases hl : m.entries.lookup k with
    | none => rw [hl] at hk; simp at hk
    | some v => exact List.mem_map.2 ⟨(k, v), lookup_mem k v _ hl, rfl⟩
  have hso : IsStrictOrder String (Relation.TransGen (fun d a => m.Edge a d)) :=
    { irrefl := fun a h => hA a (Relation.transGen_swap.1 h)
      trans := fun _ _ _ h1 h2 => h1.trans h2 }
  have hw := Set.wellFoundedOn_iff.1 (hfin.wellFoundedOn (r := Relation.TransGen (fun d a => m.Edge a d)))
  refine Subrelation.wf ?_ hw
  intro d a h
  exact ⟨Relation.TransGen.single h, h.right, h.left⟩

/-- The loop over the Needs of a task, when the recursive calls behave. -/
theorem flattenDeps_fuel (m : TaskMap) (hO : m.OwnId) (task : Task) :
    ∀ (ds : List String) (acc : List Task),
      (∀ d ∈ ds, ∀ c, m.Get d = some c →
        ∃ r N, (∀ fuel, N ≤ fuel → flatten fuel m [c] = .ok (r ++ [c])) ∧ GoodResult m c r) →
      ∃ r' N, (∀ fuel, N ≤ fuel →
          flattenDeps (fun child => flatten fuel m [child]) m task ds acc = .ok (acc ++ r')) ∧
        DepsBefore m [] r' ∧
        (∀ u ∈ r', m.Get u.Id = some u ∧
          ∃ d ∈ ds, m.Has d = true ∧ Relation.ReflTransGen m.Edge d u.Id) ∧
        (∀ d ∈ ds, m.Has d = true →
          ∀ id, Relation.ReflTransGen m.Edge d id → id ∈ r'.map Task.Id)
  | [], acc, _ => ⟨[], 0, fun _ _ => by simp [flattenDeps], trivial, by simp, by simp⟩
  | d :: ds, acc, hrec => by
    have hrec' : ∀ d' ∈ ds, ∀ c, m.Get d' = some c →
        ∃ r N, (∀ fuel, N ≤ fuel → flatten fuel m [c] = .ok (r ++ [c])) ∧ GoodResult m c r :=
      fun d' hd' => hrec d' (List.mem_cons_of_mem _ hd')
    by_cases hH : m.Has d = true
    · obtain ⟨c, hc, hcid⟩ := TaskMap.Get_of_Has hO hH
      obtain ⟨r, N1, hr, hgood⟩ := hrec d (List.mem_cons_self _ _) c hc
      obtain ⟨r2, N2, hr2, hdb2, hmem2, hcov2⟩ :=
        flattenDeps_fuel m hO task ds (acc ++ (r ++ [c])) hrec'
      refine ⟨(r ++ [c]) ++ r2, max N1 N2, ?_, ?_, ?_, ?_⟩
      · intro fuel hf
        have hfound : foundId (acc ++ (r ++ [c])) c.Id = true :=
          (foundId_iff _ _).2 ⟨c, by simp, rfl⟩
        rw [flattenDeps]
        simp only [hH, hc, hr fuel (le_trans (le_max_left _ _) hf), hfound]
        simp only [Bool.not_true, Bool.false_eq_true, if_false, if_true]
        rw [hr2 fuel (le_trans (le_max_right _ _) hf)]
        simp
      · exact DepsBefore.append_of m hgood.1 hdb2
      · intro u hu
        rcases List.mem_append.1 hu with hu1 | hu1
        · rcases List.mem_append.1 hu1 with hu2 | hu2
          · refine ⟨(hgood.2 u hu2).1, d, List.mem_cons_self _ _, hH, ?_⟩
            have := (hgood.2 u hu2).2
            rw [hcid] at this
            exact this.to_reflTransGen
          · have : u = c := by simpa using hu2
            subst this
            refine ⟨TaskMap.Get_self hO hc, d, List.mem_cons_self _ _, hH, ?_⟩
            rw [hcid]
        · obtain ⟨h1, d', hd', h2, h3⟩ := hmem2 u hu1
          exact ⟨h1, d', List.mem_cons_of_mem _ hd', h2, h3⟩
      · intro d' hd' hH' id hid
        rcases List.mem_cons.1 hd' with h1 | h1
        · subst h1
          rcases Relation.reflTransGen_iff_eq_or_transGen.1 hid with h2 | h2
          · subst h2
            simp only [List.map_append, List.mem_append, List.mem_map]
            exact Or.inl (Or.inr ⟨c, by simp, hcid⟩)
          · rw [← hcid] at h2
            have := DepsBefore.of_snoc m hgood.1 id h2
            simp only [List.map_append, List.mem_append]
            exact Or.inl (Or.inl this)
        · have := hcov2 d' h1 hH' id hid
          simp only [List.map_append, List.mem_append]
          exact Or.inr this
    · obtain ⟨r2, N2, hr2, hdb2, hmem2, hcov2⟩ := flattenDeps_fuel m hO task ds acc hrec'
      refine ⟨r2, N2, ?_, hdb2, ?_, ?_⟩
      · intro fuel hf
        rw [flattenDeps]
        simp only [hH, Bool.not_false, if_true]
        exact hr2 fuel hf
      · intro u hu
        obtain ⟨h1, d', hd', h2, h3⟩ := hmem2 u hu
        exact ⟨h1, d', List.mem_cons_of_mem _ hd', h2, h3⟩
      · intro d' hd' hH' id hid
        rcases List.mem_cons.1 hd' with h1 | h1
        · subst h1
          exact absurd hH' hH
        · exact hcov2 d' h1 hH' id hid

/-- After the Needs of a registered task have been flattened, every task it
transitively needs is among the results. -/
theorem needs_covered (m : TaskMap) {t : Task} (ht : m.Get t.Id = some t) {r : List Task}
    (hcov : ∀ d ∈ t.Needs, m.Has d = true →
      ∀ id, Relation.ReflTransGen m.Edge d id → id ∈ r.map Task.Id) :
    ∀ id, Relation.TransGen m.Edge t.Id id → id ∈ r.map Task.Id := by
  intro id hid
  obtain ⟨d, hd, hreach⟩ := Relation.TransGen.head'_iff.1 hid
  obtain ⟨t', c, ht', hmem, hc⟩ := hd
  rw [ht] at ht'
  cases ht'
  exact hcov d hmem (TaskMap.Has_of_Get hc) id hreach

/-- Flattening one registered task of an acyclic map: enough fuel gives a
result that ends in the task, with the dependencies in front. -/
theorem flatten_task (m : TaskMap) (hO : m.OwnId) (hA : m.Acyclic) :
    ∀ (a : String) (c : Task), m.Get a = some c →
      ∃ r N, (∀ fuel, N ≤ fuel → flatten fuel m [c] = .ok (r ++ [c])) ∧ GoodResult m c r := by
  intro a
  induction a using (m.wf_of_acyclic hA).induction with
  | _ a ih =>
  intro c hc
  have hcid : c.Id = a := TaskMap.Id_of_Get hO hc
  have hself : m.Get c.Id = some c := TaskMap.Get_self hO hc
  have hrec : ∀ d ∈ c.Needs, ∀ c', m.Get d = some c' →
      ∃ r N, (∀ fuel, N ≤ fuel → flatten fuel m [c'] = .ok (r ++ [c'])) ∧ GoodResult m c' r :=
    fun d hd c' hc' => ih d ⟨c, c', hc, hd, hc'⟩ c' hc'
  obtain ⟨r, N, hr, hdb, hmem, hcov⟩ := flattenDeps_fuel m hO c c.Needs [] hrec
  have hreach : ∀ u ∈ r, Relation.TransGen m.Edge c.Id u.Id := by
    intro u hu
    obtain ⟨-, d, hd, hH, hpath⟩ := hmem u hu
    obtain ⟨c', hc', -⟩ := TaskMap.Get_of_Has hO hH
    exact Relation.TransGen.head' ⟨c, c', hself, hd, hc'⟩ hpath
  have hnot : foundId r c.Id = false := by
    rw [Bool.eq_false_iff]
    intro hf
    obtain ⟨u, hu, huid⟩ := (foundId_iff _ _).1 hf
    have := hreach u hu
    rw [huid] at this
    exact hA _ this
  refine ⟨r, N + 1, ?_, ?_, fun u hu => ⟨(hmem u hu).1, hreach u hu⟩⟩
  · intro fuel hf
    obtain ⟨f, rfl⟩ : ∃ f, fuel = f + 1 := ⟨fuel - 1, by omega⟩
    have := hr f (by omega)
    simp only [List.nil_append] at this
    simp [flatten, flattenSet, this, hnot]
  · exact DepsBefore.snoc m hdb (needs_covered m hself hcov)

/-- The loop over the targets. -/
theorem flattenSet_fuel (m : TaskMap) (hO : m.OwnId) (hA : m.Acyclic) :
    ∀ (set acc : List Task), (∀ t ∈ set, m.Get t.Id = some t) →
      DepsBefore m [] acc → (∀ u ∈ acc, m.Get u.Id = some u) →
      ∃ r N, (∀ fuel, N ≤ fuel →
          flattenSet (fun child => flatten fuel m [child]) m set acc = .ok r) ∧
        DepsBefore m [] r ∧ (∀ u ∈ r, m.Get u.Id = some u) ∧
        (∀ t ∈ set, t ∈ r) ∧ (∀ u ∈ acc, u ∈ r)
  | [], acc, _, hdb, hreg =>
    ⟨acc, 0, fun _ _ => by simp [flattenSet], hdb, hreg, by simp, fun _ h => h⟩
  | t :: set, acc, hset, hdb, hreg => by
    have ht : m.Get t.Id = some t := hset t (List.mem_cons_self _ _)
    have hrec : ∀ d ∈ t.Needs, ∀ c, m.Get d = some c →
        ∃ r N, (∀ fuel, N ≤ fuel → flatten fuel m [c] = .ok (r ++ [c])) ∧ GoodResult m c r :=
      fun d _ c hc => flatten_task m hO hA d c hc
    obtain ⟨r1, N1, hr1, hdb1, hmem1, hcov1⟩ := flattenDeps_fuel m hO t t.Needs acc hrec
    have hreg1 : ∀ u ∈ acc ++ r1, m.Get u.Id = some u := by
      intro u hu
      rcases List.mem_append.1 hu with h | h
      · exact hreg u h
      · exact (hmem1 u h).1
    have hdb1' : DepsBefore m [] (acc ++ r1) := DepsBefore.append_of m hdb hdb1
    by_cases hf : foundId (acc ++ r1) t.Id = true
    · obtain ⟨r2, N2, hr2, hdb2, hreg2, hin2, hacc2⟩ :=
        flattenSet_fuel m hO hA set (acc ++ r1)
          (fun t' ht' => hset t' (List.mem_cons_of_mem _ ht')) hdb1' hreg1
      refine ⟨r2, max N1 N2, ?_, hdb2, hreg2, ?_, fun u hu => hacc2 u (by simp [hu])⟩
      · intro fuel hfuel
        rw [flattenSet]
        simp only [hr1 fuel (le_trans (le_max_left _ _) hfuel), hf, if_true]
        exact hr2 fuel (le_trans (le_max_right _ _) hfuel)
      · intro t' ht'
        rcases List.mem_cons.1 ht' with h | h
        · subst h
          obtain ⟨u, hu, huid⟩ := (foundId_iff _ _).1 hf
          have h1 := hreg1 u hu
          rw [huid, ht] at h1
          cases h1
          exact hacc2 _ hu
        · exact hin2 t' h
    · have hcov : ∀ id, Relation.TransGen m.Edge t.Id id → id ∈ (acc ++ r1).map Task.Id := by
        intro id hid
        rw [List.map_append, List.mem_append]
        exact Or.inr (needs_covered m ht hcov1 id hid)
      obtain ⟨r2, N2, hr2, hdb2, hreg2, hin2, hacc2⟩ :=
        flattenSet_fuel m hO hA set (acc ++ r1 ++ [t])
          (fun t' ht' => hset t' (List.mem_cons_of_mem _ ht'))
          (DepsBefore.snoc m hdb1' hcov)
          (by
            intro u hu
            rcases List.mem_append.1 hu with h | h
            · exact hreg1 u h
            · have : u = t := by simpa using h
              subst this
              exact ht)
      refine ⟨r2, max N1 N2, ?_, hdb2, hreg2, ?_, fun u hu => hacc2 u (by simp [hu])⟩
      · intro fuel hfuel
        rw [flattenSet]
        simp only [hr1 fuel (le_trans (le_max_left _ _) hfuel), hf, if_false]
        exact hr2 fuel (le_trans (le_max_right _ _) hfuel)
      · intro t' ht'
        rcases List.mem_cons.1 ht' with h | h
        · subst h
          exact hacc2 _ (by simp)
        · exact hin2 t' h

/-- The function `flatten` on a list of registered tasks of an acyclic map. -/
theorem flatten_fuel (m : TaskMap) (hO : m.OwnId) (hA : m.Acyclic) (set : List Task)
    (hset : ∀ t ∈ set, m.Get t.Id = some t) :
    ∃ r N, (∀ fuel, N ≤ fuel → flatten fuel m set = .ok r) ∧
      DepsBefore m [] r ∧ (∀ u ∈ r, m.Get u.Id = some u) ∧ (∀ t ∈ set, t ∈ r) := by
  obtain ⟨r, N, hr, hdb, hreg, hin, -⟩ :=
    flattenSet_fuel m hO hA set [] hset trivial (by simp)
  refine ⟨r, N + 1, ?_, hdb, hreg, hin⟩
  intro fuel hf
  obtain ⟨f, rfl⟩ : ∃ f, fuel = f + 1 := ⟨fuel - 1, by omega⟩
  rw [flatten]
  exact hr f (by omega)

/-- The loop of `Values` on keys that are all registered. -/
theorem valuesLoop_ok (m : TaskMap) (hO : m.OwnId) :
    ∀ (keys : List String) (acc : List Task), (∀ k ∈ keys, m.Has k = true) →
      ∃ vs, TaskMap.valuesLoop m keys acc = .ok (acc ++ vs) ∧
        (∀ t ∈ vs, m.Get t.Id = some t) ∧ (∀ k ∈ keys, ∀ t, m.Get k = some t → t ∈ vs) ∧
        vs.length = keys.length
  | [], acc, _ => ⟨[], by simp [TaskMap.valuesLoop], by simp, by simp, rfl⟩
  | k :: keys, acc, h => by
    obtain ⟨t, ht, -⟩ := TaskMap.Get_of_Has hO (h k (List.mem_cons_self _ _))
    obtain ⟨vs, hvs, h1, h2, h3⟩ :=
      valuesLoop_ok m hO keys (acc ++ [t]) (fun k' hk' => h k' (List.mem_cons_of_mem _ hk'))
    have ht' : (m.entries.lookup k).join = some t := by rw [← TaskMap.Get_eq]; exact ht
    refine ⟨t :: vs, ?_, ?_, ?_, by simp [h3]⟩
    · rw [TaskMap.valuesLoop]
      simp only [ht']
      rw [hvs]
      simp
    · intro u hu
      rcases List.mem_cons.1 hu with h' | h'
      · subst h'
        exact TaskMap.Get_self hO ht
      · exact h1 u h'
    · intro k' hk' u hu
      rcases List.mem_cons.1 hk' with h' | h'
      · subst h'
        rw [ht] at hu
        cases hu
        exact List.mem_cons_self _ _
      · exact List.mem_cons_of_mem _ (h2 k' h' u hu)

/-- `Flatten` on an acyclic map whose tasks are registered under their own Ids:
enough fuel gives a sequence that holds every target and has the dependencies
of each element in front of it. -/
theorem Flatten_fuel (m : TaskMap) (hI : m.Inv) (hO : m.OwnId) (hA : m.Acyclic)
    (targets : List Task) (hT : ∀ t ∈ targets, m.Get t.Id = some t) :
    ∃ r N, (∀ fuel, N ≤ fuel → m.Flatten fuel targets = .ok r) ∧
      DepsBefore m [] r ∧ (∀ u ∈ r, m.Get u.Id = some u) ∧ (∀ t ∈ targets, t ∈ r) ∧
      (targets = [] → ∀ k t, m.Get k = some t → t ∈ r) := by
  by_cases hnil : targets = []
  · subst hnil
    obtain ⟨vs, hvs, h1, h2, -⟩ :=
      valuesLoop_ok m hO m.order [] hI.2.1
    obtain ⟨r, N, hr, hdb, hreg, hin⟩ := flatten_fuel m hO hA vs h1
    refine ⟨r, N, ?_, hdb, hreg, by simp, ?_⟩
    · intro fuel hf
      simp only [List.nil_append] at hvs
      simp [TaskMap.Flatten, TaskMap.Values, hvs, hr fuel hf]
    · intro _ k t hk
      exact hin t (h2 k (TaskMap.mem_order_of_Has hI (TaskMap.Has_of_Get hk)) t hk)
  · obtain ⟨r, N, hr, hdb, hreg, hin⟩ := flatten_fuel m hO hA targets hT
    refine ⟨r, N, ?_, hdb, hreg, hin, fun h => absurd h hnil⟩
    intro fuel hf
    have : targets.length ≠ 0 := by simpa using hnil
    simp [TaskMap.Flatten, this, hr fuel hf]

/-- A rank that decreases along every edge rules out cycles. -/
theorem TaskMap.acyclic_of_rank (m : TaskMap) (rank : String → Nat)
    (h : rankOk m rank = true) : m.Acyclic := by
  have hedge : ∀ a b, m.Edge a b → rank b < rank a := by
    intro a b ⟨t, c, ht, hb, hc⟩
    have h1 := (List.all_eq_true.1 h) _ (TaskMap.mem_of_Get ht)
    simp only at h1
    have h2 := (List.all_eq_true.1 h1) b hb
    simpa [TaskMap.Has_of_Get hc] using h2
  have hpath : ∀ a b, Relation.TransGen m.Edge a b → rank b < rank a := by
    intro a b hab
    induction hab with
    | single h1 => exact hedge _ _ h1
    | tail _ h2 ih => exact lt_trans (hedge _ _ h2) ih
  intro a ha
  exact lt_irrefl _ (hpath a a ha)

/-- Under `NeedsRegistered` every need is an edge of the graph. -/
theorem TaskMap.Edge_of_NeedsId {m : TaskMap} (hO : m.OwnId) (hN : m.NeedsRegistered)
    {a b : String} (h : m.NeedsId a b) : m.Edge a b := by
  obtain ⟨t, ht, hb⟩ := h
  obtain ⟨c, hc, -⟩ := TaskMap.Get_of_Has hO (hN _ (TaskMap.mem_of_Get ht) t rfl b hb)
  exact ⟨t, c, ht, hb, hc⟩

theorem isChain_iff : ∀ ts : List Task,
    IsChain ts ↔ ts.Chain' (fun a b => b.Needs = [a.Id])
  | [] => by simp [IsChain]
  | [_] => by simp [IsChain]
  | a :: b :: rest => by
    rw [IsChain, List.chain'_cons, isChain_iff (b :: rest)]

/-- Flattening the last task of a chain returns the chain. -/
theorem flatten_chain (m : TaskMap) :
    ∀ (ts : List Task) (tn : Task), (∀ t, (ts ++ [tn]).head? = some t → t.Needs = []) →
      IsChain (ts ++ [tn]) → ((ts ++ [tn]).map Task.Id).Nodup →
      (∀ t ∈ ts ++ [tn], m.Get t.Id = some t) →
      ∀ fuel, ts.length + 1 ≤ fuel → flatten fuel m [tn] = .ok (ts ++ [tn]) := by
  intro ts
  induction ts using List.reverseRecOn with
  | nil =>
    intro tn hfirst _ _ _ fuel hf
    obtain ⟨f, rfl⟩ : ∃ f, fuel = f + 1 := ⟨fuel - 1, by omega⟩
    have h0 : tn.Needs = [] := hfirst tn rfl
    simp [flatten, flattenSet, flattenDeps, h0, foundId]
  | append_singleton l t' ih =>
    intro tn hfirst hchain hnd hreg fuel hf
    obtain ⟨f, rfl⟩ : ∃ f, fuel = f + 1 := ⟨fuel - 1, by omega⟩
    have hlen : l.length + 1 ≤ f := by
      simp only [List.length_append, List.length_singleton] at hf
      omega
    rw [isChain_iff, List.chain'_append] at hchain
    rw [← isChain_iff] at hchain
    obtain ⟨hc1, -, hc3⟩ := hchain
    have hneeds : tn.Needs = [t'.Id] := hc3 t' (by simp) tn (by simp)
    have hprev : flatten f m [t'] = .ok (l ++ [t']) := by
      refine ih t' ?_ hc1 ?_ ?_ f hlen
      · intro t ht
        apply hfirst t
        cases l <;> simpa using ht
      · rw [List.map_append] at hnd
        exact (List.nodup_append.1 hnd).1
      · intro t ht
        exact hreg t (by simp only [List.mem_append] at ht ⊢; exact Or.inl ht)
    have hget : m.Get t'.Id = some t' := hreg t' (by simp)
    have hhas : m.Has t'.Id = true := TaskMap.Has_of_Get hget
    have hfound : foundId (l ++ [t']) t'.Id = true := (foundId_iff _ _).2 ⟨t', by simp, rfl⟩
    have hnot : foundId (l ++ [t']) tn.Id = false := by
      rw [Bool.eq_false_iff]
      intro hfd
      rw [foundId_iff_mem] at hfd
      rw [List.map_append] at hnd
      exact (List.nodup_append.1 hnd).2.2 hfd (by simp)
    simp [flatten, flattenSet, flattenDeps, hneeds, hhas, hget, hprev, hfound, hnot]

/-! ## More fuel never changes a result -/

theorem flattenDeps_mono {rec1 rec2 : Task → Except Fault (List Task)}
    (h : ∀ c r, rec1 c = .ok r → rec2 c = .ok r) (m : TaskMap) (task : Task) :
    ∀ (ds : List String) (acc r : List Task),
      flattenDeps rec1 m task ds acc = .ok r → flattenDeps rec2 m task ds acc = .ok r
  | [], acc, r, h1 => by simpa [flattenDeps] using h1
  | dep :: deps, acc, r, h1 => by
    rw [flattenDeps] at h1 ⊢
    by_cases hH : m.Has dep = true
    · simp only [hH, Bool.not_true, Bool.false_eq_true, if_false] at h1 ⊢
      cases hg : m.Get dep with
      | none => simp [hg] at h1
      | some child =>
        simp only [hg] at h1 ⊢
        cases hr : rec1 child with
        | error e => simp [hr] at h1
        | ok cr =>
          simp only [hr] at h1
          simp only [h child cr hr]
          exact flattenDeps_mono h m task deps _ r h1
    · simp only [hH, Bool.not_false, if_true] at h1 ⊢
      exact flattenDeps_mono h m task deps acc r h1

theorem flattenSet_mono {rec1 rec2 : Task → Except Fault (List Task)}
    (h : ∀ c r, rec1 c = .ok r → rec2 c = .ok r) (m : TaskMap) :
    ∀ (set acc r : List Task),
      flattenSet rec1 m set acc = .ok r → flattenSet rec2 m set acc = .ok r
  | [], acc, r, h1 => by simpa [flattenSet] using h1
  | task :: set, acc, r, h1 => by
    rw [flattenSet] at h1 ⊢
    cases hd : flattenDeps rec1 m task task.Needs acc with
    | error e => simp [hd] at h1
    | ok r1 =>
      simp only [hd] at h1
      simp only [flattenDeps_mono h m task task.Needs acc r1 hd]
      exact flattenSet_mono h m set _ r h1

theorem flatten_succ (m : TaskMap) :
    ∀ (fuel : Nat) (set r : List Task),
      flatten fuel m set = .ok r → flatten (fuel + 1) m set = .ok r
  | 0, set, r, h => by simp [flatten] at h
  | fuel + 1, set, r, h => by
    rw [flatten] at h ⊢
    exact flattenSet_mono (fun c r' hc => flatten_succ m fuel [c] r' hc) m set [] r h

theorem flatten_mono (m : TaskMap) {fuel fuel' : Nat} (hle : fuel ≤ fuel') (set r : List Task)
    (h : flatten fuel m set = .ok r) : flatten fuel' m set = .ok r := by
  induction hle with
  | refl => exact h
  | step _ ih => exact flatten_succ m _ set r ih

theorem TaskMap.Flatten_mono (m : TaskMap) {fuel fuel' : Nat} (hle : fuel ≤ fuel')
    (targets r : List Task) (h : m.Flatten fuel targets = .ok r) :
    m.Flatten fuel' targets = .ok r := by
  unfold TaskMap.Flatten at h ⊢
  by_cases hl : targets.length = 0
  · simp only [hl, if_true] at h ⊢
    cases hv : m.Values with
    | error e => simp [hv] at h
    | ok vs =>
      simp only [hv] at h ⊢
      exact flatten_mono m hle vs r h
  · simp only [hl, if_false] at h ⊢
    exact flatten_mono m hle targets r h

/-! ## The only error of flatten -/

theorem flattenDeps_error {recur : Task → Except Fault (List Task)} (m : TaskMap)
    (h : ∀ c e, recur c = .error (.error e) → IsMissingTaskError m e) (task : Task) :
    ∀ (ds : List String) (acc : List Task) (e : GoError), ds ⊆ task.Needs →
      flattenDeps recur m task ds acc = .error (.error e) → IsMissingTaskError m e
  | [], acc, e, _, h1 => by simp [flattenDeps] at h1
  | dep :: deps, acc, e, hsub, h1 => by
    have hsub' : deps ⊆ task.Needs := fun x hx => hsub (List.mem_cons_of_mem _ hx)
    rw [flattenDeps] at h1
    by_cases hH : m.Has dep = true
    · simp only [hH, Bool.not_true, Bool.false_eq_true, if_false] at h1
      cases hg : m.Get dep with
      | none =>
        simp only [hg] at h1
        refine ⟨task, dep, ?_, hsub (List.mem_cons_self _ _), hH, hg⟩
        simpa using h1.symm
      | some child =>
        simp only [hg] at h1
        cases hr : recur child with
        | error e' =>
          simp only [hr] at h1
          have : e' = .error e := by simpa using h1
          subst this
          exact h child e hr
        | ok cr =>
          simp only [hr] at h1
          exact flattenDeps_error m h task deps _ e hsub' h1
    · simp only [hH, Bool.not_false, if_true] at h1
      exact flattenDeps_error m h task deps acc e hsub' h1

theorem flattenSet_error {recur : Task → Except Fault (List Task)} (m : TaskMap)
    (h : ∀ c e, recur c = .error (.error e) → IsMissingTaskError m e) :
    ∀ (set acc : List Task) (e : GoError),
      flattenSet recur m set acc = .error (.error e) → IsMissingTaskError m e
  | [], acc, e, h1 => by simp [flattenSet] at h1
  | task :: set, acc, e, h1 => by
    rw [flattenSet] at h1
    cases hd : flattenDeps recur m task task.Needs acc with
    | error e' =>
      simp only [hd] at h1
      have : e' = .error e := by simpa using h1
      subst this
      exact flattenDeps_error m h task task.Needs acc e (fun _ hx => hx) hd
    | ok r1 =>
      simp only [hd] at h1
      exact flattenSet_error m h set _ e h1

theorem flatten_error (m : TaskMap) :
    ∀ (fuel : Nat) (set : List Task) (e : GoError),
      flatten fuel m set = .error (.error e) → IsMissingTaskError m e
  | 0, set, e, h => by simp [flatten] at h
  | fuel + 1, set, e, h => by
    rw [flatten] at h
    exact flattenSet_error m (fun c e' hc => flatten_error m fuel [c] e' hc) set [] e h

theorem valuesLoop_error (m : TaskMap) :
    ∀ (keys : List String) (acc : List Task) (f : Fault),
      TaskMap.valuesLoop m keys acc = .error f → f = .nilDeref
  | [], acc, f, h => by simp [TaskMap.valuesLoop] at h
  | k :: keys, acc, f, h => by
    rw [TaskMap.valuesLoop] at h
    cases hl : (m.entries.lookup k).join with
    | none =>
      simp only [hl] at h
      simpa using h.symm
    | some t =>
      simp only [hl] at h
      exact valuesLoop_error m keys _ f h

theorem TaskMap.Flatten_error (m : TaskMap) (fuel : Nat) (targets : List Task) (e : GoError)
    (h : m.Flatten fuel targets = .error (.error e)) : IsMissingTaskError m e := by
  unfold TaskMap.Flatten at h
  by_cases hl : targets.length = 0
  · simp only [hl, if_true] at h
    cases hv : m.Values with
    | error f =>
      simp only [hv] at h
      have hf := valuesLoop_error m _ _ f hv
      subst hf
      simp at h
    | ok vs =>
      simp only [hv] at h
      exact flatten_error m fuel vs e h
  · simp only [hl, if_false] at h
    exact flatten_error m fuel targets e h

/-! ## Cycle detection -/

theorem stackIndex_nonneg_iff (s : List Task) (id : String) :
    stackIndex s id ≥ 0 ↔ id ∈ s.map Task.Id := by
  unfold stackIndex
  cases h : s.findIdx? (fun t => t.Id == id) with
  | none =>
    rw [List.findIdx?_eq_none_iff] at h
    simp only [ge_iff_le, Int.reduceNeg, Left.nonneg_neg_iff, Int.reduceLE, List.mem_map,
      false_iff, not_exists, not_and]
    intro t ht hid
    have := h t ht
    simp [hid] at this
  | some i =>
    have h1 : (s.findIdx? (fun t => t.Id == id)).isSome = true := by rw [h]; rfl
    rw [List.findIdx?_isSome, List.any_eq_true] at h1
    obtain ⟨t, ht, hid⟩ := h1
    simp only [ge_iff_le, Int.natCast_nonneg, List.mem_map, true_iff]
    exact ⟨t, ht, by simpa using hid⟩

theorem StackOK.length_le {m : TaskMap} {st : List Task} (h : StackOK m st) :
    st.length ≤ m.entries.length := by
  have hsub : st.map Task.Id ⊆ m.entries.map Prod.fst := by
    intro k hk
    obtain ⟨u, hu, rfl⟩ := List.mem_map.1 hk
    exact List.mem_map.2 ⟨(u.Id, some u), TaskMap.mem_of_Get (h.2 u hu), rfl⟩
  have := (List.subperm_of_subset h.1 hsub).length_le
  simpa using this

theorem StackOK.push {m : TaskMap} {st : List Task} {task : Task} (h : StackOK m st)
    (ht : m.Get task.Id = some task) (hnot : task.Id ∉ st.map Task.Id) :
    StackOK m (st ++ [task]) := by
  constructor
  · rw [List.map_append, List.nodup_append]
    refine ⟨h.1, by simp, ?_⟩
    intro a ha hb
    have : a = task.Id := by simpa using hb
    subst this
    exact hnot ha
  · intro u hu
    rcases List.mem_append.1 hu with h1 | h1
    · exact h.2 u h1
    · have : u = task := by simpa using h1
      subst this
      exact ht

/-- A blocked need blocks the task itself. -/
theorem Blocked.of_need {m : TaskMap} {st : List Task} {task : Task} {d : String}
    (he : m.Edge task.Id d) (hb : Blocked m (st ++ [task]) d) : Blocked m st task.Id := by
  obtain ⟨x, hdx, hx⟩ := hb
  rcases hx with hx | hx
  · rw [List.map_append, List.mem_append] at hx
    rcases hx with hx | hx
    · exact ⟨x, Relation.ReflTransGen.head he hdx, Or.inl hx⟩
    · have : x = task.Id := by simpa using hx
      subst this
      exact ⟨task.Id, Relation.ReflTransGen.refl, Or.inr (Relation.TransGen.head' he hdx)⟩
  · exact ⟨x, Relation.ReflTransGen.head he hdx, Or.inr hx⟩

/-- Blocked by the stack with `task` on top, and `task` blocked itself. -/
theorem Blocked.lift {m : TaskMap} {st : List Task} {task : Task} {u : String}
    (hb : Blocked m (st ++ [task]) u) (ht : Blocked m st task.Id) : Blocked m st u := by
  obtain ⟨x, hux, hx⟩ := hb
  rcases hx with hx | hx
  · rw [List.map_append, List.mem_append] at hx
    rcases hx with hx | hx
    · exact ⟨x, hux, Or.inl hx⟩
    · have : x = task.Id := by simpa using hx
      subst this
      obtain ⟨y, hty, hy⟩ := ht
      exact ⟨y, hux.trans hty, hy⟩
  · exact ⟨x, hux, Or.inr hx⟩

/-- When no registered need of `task` is blocked by the stack with `task` on
top, `task` is not blocked by the stack. -/
theorem not_blocked_of_needs {m : TaskMap} {st : List Task} {task : Task}
    (ht : m.Get task.Id = some task) (hnot : task.Id ∉ st.map Task.Id)
    (h : ∀ d ∈ task.Needs, m.Has d = true → ¬ Blocked m (st ++ [task]) d) :
    ¬ Blocked m st task.Id := by
  have hedge : ∀ d, m.Edge task.Id d → ¬ Blocked m (st ++ [task]) d := by
    intro d ⟨t', c, ht', hd, hc⟩
    rw [ht] at ht'
    cases ht'
    exact h d hd (TaskMap.Has_of_Get hc)
  rintro ⟨x, hax, hx⟩
  rcases Relation.ReflTransGen.cases_head hax with h1 | ⟨d, hd, hdx⟩
  · subst h1
    rcases hx with hx | hx
    · exact hnot hx
    · obtain ⟨d, hd, hda⟩ := Relation.TransGen.head'_iff.1 hx
      exact hedge d hd ⟨task.Id, hda, Or.inl (by simp)⟩
  · refine hedge d hd ⟨x, hdx, ?_⟩
    rcases hx with hx | hx
    · exact Or.inl (by rw [List.map_append, List.mem_append]; exact Or.inl hx)
    · exact Or.inr hx

/-- The loop of `findCycle` over the Needs, when the recursive calls behave. -/
theorem findCycleDeps_spec (m : TaskMap) (hO : m.OwnId)
    (recur : Task → List Task → Except Fault (Bool × List Task)) (s : List Task)
    (hrec : ∀ c, m.Get c.Id = some c → CycleOutcome m s c.Id (recur c s)) :
    ∀ ds : List String,
      ((∀ d ∈ ds, m.Has d = true → ¬ Blocked m s d) ∧
        findCycleDeps recur m ds s = .ok (true, s)) ∨
      ((∃ d ∈ ds, m.Has d = true ∧ Blocked m s d) ∧
        ∃ st', findCycleDeps recur m ds s = .ok (false, s ++ st') ∧ StackOK m (s ++ st') ∧
          ∀ u ∈ st', Blocked m s u.Id)
  | [] => Or.inl ⟨by simp, by simp [findCycleDeps]⟩
  | dep :: deps => by
    have ih := findCycleDeps_spec m hO recur s hrec deps
    by_cases hH : m.Has dep = true
    · obtain ⟨c, hc, hcid⟩ := TaskMap.Get_of_Has hO hH
      have hout := hrec c (TaskMap.Get_self hO hc)
      rw [hcid] at hout
      rcases hout with ⟨hnb, hres⟩ | ⟨hb, st', hres, hok, hnew⟩
      · have hstep : findCycleDeps recur m (dep :: deps) s = findCycleDeps recur m deps s := by
          rw [findCycleDeps]
          simp [hH, hc, hres]
        rw [hstep]
        rcases ih with ⟨h1, h2⟩ | ⟨⟨d, hd, h1⟩, h2⟩
        · left
          refine ⟨?_, h2⟩
          intro d hd hHd
          rcases List.mem_cons.1 hd with h3 | h3
          · subst h3; exact hnb
          · exact h1 d h3 hHd
        · right
          exact ⟨⟨d, List.mem_cons_of_mem _ hd, h1⟩, h2⟩
      · right
        refine ⟨⟨dep, List.mem_cons_self _ _, hH, hb⟩, st', ?_, hok, hnew⟩
        rw [findCycleDeps]
        simp [hH, hc, hres]
    · have hstep : findCycleDeps recur m (dep :: deps) s = findCycleDeps recur m deps s := by
        rw [findCycleDeps]
        simp [hH]
      rw [hstep]
      rcases ih with ⟨h1, h2⟩ | ⟨⟨d, hd, h1⟩, h2⟩
      · left
        refine ⟨?_, h2⟩
        intro d hd hHd
        rcases List.mem_cons.1 hd with h3 | h3
        · subst h3; exact absurd hHd hH
        · exact h1 d h3 hHd
      · right
        exact ⟨⟨d, List.mem_cons_of_mem _ hd, h1⟩, h2⟩

/-- The function `findCycle` with a recursion budget of at least the number of
registered tasks not on the stack, plus one. -/
theorem findCycle_spec (m : TaskMap) (hO : m.OwnId) :
    ∀ (fuel : Nat) (task : Task) (st : List Task), m.Get task.Id = some task →
      StackOK m st → m.entries.length + 1 ≤ fuel + st.length →
      CycleOutcome m st task.Id (findCycle fuel task st m)
  | 0, task, st, _, hst, hf => by
    have := hst.length_le
    omega
  | fuel + 1, task, st, ht, hst, hf => by
    rw [findCycle]
    by_cases hidx : stackIndex st task.Id ≥ 0
    · right
      simp only [hidx, if_true]
      refine ⟨⟨task.Id, Relation.ReflTransGen.refl,
        Or.inl ((stackIndex_nonneg_iff _ _).1 hidx)⟩, [], by simp, by simpa using hst, by simp⟩
    · simp only [hidx, if_false]
      have hnot : task.Id ∉ st.map Task.Id := fun h => hidx ((stackIndex_nonneg_iff _ _).2 h)
      have hpush : StackOK m (st ++ [task]) := hst.push ht hnot
      have hrec : ∀ c, m.Get c.Id = some c →
          CycleOutcome m (st ++ [task]) c.Id (findCycle fuel c (st ++ [task]) m) := by
        intro c hc
        refine findCycle_spec m hO fuel c (st ++ [task]) hc hpush ?_
        simp only [List.length_append, List.length_singleton]
        omega
      rcases findCycleDeps_spec m hO (fun child st' => findCycle fuel child st' m)
          (st ++ [task]) hrec task.Needs with ⟨h1, h2⟩ | ⟨⟨d, hd, hHd, hb⟩, st', h2, hok, hnew⟩
      · left
        refine ⟨not_blocked_of_needs ht hnot h1, ?_⟩
        rw [h2]
        simp
      · right
        obtain ⟨c, hc, -⟩ := TaskMap.Get_of_Has hO hHd
        have hbt : Blocked m st task.Id := Blocked.of_need ⟨task, c, ht, hd, hc⟩ hb
        refine ⟨hbt, [task] ++ st', ?_, ?_, ?_⟩
        · rw [h2]
          simp
        · simpa using hok
        · intro u hu
          rcases List.mem_append.1 hu with h3 | h3
          · have : u = task := by simpa using h3
            subst this
            exact hbt
          · exact Blocked.lift (hnew u h3) hbt

theorem blocked_iff_reachesCycle {m : TaskMap} {stack : List Task}
    (hinv : ∀ u ∈ stack, m.ReachesCycle u.Id) (a : String) :
    Blocked m stack a ↔ m.ReachesCycle a := by
  constructor
  · rintro ⟨x, hax, hx | hx⟩
    · obtain ⟨u, hu, rfl⟩ := List.mem_map.1 hx
      obtain ⟨y, huy, hy⟩ := hinv u hu
      exact ⟨y, hax.trans huy, hy⟩
    · exact ⟨x, hax, hx⟩
  · rintro ⟨x, hax, hx⟩
    exact ⟨x, hax, Or.inr hx⟩

/-- The loop of `FindCyclicalReferences`: the tasks appended to `cycles` are the
tasks of the entries from which a cycle can be reached. -/
theorem findCyclicalLoop_spec (m : TaskMap) (hO : m.OwnId) (fuel : Nat)
    (hf : m.entries.length + 1 ≤ fuel) :
    ∀ (es : List (String × Option Task)) (cycles stack : List Task),
      (∀ kv ∈ es, ∃ t, kv.2 = some t ∧ m.Get t.Id = some t) →
      StackOK m stack → (∀ u ∈ stack, m.ReachesCycle u.Id) →
      ∃ cs, findCyclicalLoop fuel m es cycles stack = .ok (cycles ++ cs) ∧
        ∀ t, t ∈ cs ↔ ((∃ k, (k, some t) ∈ es) ∧ m.ReachesCycle t.Id)
  | [], cycles, stack, _, _, _ => ⟨[], by simp [findCyclicalLoop], by simp⟩
  | (k, v) :: rest, cycles, stack, hes, hst, hinv => by
    obtain ⟨task, hv, ht⟩ := hes (k, v) (List.mem_cons_self _ _)
    simp only at hv
    subst hv
    have hes' : ∀ kv ∈ rest, ∃ t, kv.2 = some t ∧ m.Get t.Id = some t :=
      fun kv hkv => hes kv (List.mem_cons_of_mem _ hkv)
    have hout := findCycle_spec m hO fuel task stack ht hst (by omega)
    rcases hout with ⟨hnb, hres⟩ | ⟨hb, st', hres, hok, hnew⟩
    · have hnrc : ¬ m.ReachesCycle task.Id := fun h => hnb ((blocked_iff_reachesCycle hinv _).2 h)
      obtain ⟨cs, hcs, hmem⟩ := findCyclicalLoop_spec m hO fuel hf rest cycles stack hes' hst hinv
      refine ⟨cs, ?_, ?_⟩
      · rw [findCyclicalLoop]
        simp only [hres]
        exact hcs
      · intro t
        rw [hmem t]
        constructor
        · rintro ⟨⟨k', hk'⟩, hrc⟩
          exact ⟨⟨k', List.mem_cons_of_mem _ hk'⟩, hrc⟩
        · rintro ⟨⟨k', hk'⟩, hrc⟩
          rcases List.mem_cons.1 hk' with h1 | h1
          · cases h1
            exact absurd hrc hnrc
          · exact ⟨⟨k', h1⟩, hrc⟩
    · have hrc : m.ReachesCycle task.Id := (blocked_iff_reachesCycle hinv _).1 hb
      have hinv' : ∀ u ∈ stack ++ st', m.ReachesCycle u.Id := by
        intro u hu
        rcases List.mem_append.1 hu with h1 | h1
        · exact hinv u h1
        · exact (blocked_iff_reachesCycle hinv _).1 (hnew u h1)
      obtain ⟨cs, hcs, hmem⟩ :=
        findCyclicalLoop_spec m hO fuel hf rest (cycles ++ [task]) (stack ++ st') hes' hok hinv'
      refine ⟨task :: cs, ?_, ?_⟩
      · rw [findCyclicalLoop]
        simp only [hres]
        rw [hcs]
        simp
      · intro t
        rw [List.mem_cons, hmem t]
        constructor
        · rintro (h1 | ⟨⟨k', hk'⟩, hrc'⟩)
          · subst h1
            exact ⟨⟨k, List.mem_cons_self _ _⟩, hrc⟩
          · exact ⟨⟨k', List.mem_cons_of_mem _ hk'⟩, hrc'⟩
        · rintro ⟨⟨k', hk'⟩, hrc'⟩
          rcases List.mem_cons.1 hk' with h1 | h1
          · cases h1
            exact Or.inl rfl
          · exact Or.inr ⟨⟨k', h1⟩, hrc'⟩

/-- `FindCyclicalReferences` with a recursion budget above the number of
registered tasks: it reports exactly the registered tasks from which a cycle can
be reached, and nil when there is none. -/
theorem FindCyclicalReferences_spec (m : TaskMap) (hU : m.UniqueKeys) (hO : m.OwnId)
    (fuel : Nat) (hf : m.entries.length + 1 ≤ fuel) :
    ∃ cs, m.FindCyclicalReferences fuel = .ok (if cs.length = 0 then none else some cs) ∧
      ∀ t, t ∈ cs ↔ (m.Registered t ∧ m.ReachesCycle t.Id) := by
  have hes : ∀ kv ∈ m.entries, ∃ t, kv.2 = some t ∧ m.Get t.Id = some t := by
    intro kv hkv
    obtain ⟨t, ht, hid⟩ := hO kv hkv
    refine ⟨t, ht, ?_⟩
    rw [hid]
    apply TaskMap.Get_of_mem hU
    rw [← ht]
    exact hkv
  obtain ⟨cs, hcs, hmem⟩ :=
    findCyclicalLoop_spec m hO fuel hf m.entries [] [] hes ⟨by simp, by simp⟩ (by simp)
  refine ⟨cs, ?_, hmem⟩
  simp only [List.nil_append] at hcs
  unfold TaskMap.FindCyclicalReferences
  rw [hcs]
  by_cases h : cs.length = 0 <;> simp [h]

/-- A task on a cycle is a registered task that reaches a cycle. -/
theorem TaskMap.registered_of_cycle {m : TaskMap} {a : String}
    (h : Relation.TransGen m.Edge a a) :
    ∃ t, m.Get a = some t ∧ m.Registered t := by
  obtain ⟨d, ⟨t, c, ht, -, -⟩, -⟩ := Relation.TransGen.head'_iff.1 h
  exact ⟨t, ht, a, TaskMap.mem_of_Get ht⟩

theorem findCycleDeps_mono {rec1 rec2 : Task → List Task → Except Fault (Bool × List Task)}
    (h : ∀ c st r, rec1 c st = .ok r → rec2 c st = .ok r) (m : TaskMap) :
    ∀ (ds : List String) (st : List Task) (r : Bool × List Task),
      findCycleDeps rec1 m ds st = .ok r → findCycleDeps rec2 m ds st = .ok r
  | [], st, r, h1 => by simpa [findCycleDeps] using h1
  | dep :: deps, st, r, h1 => by
    rw [findCycleDeps] at h1 ⊢
    by_cases hH : m.Has dep = true
    · simp only [hH, Bool.not_true, Bool.false_eq_true, if_false] at h1 ⊢
      cases hg : m.Get dep with
      | none =>
        simp only [hg] at h1 ⊢
        exact findCycleDeps_mono h m deps st r h1
      | some child =>
        simp only [hg] at h1 ⊢
        cases hr : rec1 child st with
        | error e => simp [hr] at h1
        | ok p =>
          obtain ⟨b, st'⟩ := p
          rw [hr] at h1
          rw [h child st _ hr]
          cases b with
          | false => exact h1
          | true => exact findCycleDeps_mono h m deps st' r h1
    · simp only [hH, Bool.not_false, if_true] at h1 ⊢
      exact findCycleDeps_mono h m deps st r h1

theorem findCycle_succ (m : TaskMap) :
    ∀ (fuel : Nat) (task : Task) (st : List Task) (r : Bool × List Task),
      findCycle fuel task st m = .ok r → findCycle (fuel + 1) task st m = .ok r
  | 0, task, st, r, h => by simp [findCycle] at h
  | fuel + 1, task, st, r, h => by
    rw [findCycle] at h ⊢
    by_cases hidx : stackIndex st task.Id ≥ 0
    · simp only [hidx, if_true] at h ⊢
      exact h
    · simp only [hidx, if_false] at h ⊢
      cases hd : findCycleDeps (fun child st' => findCycle fuel child st' m) m task.Needs
          (st ++ [task]) with
      | error e => simp [hd] at h
      | ok p =>
        rw [hd] at h
        rw [findCycleDeps_mono (fun c st' r' hc => findCycle_succ m fuel c st' r' hc) m
          task.Needs (st ++ [task]) p hd]
        exact h

theorem findCyclicalLoop_succ (m : TaskMap) (fuel : Nat) :
    ∀ (es : List (String × Option Task)) (cycles stack r : List Task),
      findCyclicalLoop fuel m es cycles stack = .ok r →
        findCyclicalLoop (fuel + 1) m es cycles stack = .ok r
  | [], cycles, stack, r, h => by simpa [findCyclicalLoop] using h
  | (k, none) :: rest, cycles, stack, r, h => by simp [findCyclicalLoop] at h
  | (k, some task) :: rest, cycles, stack, r, h => by
    rw [findCyclicalLoop] at h ⊢
    cases hc : findCycle fuel task stack m with
    | error e => simp [hc] at h
    | ok p =>
      obtain ⟨b, st'⟩ := p
      rw [hc] at h
      rw [findCycle_succ m fuel task stack _ hc]
      cases b with
      | false => exact findCyclicalLoop_succ m fuel rest _ st' r h
      | true => exact findCyclicalLoop_succ m fuel rest _ st' r h

theorem TaskMap.FindCyclicalReferences_mono (m : TaskMap) {fuel fuel' : Nat}
    (hle : fuel ≤ fuel') (r : Option (List Task))
    (h : m.FindCyclicalReferences fuel = .ok r) : m.FindCyclicalReferences fuel' = .ok r := by
  have hsucc : ∀ n, m.FindCyclicalReferences n = .ok r →
      m.FindCyclicalReferences (n + 1) = .ok r := by
    intro n hn
    unfold TaskMap.FindCyclicalReferences at hn ⊢
    cases hl : findCyclicalLoop n m m.entries [] [] with
    | error e => simp [hl] at hn
    | ok cs =>
      rw [hl] at hn
      rw [findCyclicalLoop_succ m n m.entries [] [] cs hl]
      exact hn
  induction hle with
  | refl => exact h
  | step _ ih => exact hsucc _ ih

/-- No path ends in an Id that no registered task lists in its Needs. -/
theorem TaskMap.no_path_into (m : TaskMap) (b : String)
    (h : ∀ kv ∈ m.entries, ∀ t ∈ kv.2, b ∉ t.Needs) (a : String) :
    ¬ Relation.TransGen m.Edge a b := by
  intro hab
  obtain ⟨x, -, ⟨t, c, ht, hb, -⟩⟩ := Relation.TransGen.tail'_iff.1 hab
  exact h _ (TaskMap.mem_of_Get ht) t rfl hb

/-! ## Missing dependencies -/

theorem missingDepsOfTask_spec (m : TaskMap) (task : Task) :
    ∀ (ds : List String) (missing : MissingDepResult),
      ((missingDepsOfTask m task ds missing).Task = none ↔
        missing.Task = none ∧ ∀ d ∈ ds, m.Has d = true) ∧
      (∀ t, (missingDepsOfTask m task ds missing).Task = some t →
        missing.Task = some t ∨ (t = task ∧ ∃ d ∈ ds, m.Has d = false))
  | [], missing => by simp [missingDepsOfTask]
  | dep :: deps, missing => by
    rw [missingDepsOfTask]
    by_cases hH : m.Has dep = true
    · simp only [hH, Bool.not_true, Bool.false_eq_true, if_false]
      obtain ⟨h1, h2⟩ := missingDepsOfTask_spec m task deps missing
      refine ⟨?_, ?_⟩
      · rw [h1]
        simp [hH]
      · intro t ht
        rcases h2 t ht with h3 | ⟨h3, d, hd, h4⟩
        · exact Or.inl h3
        · exact Or.inr ⟨h3, d, List.mem_cons_of_mem _ hd, h4⟩
    · have hF : m.Has dep = false := by simpa using hH
      simp only [hF, Bool.not_false, if_true]
      by_cases hT : missing.Task = none
      · simp only [hT, if_true]
        obtain ⟨h1, h2⟩ := missingDepsOfTask_spec m task deps
          { Task := some task, Missing := missing.Missing ++ [dep] }
        refine ⟨?_, ?_⟩
        · rw [h1]
          simp [hF]
        · intro t ht
          rcases h2 t ht with h3 | ⟨h3, d, hd, h4⟩
          · simp only [Option.some.injEq] at h3
            exact Or.inr ⟨h3.symm, dep, List.mem_cons_self _ _, hF⟩
          · exact Or.inr ⟨h3, d, List.mem_cons_of_mem _ hd, h4⟩
      · simp only [hT, if_false]
        obtain ⟨h1, h2⟩ := missingDepsOfTask_spec m task deps
          { Task := missing.Task, Missing := missing.Missing ++ [dep] }
        refine ⟨?_, ?_⟩
        · rw [h1]
          simp [hT]
        · intro t ht
          rcases h2 t ht with h3 | ⟨h3, d, hd, h4⟩
          · exact Or.inl h3
          · exact Or.inr ⟨h3, d, List.mem_cons_of_mem _ hd, h4⟩

theorem missingDepsLoop_spec (m : TaskMap) :
    ∀ (es : List (String × Option Task)) (missing : MissingDepResult),
      (∀ kv ∈ es, kv.2 ≠ none) →
      ∃ res, missingDepsLoop m es missing = .ok res ∧
        (res.Task = none ↔
          missing.Task = none ∧ ∀ kv ∈ es, ∀ t ∈ kv.2, ∀ d ∈ t.Needs, m.Has d = true) ∧
        (∀ t, res.Task = some t →
          missing.Task = some t ∨ ((∃ k, (k, some t) ∈ es) ∧ ∃ d ∈ t.Needs, m.Has d = false))
  | [], missing, _ => ⟨missing, by simp [missingDepsLoop], by simp, fun t h => Or.inl h⟩
  | (k, none) :: rest, missing, h => absurd rfl (h (k, none) (List.mem_cons_self _ _))
  | (k, some task) :: rest, missing, h => by
    obtain ⟨h1, h2⟩ := missingDepsOfTask_spec m task task.Needs missing
    obtain ⟨res, hres, h3, h4⟩ := missingDepsLoop_spec m rest
      (missingDepsOfTask m task task.Needs missing)
      (fun kv hkv => h kv (List.mem_cons_of_mem _ hkv))
    refine ⟨res, ?_, ?_, ?_⟩
    · rw [missingDepsLoop]
      exact hres
    · rw [h3, h1]
      constructor
      · rintro ⟨⟨ha, hb⟩, hc⟩
        refine ⟨ha, ?_⟩
        intro kv hkv t ht d hd
        rcases List.mem_cons.1 hkv with h5 | h5
        · subst h5
          simp only [Option.mem_def, Option.some.injEq] at ht
          subst ht
          exact hb d hd
        · exact hc kv h5 t ht d hd
      · rintro ⟨ha, hb⟩
        exact ⟨⟨ha, fun d hd => hb (k, some task) (List.mem_cons_self _ _) task rfl d hd⟩,
          fun kv hkv => hb kv (List.mem_cons_of_mem _ hkv)⟩
    · intro t ht
      rcases h4 t ht with h5 | ⟨⟨k', hk'⟩, h6⟩
      · rcases h2 t h5 with h7 | ⟨h7, h8⟩
        · exact Or.inl h7
        · subst h7
          exact Or.inr ⟨⟨k, List.mem_cons_self _ _⟩, h8⟩
      · exact Or.inr ⟨⟨k', List.mem_cons_of_mem _ hk'⟩, h6⟩

/-! ## Expression.Eval -/

theorem coerceCase_state {σ : Type} (e : Expression) (s : σ) (zero : Value)
    (parse : String → Except GoError Value) : (coerceCase e s zero parse).state = s := by
  unfold coerceCase
  simp only
  split
  · split <;> rfl
  · rfl

/-- A call on an unevaluated Expression leaves the Evaluator in the state its
single call of the Evaluator produced. -/
theorem Expression.Eval_state {σ κ : Type} (pf : FloatParser) (ev : Evaluator σ κ) (ctx : κ)
    (e : Expression) (s : σ) (h : e.IsEvaluated = false) :
    (e.Eval pf ev ctx s).state = (ev e.Raw ctx s).2 := by
  unfold Expression.Eval
  simp only [h, Bool.not_false, if_true]
  rcases hev : ev e.Raw ctx s with ⟨r, s1⟩
  cases r with
  | error err => rfl
  | ok v =>
    simp only
    repeat' split
    all_goals first | rfl | exact coerceCase_state _ _ _ _

theorem coerceCase_flags {σ : Type} (e : Expression) (s : σ) (zero : Value)
    (parse : String → Except GoError Value) :
    (coerceCase e s zero parse).expr.IsEvaluated = e.IsEvaluated ∧
      (coerceCase e s zero parse).expr.ValueString = e.ValueString := by
  unfold coerceCase
  simp only
  split
  · split <;> exact ⟨rfl, rfl⟩
  · exact ⟨rfl, rfl⟩

/-- Once the Evaluator has succeeded, the Expression is marked evaluated and
holds the string, whatever the coercion does. -/
theorem Expression.Eval_flags {σ κ : Type} (pf : FloatParser) (ev : Evaluator σ κ) (ctx : κ)
    (e : Expression) (s s1 : σ) (v : String) (h : e.IsEvaluated = false)
    (hev : ev e.Raw ctx s = (.ok v, s1)) :
    (e.Eval pf ev ctx s).expr.IsEvaluated = true ∧
      (e.Eval pf ev ctx s).expr.ValueString = v := by
  unfold Expression.Eval
  simp only [h, Bool.not_false, if_true, hev]
  split_ifs
  all_goals first | exact ⟨rfl, rfl⟩ | exact coerceCase_flags _ _ _ _

/-! ## Decimal numerals and the strconv parsers -/

theorem digitVal_digitChar : ∀ d, d < 10 → digitVal (Nat.digitChar d) = some d := by
  decide

theorem digitChar_ne_sign : ∀ d, d < 10 → Nat.digitChar d ≠ '+' ∧ Nat.digitChar d ≠ '-' := by
  decide

/-- The recursion of `Nat.toDigits`, most significant digit first. -/
theorem toDigitsCore_eq : ∀ (m f : Nat) (ds : List Char), m < f →
    Nat.toDigitsCore 10 f m ds = Nat.toDigits 10 m ++ ds := by
  intro m
  induction m using Nat.strong_induction_on with
  | _ m ih =>
    intro f ds hf
    obtain ⟨f', rfl⟩ : ∃ f', f = f' + 1 := ⟨f - 1, by omega⟩
    unfold Nat.toDigits
    rw [Nat.toDigitsCore, Nat.toDigitsCore]
    by_cases h0 : m / 10 = 0
    · simp [h0]
    · simp only [h0, if_false]
      have hlt : m / 10 < m := Nat.div_lt_self (by omega) (by omega)
      rw [ih (m / 10) hlt f' _ (by omega), ih (m / 10) hlt m _ hlt]
      simp

theorem toDigits_step (n : Nat) :
    Nat.toDigits 10 n =
      if n / 10 = 0 then [Nat.digitChar (n % 10)]
      else Nat.toDigits 10 (n / 10) ++ [Nat.digitChar (n % 10)] := by
  conv_lhs => unfold Nat.toDigits
  rw [Nat.toDigitsCore]
  by_cases h0 : n / 10 = 0
  · simp [h0]
  · simp only [h0, if_false]
    exact toDigitsCore_eq (n / 10) n _ (Nat.div_lt_self (by omega) (by omega))

theorem toDigits_head : ∀ n : Nat, ∃ d rest, d < 10 ∧ Nat.toDigits 10 n = Nat.digitChar d :: rest := by
  intro n
  induction n using Nat.strong_induction_on with
  | _ n ih =>
    rw [toDigits_step]
    by_cases h0 : n / 10 = 0
    · exact ⟨n % 10, [], Nat.mod_lt _ (by omega), by simp [h0]⟩
    · obtain ⟨d, rest, hd, hr⟩ := ih (n / 10) (Nat.div_lt_self (by omega) (by omega))
      exact ⟨d, rest ++ [Nat.digitChar (n % 10)], hd, by simp [h0, hr]⟩

theorem parseUintLoop_append (s0 : String) (base maxVal : Nat) :
    ∀ (cs1 cs2 : List Char) (acc : Nat),
      parseUintLoop s0 base maxVal (cs1 ++ cs2) acc =
        match parseUintLoop s0 base maxVal cs1 acc with
        | .error e => .error e
        | .ok a => parseUintLoop s0 base maxVal cs2 a
  | [], cs2, acc => by simp [parseUintLoop]
  | c :: cs1, cs2, acc => by
    rw [List.cons_append, parseUintLoop, parseUintLoop]
    cases digitVal c with
    | none => rfl
    | some d =>
      simp only
      split_ifs
      · rfl
      · rfl
      · rfl
      · exact parseUintLoop_append s0 base maxVal cs1 cs2 _

/-- One step of the digit loop on a decimal digit that does not overflow. -/
theorem parseUintLoop_digit (s0 : String) (maxVal acc d : Nat) (hd : d < 10)
    (hmax : maxVal < 2 ^ 64) (hle : acc * 10 + d ≤ maxVal) :
    parseUintLoop s0 10 maxVal [Nat.digitChar d] acc = .ok (acc * 10 + d) := by
  rw [parseUintLoop, digitVal_digitChar d hd]
  have h1 : ¬ d ≥ 10 := by omega
  have h2 : ¬ acc ≥ (2 ^ 64 - 1) / 10 + 1 := by omega
  have h3 : ¬ (acc * 10 + d ≥ 2 ^ 64 ∨ acc * 10 + d > maxVal) := by omega
  simp only [h1, h2, h3, if_false]
  rfl

/-- The digit loop reads the decimal numeral of `n` as `n`. -/
theorem parseUintLoop_toDigits (s0 : String) (maxVal : Nat) (hmax : maxVal < 2 ^ 64) :
    ∀ n, n ≤ maxVal → parseUintLoop s0 10 maxVal (Nat.toDigits 10 n) 0 = .ok n := by
  intro n
  induction n using Nat.strong_induction_on with
  | _ n ih =>
    intro hn
    rw [toDigits_step]
    by_cases h0 : n / 10 = 0
    · simp only [h0, if_true]
      have := parseUintLoop_digit s0 maxVal 0 (n % 10) (Nat.mod_lt _ (by omega)) hmax (by omega)
      rw [this]
      congr 1
      omega
    · simp only [h0, if_false]
      rw [parseUintLoop_append, ih (n / 10) (Nat.div_lt_self (by omega) (by omega)) (by omega)]
      simp only
      rw [parseUintLoop_digit s0 maxVal (n / 10) (n % 10) (Nat.mod_lt _ (by omega)) hmax
        (by omega)]
      congr 1
      omega

/-- `strconv.ParseUint` reads the decimal numeral of `n`. -/
theorem ParseUint_repr (n bitSize : Nat) (hb : bitSize ≤ 64) (hn : n < 2 ^ bitSize) :
    ParseUint (Nat.repr n) 10 bitSize = .ok n := by
  have hpow : 2 ^ bitSize ≤ 2 ^ 64 := Nat.pow_le_pow_right (by omega) hb
  have hpos : 0 < 2 ^ bitSize := Nat.pow_pos (by omega)
  obtain ⟨d, rest, -, hd⟩ := toDigits_head n
  have hne : Nat.repr n ≠ "" := by
    intro h
    have := congrArg String.data h
    simp [Nat.repr, List.asString, hd] at this
  unfold ParseUint
  rw [if_neg hne]
  have hdata : (Nat.repr n).data = Nat.toDigits 10 n := rfl
  rw [hdata]
  exact parseUintLoop_toDigits _ _ (by omega) n (by omega)

/-- `strconv.ParseInt` reads the decimal numeral of every integer of the bit
size. -/
theorem ParseInt_toString (i : Int) (bitSize : Nat) (h1 : 1 ≤ bitSize) (hb : bitSize ≤ 64)
    (hlo : -(2 ^ (bitSize - 1) : Int) ≤ i) (hhi : i < (2 ^ (bitSize - 1) : Int)) :
    ParseInt (toString i) 10 bitSize = .ok i := by
  have hsplit : (2 : Nat) ^ bitSize = 2 * 2 ^ (bitSize - 1) := by
    conv_lhs => rw [show bitSize = (bitSize - 1) + 1 by omega]
    rw [Nat.pow_succ]
    ring
  have hcast : ((2 ^ (bitSize - 1) : Nat) : Int) = (2 : Int) ^ (bitSize - 1) := by push_cast; rfl
  cases i with
  | ofNat m =>
    have hm : m < 2 ^ (bitSize - 1) := by
      have : (m : Int) < ((2 ^ (bitSize - 1) : Nat) : Int) := by rw [hcast]; exact hhi
      exact_mod_cast this
    obtain ⟨d, rest, hd10, hd⟩ := toDigits_head m
    have hstr : toString (Int.ofNat m) = Nat.repr m := rfl
    have hdata : (Nat.repr m).data = Nat.digitChar d :: rest := hd
    have hne : Nat.repr m ≠ "" := by
      intro h
      have := congrArg String.data h
      rw [hdata] at this
      simp at this
    have hsign := digitChar_ne_sign d hd10
    rw [hstr]
    unfold ParseInt
    rw [if_neg hne]
    have hhead : (Nat.repr m).data.head? = some (Nat.digitChar d) := by rw [hdata]; rfl
    simp only [hhead, Option.some.injEq, hsign.1, hsign.2, or_self, if_false]
    have hmk : String.mk (Nat.repr m).data = Nat.repr m := rfl
    rw [hmk, ParseUint_repr m bitSize hb (by omega)]
    simp only [decide_False, Bool.false_eq_true, not_false_eq_true, true_and, false_and,
      if_false]
    have : ¬ m ≥ 2 ^ (bitSize - 1) := by omega
    simp [this]
  | negSucc m =>
    have hm : m + 1 ≤ 2 ^ (bitSize - 1) := by
      have : -((2 ^ (bitSize - 1) : Nat) : Int) ≤ Int.negSucc m := by rw [hcast]; exact hlo
      have h2 : Int.negSucc m = -((m + 1 : Nat) : Int) := rfl
      rw [h2] at this
      have h3 : ((m + 1 : Nat) : Int) ≤ ((2 ^ (bitSize - 1) : Nat) : Int) := by omega
      exact_mod_cast h3
    have hstr : toString (Int.negSucc m) = "-" ++ Nat.repr (m + 1) := rfl
    have hdata : ("-" ++ Nat.repr (m + 1)).data = '-' :: (Nat.repr (m + 1)).data := rfl
    have hne : "-" ++ Nat.repr (m + 1) ≠ "" := by
      intro h
      have := congrArg String.data h
      rw [hdata] at this
      simp at this
    rw [hstr]
    unfold ParseInt
    rw [if_neg hne]
    simp only [hdata, List.head?_cons, List.tail_cons, or_true, if_true]
    have hmk : String.mk (Nat.repr (m + 1)).data = Nat.repr (m + 1) := rfl
    rw [hmk, ParseUint_repr (m + 1) bitSize hb (by omega)]
    have h4 : ¬ m + 1 > 2 ^ (bitSize - 1) := by omega
    simp only [decide_True, not_true_eq_false, false_and, if_false, true_and, h4]
    rfl


/-! ## Task.Eval -/

theorem goMapSet_lookup_self {β : Type} (key : String) (value : β) :
    ∀ l : List (String × β), (goMapSet key value l).lookup key = some value
  | [] => by simp [goMapSet, List.lookup]
  | (k, v) :: rest => by
    rw [goMapSet]
    by_cases h : k = key
    · subst h
      simp [List.lookup]
    · have h' : (key == k) = false := by simpa using fun h' => h h'.symm
      simp only [h, if_false, List.lookup_cons, h']
      exact goMapSet_lookup_self key value rest

theorem goMapSet_lookup_other {β : Type} (key key' : String) (value : β) (hne : key' ≠ key) :
    ∀ l : List (String × β), (goMapSet key value l).lookup key' = l.lookup key'
  | [] => by
    have h' : (key' == key) = false := by simpa using hne
    simp [goMapSet, List.lookup, h']
  | (k, v) :: rest => by
    rw [goMapSet]
    by_cases h : k = key
    · subst h
      have h' : (key' == k) = false := by simpa using hne
      simp [List.lookup_cons, h']
    · simp only [h, if_false, List.lookup_cons]
      rw [goMapSet_lookup_other key key' value hne rest]

theorem ObjectMap.Get_Set_self (o : ObjectMap) (key : String) (value : Value) :
    (o.Set key value).Get key = value := by
  simp [ObjectMap.Set, ObjectMap.Get, goMapSet_lookup_self]

theorem ObjectMap.Has_Set_self (o : ObjectMap) (key : String) (value : Value) :
    (o.Set key value).Has key = true := by
  simp [ObjectMap.Set, ObjectMap.Has, goMapSet_lookup_self]

theorem ObjectMap.Get_Set_other (o : ObjectMap) (key key' : String) (value : Value)
    (hne : key' ≠ key) : (o.Set key value).Get key' = o.Get key' := by
  unfold ObjectMap.Set ObjectMap.Get
  simp only [goMapSet_lookup_other key key' value hne]
  cases o.Items <;> simp

/-- The Inputs of the state of a context, when both pointers are set. -/
theorem mergeEnvLoop_ok :
    ∀ (l : List (String × String)) (ctx : TaskContext) (st : TaskState) (env : List (String × String)),
      ctx.State = some st → st.Env = some env → st.EnvShared = false →
      ∃ env', mergeEnvLoop l ctx = .ok { ctx with State := some { st with Env := some env' } }
  | [], ctx, st, env, h1, h2, _ => ⟨env, by
      simp only [mergeEnvLoop]
      congr 1
      cases ctx
      cases st
      simp_all⟩
  | (k, v) :: rest, ctx, st, env, h1, h2, h3 => by
    obtain ⟨env', h⟩ := mergeEnvLoop_ok rest
      { ctx with State := some { st with Env := some (goMapSet k v env) } }
      { st with Env := some (goMapSet k v env) } (goMapSet k v env) rfl rfl h3
    refine ⟨env', ?_⟩
    rw [mergeEnvLoop]
    simp only [stateEnvSet, h1, h2, h3, Bool.false_eq_true, if_false]
    simp only [h3] at h
    exact h

theorem resolve_unevaluated_string {σ : Type} (pf : FloatParser) (ev : Evaluator σ EvalData)
    (data : EvalData) (e : Expression) (es : σ) (v : String) (h : e.IsEvaluated = false)
    (ht : e.Typ = "string") (hev : (ev e.Raw data es).1 = .ok v) :
    resolve pf ev data e es =
      ⟨none, { e with ValueString := v, IsEvaluated := true, Value := .str v },
        (ev e.Raw data es).2⟩ := by
  unfold resolve Expression.Eval
  rcases hr : ev e.Raw data es with ⟨r, s1⟩
  rw [hr] at hev
  simp only at hev
  subst hev
  simp [h, ht]

theorem toString_int_ne_empty (n : Int) (hlo : -(2 ^ 63 : Int) ≤ n) (hhi : n < (2 ^ 63 : Int)) :
    toString n ≠ "" := by
  intro h
  have := ParseInt_toString n 64 (by omega) (by omega) (by simpa using hlo) (by simpa using hhi)
  rw [h] at this
  simp [ParseInt] at this


theorem resolve_of_resolvesTo {σ : Type} {ev : Evaluator σ EvalData} {e : Expression}
    {v : String} (h : ResolvesTo ev e v) (pf : FloatParser) (data : EvalData) (es : σ) :
    (resolve pf ev data e es).err = none ∧ (resolve pf ev data e es).expr.Value = .str v := by
  rcases h with ⟨h1, h2⟩ | ⟨h1, h2, h3⟩
  · simp [resolve, h1, h2]
  · rw [resolve_unevaluated_string pf ev data e es v h1 h2 (h3 data es)]
    exact ⟨rfl, rfl⟩

/-- The type switch on the empty string gives what the claim expects. -/
theorem coerceInput_empty (pf : FloatParser) (t : Task) (key : String) (inp : InputDescriptor)
    (htyp : inp.Typ ∈ ["int", "int64", "int32", "uint", "uint64", "uint32", "number", "float",
      "float64", "float32", "bool"]) :
    coerceInput pf t key inp "" = .ok (some (expectedForEmpty inp)) := by
  obtain ⟨name, desc, typ, req, dflt, secret⟩ := inp
  simp only [List.mem_cons, List.mem_singleton, List.not_mem_nil, or_false] at htyp
  unfold coerceInput expectedForEmpty declaredZero
  rcases htyp with h | h | h | h | h | h | h | h | h | h | h <;> subst h <;>
    cases dflt <;> simp [hasDeclaredType]

theorem inputsOf_ctxEnvSet {ctx ctx1 : TaskContext} {k v : String}
    (h : ctxEnvSet ctx k v = .ok ctx1) : inputsOf ctx1 = inputsOf ctx := by
  unfold ctxEnvSet at h
  cases hE : ctx.Env with
  | none => simp [hE] at h
  | some env =>
    simp only [hE, Except.ok.injEq] at h
    subst h
    rfl

theorem inputsOf_stateInputsSet {ctx ctx2 : TaskContext} {key : String} {x : Value}
    (h : stateInputsSet ctx key x = .ok ctx2) :
    ∃ o, inputsOf ctx = some o ∧ inputsOf ctx2 = some (o.Set key x) := by
  unfold stateInputsSet at h
  cases hS : ctx.State with
  | none => simp [hS] at h
  | some st =>
    cases hI : st.Inputs with
    | none => simp [hS, hI] at h
    | some o =>
      simp only [hS, hI, Except.ok.injEq] at h
      subst h
      exact ⟨o, by simp [inputsOf, hS, hI], by simp [inputsOf]⟩

/-- What the body of the loop over `t.With` can do to the Inputs: nothing, or one
`Set` under the key of the entry. -/
theorem withStep_inputs {σ : Type} (pf : FloatParser) (underscore : String → String)
    (ev : Evaluator σ EvalData) (outputs vars : List (String × Value)) (t : Task)
    (d : TaskDescriptor) (key : String) (value : Expression) (ctx : TaskContext) (es : σ) :
    inputsOf (withStep pf underscore ev outputs vars t d key value ctx es).ctx = inputsOf ctx ∨
      ∃ x o, inputsOf ctx = some o ∧
        inputsOf (withStep pf underscore ev outputs vars t d key value ctx es).ctx =
          some (o.Set key x) := by
  unfold withStep
  split
  · exact Or.inl rfl
  · dsimp only
    split
    · exact Or.inl rfl
    · split
      · exact Or.inl rfl
      · split
        · exact Or.inl rfl
        · split
          · exact Or.inl rfl
          · rename_i ctx1 h1
            have e1 := inputsOf_ctxEnvSet h1
            split
            · exact Or.inl e1
            · exact Or.inl e1
            · split
              · exact Or.inl e1
              · rename_i x ctx2 h2
                obtain ⟨o, ho, ho2⟩ := inputsOf_stateInputsSet h2
                exact Or.inr ⟨_, o, e1 ▸ ho, ho2⟩

theorem withStep_get_other {σ : Type} (pf : FloatParser) (underscore : String → String)
    (ev : Evaluator σ EvalData) (outputs vars : List (String × Value)) (t : Task)
    (d : TaskDescriptor) (key key0 : String) (value : Expression) (ctx : TaskContext) (es : σ)
    (hne : key0 ≠ key) :
    (inputsOf (withStep pf underscore ev outputs vars t d key value ctx es).ctx).map
        (fun o => o.Get key0) = (inputsOf ctx).map (fun o => o.Get key0) := by
  rcases withStep_inputs pf underscore ev outputs vars t d key value ctx es with h | ⟨x, o, h1, h2⟩
  · rw [h]
  · rw [h1, h2]
    simp [ObjectMap.Get_Set_other o key key0 x hne]

theorem withLoop_get_other {σ : Type} (pf : FloatParser) (underscore : String → String)
    (ev : Evaluator σ EvalData) (outputs vars : List (String × Value)) (t : Task)
    (d : TaskDescriptor) (key0 : String) :
    ∀ (entries : List (String × Expression)) (ctx : TaskContext) (es : σ),
      key0 ∉ entries.map Prod.fst →
      (inputsOf (withLoop pf underscore ev outputs vars t d entries ctx es).ctx).map
          (fun o => o.Get key0) = (inputsOf ctx).map (fun o => o.Get key0)
  | [], ctx, es, _ => by simp [withLoop]
  | (key, value) :: rest, ctx, es, h => by
    have hne : key0 ≠ key := fun hk => h (by simp [hk])
    have hrest : key0 ∉ rest.map Prod.fst := fun hk => h (by simp [hk])
    have hstep := withStep_get_other pf underscore ev outputs vars t d key key0 value ctx es hne
    rw [withLoop]
    rcases hs : withStep pf underscore ev outputs vars t d key value ctx es with ⟨oc, c1, s1⟩
    rw [hs] at hstep
    cases oc with
    | error f => exact hstep
    | ok u =>
      cases u
      simp only
      rw [withLoop_get_other pf underscore ev outputs vars t d key0 rest c1 s1 hrest]
      exact hstep


/-- The body of the loop on the entry of the key, when it goes through. -/
theorem withStep_target {σ : Type} (pf : FloatParser) (underscore : String → String)
    (ev : Evaluator σ EvalData) (outputs vars : List (String × Value)) (t : Task)
    (d : TaskDescriptor) (key : String) (value : Expression) (ctx : TaskContext) (es : σ)
    (inp : InputDescriptor) (v : String) (x : Value)
    (hl : d.Inputs.lookup key = some inp)
    (hres : ∀ data es', (resolve pf ev data value es').err = none ∧
      (resolve pf ev data value es').expr.Value = .str v)
    (hco : coerceInput pf t key inp v = .ok (some x))
    (hok : (withStep pf underscore ev outputs vars t d key value ctx es).outcome = .ok ()) :
    ∃ o, inputsOf (withStep pf underscore ev outputs vars t d key value ctx es).ctx = some o ∧
      o.Get key = x := by
  have h1 := (hres (mkData ctx outputs vars) es).1
  have h2 := (hres (mkData ctx outputs vars) es).2
  unfold withStep at hok ⊢
  simp only [hl, h1, h2, Value.assertString, hco] at hok ⊢
  by_cases hreq : inp.IsRequired = true ∧ v = ""
  · simp [hreq] at hok
  · simp only [hreq, if_false] at hok ⊢
    cases hE : ctxEnvSet ctx ("INPUT_" ++ underscore key) v with
    | error f => simp [hE] at hok
    | ok ctx1 =>
      simp only [hE] at hok ⊢
      cases hS : stateInputsSet ctx1 key x with
      | error f => simp [hS] at hok
      | ok ctx2 =>
        simp only [hS] at hok ⊢
        obtain ⟨o, -, ho2⟩ := inputsOf_stateInputsSet hS
        exact ⟨_, ho2, ObjectMap.Get_Set_self _ _ _⟩

/-- The loop over `t.With`, when it goes through: the entry of the key has
stored its value, and no later entry has touched it. -/
theorem withLoop_target {σ : Type} (pf : FloatParser) (underscore : String → String)
    (ev : Evaluator σ EvalData) (outputs vars : List (String × Value)) (t : Task)
    (d : TaskDescriptor) (key : String) (value : Expression) (inp : InputDescriptor)
    (v : String) (x : Value) (hl : d.Inputs.lookup key = some inp)
    (hres : ∀ data es', (resolve pf ev data value es').err = none ∧
      (resolve pf ev data value es').expr.Value = .str v)
    (hco : coerceInput pf t key inp v = .ok (some x)) :
    ∀ (entries : List (String × Expression)) (ctx : TaskContext) (es : σ),
      (entries.map Prod.fst).Nodup → (key, value) ∈ entries →
      (withLoop pf underscore ev outputs vars t d entries ctx es).outcome = .ok () →
      ∃ o, inputsOf (withLoop pf underscore ev outputs vars t d entries ctx es).ctx = some o ∧
        o.Get key = x
  | [], _, _, _, hmem, _ => by simp at hmem
  | (k0, e0) :: rest, ctx, es, hnd, hmem, hok => by
    rw [List.map_cons, List.nodup_cons] at hnd
    rw [withLoop] at hok ⊢
    rcases hs : withStep pf underscore ev outputs vars t d k0 e0 ctx es with ⟨oc, c1, s1⟩
    rw [hs] at hok
    cases oc with
    | error f => simp at hok
    | ok u =>
      cases u
      simp only at hok ⊢
      rcases List.mem_cons.1 hmem with h | h
      · cases h
        have hstep := withStep_target pf underscore ev outputs vars t d key value ctx es inp v x
          hl hres hco (by rw [hs])
        rw [hs] at hstep
        obtain ⟨o, ho, hget⟩ := hstep
        have hkeep := withLoop_get_other pf underscore ev outputs vars t d key rest c1 s1 hnd.1
        simp only at ho
        rw [ho] at hkeep
        cases hf : inputsOf (withLoop pf underscore ev outputs vars t d rest c1 s1).ctx with
        | none => simp [hf] at hkeep
        | some o' =>
          rw [hf] at hkeep
          simp only [Option.map_some', Option.some.injEq] at hkeep
          exact ⟨o', rfl, by rw [hkeep, hget]⟩
      · exact withLoop_target pf underscore ev outputs vars t d key value inp v x hl hres hco
          rest c1 s1 hnd.2 h hok

theorem evalField_inputs {σ : Type} (pf : FloatParser) (ev : Evaluator σ EvalData)
    (outputs vars : List (String × Value)) (field : Option Expression)
    (assign : Value → TaskState → Except Fault TaskState)
    (hassign : ∀ v st st', assign v st = .ok st' → st'.Inputs = st.Inputs)
    (ctx : TaskContext) (es : σ) :
    inputsOf (evalField pf ev outputs vars field assign ctx es).ctx = inputsOf ctx := by
  unfold evalField
  split
  · rfl
  · dsimp only
    split
    · rfl
    · split
      · rfl
      · rename_i st hst
        split
        · rfl
        · rename_i st' hst'
          simp [inputsOf, hst, hassign _ _ _ hst']

theorem assignTimeout_inputs (v : Value) (st st' : TaskState)
    (h : assignTimeout v st = .ok st') : st'.Inputs = st.Inputs := by
  unfold assignTimeout at h
  cases hv : v.assertUint32 with
  | error f => simp [hv] at h
  | ok n =>
    simp only [hv, Except.ok.injEq] at h
    subst h
    rfl

theorem assignBool_inputs (v : Value) (st st' : TaskState) :
    (assignForce v st = .ok st' → st'.Inputs = st.Inputs) ∧
      (assignIf v st = .ok st' → st'.Inputs = st.Inputs) := by
  unfold assignForce assignIf
  cases hv : v.assertBool with
  | error f => simp
  | ok b =>
    simp only [Except.ok.injEq]
    exact ⟨fun h => by subst h; rfl, fun h => by subst h; rfl⟩

theorem assignString_inputs (v : Value) (st st' : TaskState) :
    (assignCwd v st = .ok st' → st'.Inputs = st.Inputs) ∧
      (assignRunExpr v st = .ok st' → st'.Inputs = st.Inputs) := by
  unfold assignCwd assignRunExpr
  cases hv : v.assertString with
  | error f => simp
  | ok b =>
    simp only [Except.ok.injEq]
    exact ⟨fun h => by subst h; rfl, fun h => by subst h; rfl⟩

/-- The five optional fields leave the Inputs alone. -/
theorem fieldsPhase_inputs {σ : Type} (pf : FloatParser) (ev : Evaluator σ EvalData)
    (outputs vars : List (String × Value)) (t : Task) (ctx : TaskContext) (es : σ) :
    inputsOf (fieldsPhase pf ev outputs vars t ctx es).ctx = inputsOf ctx := by
  unfold fieldsPhase
  have e1 := evalField_inputs pf ev outputs vars t.Timeout assignTimeout
    assignTimeout_inputs ctx es
  rcases h1 : evalField pf ev outputs vars t.Timeout assignTimeout ctx es with ⟨oc1, f1, c1, s1⟩
  rw [h1] at e1
  cases oc1 with
  | error f => exact e1
  | ok u1 =>
    cases u1
    simp only
    have e2 := evalField_inputs pf ev outputs vars t.Force assignForce
      (fun v st st' => (assignBool_inputs v st st').1) c1 s1
    rcases h2 : evalField pf ev outputs vars t.Force assignForce c1 s1 with ⟨oc2, f2, c2, s2⟩
    rw [h2] at e2
    cases oc2 with
    | error f => exact e2.trans e1
    | ok u2 =>
      cases u2
      simp only
      have e3 := evalField_inputs pf ev outputs vars t.Cwd assignCwd
        (fun v st st' => (assignString_inputs v st st').1) c2 s2
      rcases h3 : evalField pf ev outputs vars t.Cwd assignCwd c2 s2 with ⟨oc3, f3, c3, s3⟩
      rw [h3] at e3
      cases oc3 with
      | error f => exact e3.trans (e2.trans e1)
      | ok u3 =>
        cases u3
        simp only
        have e4 := evalField_inputs pf ev outputs vars t.If assignIf
          (fun v st st' => (assignBool_inputs v st st').2) c3 s3
        rcases h4 : evalField pf ev outputs vars t.If assignIf c3 s3 with ⟨oc4, f4, c4, s4⟩
        rw [h4] at e4
        cases oc4 with
        | error f => exact e4.trans (e3.trans (e2.trans e1))
        | ok u4 =>
          cases u4
          simp only
          have e5 := evalField_inputs pf ev outputs vars t.RunExpr assignRunExpr
            (fun v st st' => (assignString_inputs v st st').2) c4 s4
          rcases h5 : evalField pf ev outputs vars t.RunExpr assignRunExpr c4 s4 with
            ⟨oc5, f5, c5, s5⟩
          rw [h5] at e5
          cases oc5 with
          | error f => exact e5.trans (e4.trans (e3.trans (e2.trans e1)))
          | ok u5 =>
            cases u5
            exact e5.trans (e4.trans (e3.trans (e2.trans e1)))


theorem ctxEnvSet_descriptor {ctx ctx1 : TaskContext} {k v : String}
    (h : ctxEnvSet ctx k v = .ok ctx1) : ctx1.Descriptor = ctx.Descriptor := by
  unfold ctxEnvSet at h
  cases hE : ctx.Env with
  | none => simp [hE] at h
  | some env =>
    simp only [hE, Except.ok.injEq] at h
    subst h
    rfl

theorem stateEnvSet_descriptor {ctx ctx1 : TaskContext} {k v : String}
    (h : stateEnvSet ctx k v = .ok ctx1) : ctx1.Descriptor = ctx.Descriptor := by
  unfold stateEnvSet at h
  cases hS : ctx.State with
  | none => simp [hS] at h
  | some st =>
    cases hF : st.EnvShared with
    | true =>
      simp only [hS, hF, if_true] at h
      exact ctxEnvSet_descriptor h
    | false =>
      cases hE : st.Env with
      | none => simp [hS, hF, hE] at h
      | some env =>
        simp only [hS, hF, hE, Bool.false_eq_true, if_false, Except.ok.injEq] at h
        subst h
        rfl

theorem initState_descriptor (t : Task) (ctx : TaskContext) :
    (initState t ctx).Descriptor = ctx.Descriptor := by
  unfold initState
  cases ctx.State <;> rfl

theorem mergeEnvLoop_descriptor :
    ∀ (l : List (String × String)) (ctx ctx1 : TaskContext),
      mergeEnvLoop l ctx = .ok ctx1 → ctx1.Descriptor = ctx.Descriptor
  | [], ctx, ctx1, h => by
    simp only [mergeEnvLoop, Except.ok.injEq] at h
    rw [h]
  | (k, v) :: rest, ctx, ctx1, h => by
    rw [mergeEnvLoop] at h
    cases hS : stateEnvSet ctx k v with
    | error f => simp [hS] at h
    | ok c =>
      simp only [hS] at h
      rw [mergeEnvLoop_descriptor rest c ctx1 h, stateEnvSet_descriptor hS]

theorem envStep_descriptor {σ : Type} (pf : FloatParser) (ev : Evaluator σ EvalData)
    (outputs vars : List (String × Value)) (key : String) (value : Expression)
    (ctx : TaskContext) (es : σ) :
    (envStep pf ev outputs vars key value ctx es).ctx.Descriptor = ctx.Descriptor := by
  unfold envStep
  dsimp only
  split
  · rfl
  · split
    · rfl
    · split
      · rfl
      · rename_i ctx1 h1
        split
        · exact ctxEnvSet_descriptor h1
        · rename_i ctx2 h2
          exact (stateEnvSet_descriptor h2).trans (ctxEnvSet_descriptor h1)

theorem envLoop_descriptor {σ : Type} (pf : FloatParser) (ev : Evaluator σ EvalData)
    (outputs vars : List (String × Value)) :
    ∀ (entries : List (String × Expression)) (ctx : TaskContext) (es : σ),
      (envLoop pf ev outputs vars entries ctx es).ctx.Descriptor = ctx.Descriptor
  | [], ctx, es => by simp [envLoop]
  | (key, value) :: rest, ctx, es => by
    have hstep := envStep_descriptor pf ev outputs vars key value ctx es
    rw [envLoop]
    rcases hs : envStep pf ev outputs vars key value ctx es with ⟨oc, c1, s1⟩
    rw [hs] at hstep
    cases oc with
    | error f => exact hstep
    | ok u =>
      cases u
      simp only
      rw [envLoop_descriptor pf ev outputs vars rest c1 s1]
      exact hstep

/-- A call of `Task.Eval` that returns no error went through the block of the
`With` entries, with the descriptor of the context, and its tail left the
Inputs as that block made them. -/
theorem Task.Eval_ok_inv {σ : Type} (pf : FloatParser) (underscore : String → String)
    (ev : Evaluator σ EvalData) (t : Task) (ctx : TaskContext) (es : σ)
    (hok : (t.Eval pf underscore ev ctx es).outcome = .ok ()) :
    ∃ ctx1 es1 outputs vars, ctx1.Descriptor = ctx.Descriptor ∧
      (withPhase pf underscore ev outputs vars t ctx1 es1).outcome = .ok () ∧
      inputsOf (t.Eval pf underscore ev ctx es).ctx =
        inputsOf (withPhase pf underscore ev outputs vars t ctx1 es1).ctx := by
  unfold Task.Eval at hok ⊢
  dsimp only at hok ⊢
  cases hM : mergeEnvLoop ((initState t ctx).Env.getD []) (initState t ctx) with
  | error f => simp [hM] at hok
  | ok c0 =>
    have hd0 : c0.Descriptor = ctx.Descriptor :=
      (mergeEnvLoop_descriptor _ _ _ hM).trans (initState_descriptor t ctx)
    simp only [hM] at hok ⊢
    cases hO : mapOutputs c0.Outputs with
    | error f => simp [hO] at hok
    | ok outputs =>
      simp only [hO] at hok ⊢
      cases hV : mapOutputs c0.Vars with
      | error f => simp [hV] at hok
      | ok vars =>
        simp only [hV] at hok ⊢
        have hd1 := envLoop_descriptor pf ev outputs vars t.Env c0 es
        rcases hE : envLoop pf ev outputs vars t.Env c0 es with ⟨oc1, c1, s1⟩
        rw [hE] at hok hd1
        cases oc1 with
        | error f => simp at hok
        | ok u1 =>
          cases u1
          simp only at hok hd1 ⊢
          refine ⟨c1, s1, outputs, vars, hd1.trans hd0, ?_, ?_⟩
          · rcases hW : withPhase pf underscore ev outputs vars t c1 s1 with ⟨oc2, c2, s2⟩
            rw [hW] at hok
            cases oc2 with
            | error f => simp at hok
            | ok u2 => cases u2; rfl
          · rcases hW : withPhase pf underscore ev outputs vars t c1 s1 with ⟨oc2, c2, s2⟩
            rw [hW] at hok
            cases oc2 with
            | error f => simp at hok
            | ok u2 =>
              cases u2
              simp only
              exact fieldsPhase_inputs pf ev outputs vars t c2 s2


/-! ## What Task.Eval leaves in the task -/

theorem fieldsPhase_task_maps {σ : Type} (pf : FloatParser) (ev : Evaluator σ EvalData)
    (outputs vars : List (String × Value)) (t : Task) (ctx : TaskContext) (es : σ) :
    (fieldsPhase pf ev outputs vars t ctx es).task.Env = t.Env ∧
      (fieldsPhase pf ev outputs vars t ctx es).task.With = t.With := by
  unfold fieldsPhase
  dsimp only
  repeat' split
  all_goals exact ⟨rfl, rfl⟩

theorem Task.Eval_task_maps {σ : Type} (pf : FloatParser) (underscore : String → String)
    (ev : Evaluator σ EvalData) (t : Task) (ctx : TaskContext) (es : σ) :
    (t.Eval pf underscore ev ctx es).task.Env = t.Env ∧
      (t.Eval pf underscore ev ctx es).task.With = t.With := by
  unfold Task.Eval
  dsimp only
  repeat' split
  all_goals first
    | exact ⟨rfl, rfl⟩
    | exact fieldsPhase_task_maps _ _ _ _ _ _ _

/-! ## Cycle detection without assumptions on the map -/

theorem StackStored.short {m : TaskMap} {st : List Task} (h : StackStored m st) :
    st.length ≤ m.entries.length := by
  have hnd : st.Nodup := List.Nodup.of_map _ h.1
  have hsub : st ⊆ m.entries.filterMap Prod.snd := by
    intro u hu
    obtain ⟨k, hk⟩ := h.2 u hu
    exact List.mem_filterMap.2 ⟨(k, some u), hk, rfl⟩
  have h1 := (List.subperm_of_subset hnd hsub).length_le
  exact h1.trans (List.length_filterMap_le _ _)

theorem StackStored.extend {m : TaskMap} {st : List Task} {task : Task}
    (h : StackStored m st) (ht : m.Registered task) (hnot : task.Id ∉ st.map Task.Id) :
    StackStored m (st ++ [task]) := by
  constructor
  · rw [List.map_append, List.nodup_append]
    refine ⟨h.1, by simp, ?_⟩
    intro a ha hb
    have : a = task.Id := by simpa using hb
    subst this
    exact hnot ha
  · intro u hu
    rcases List.mem_append.1 hu with h1 | h1
    · exact h.2 u h1
    · have : u = task := by simpa using h1
      subst this
      exact ht

/-- The loop of `findCycle` over the Needs returns when the recursive calls
return; a result `true` comes with the stack it was given. -/
theorem findCycleDeps_total (m : TaskMap)
    (recur : Task → List Task → Except Fault (Bool × List Task)) (s : List Task)
    (hs : StackStored m s)
    (hrec : ∀ c, m.Registered c → ∃ b st', recur c s = .ok (b, st') ∧
      (b = true → st' = s) ∧ StackStored m st') :
    ∀ ds : List String, ∃ b st', findCycleDeps recur m ds s = .ok (b, st') ∧
      (b = true → st' = s) ∧ StackStored m st'
  | [] => ⟨true, s, by simp [findCycleDeps], fun _ => rfl, hs⟩
  | dep :: deps => by
    have ih := findCycleDeps_total m recur s hs hrec deps
    rw [findCycleDeps]
    by_cases hH : m.Has dep = true
    · simp only [hH, Bool.not_true, Bool.false_eq_true, if_false]
      cases hg : m.Get dep with
      | none => exact ih
      | some child =>
        obtain ⟨b, st', hres, hb, hst⟩ := hrec child ⟨dep, TaskMap.mem_of_Get hg⟩
        cases b with
        | false => exact ⟨false, st', by simp [hres], by simp, hst⟩
        | true =>
          simp only [hres]
          rw [hb rfl]
          exact ih
    · simp only [hH, Bool.not_false, if_true]
      exact ih

/-- The function `findCycle` returns on every map when its recursion budget is
at least the number of entries not on the stack, plus one. -/
theorem findCycle_total (m : TaskMap) :
    ∀ (fuel : Nat) (task : Task) (st : List Task), m.Registered task →
      StackStored m st → m.entries.length + 1 ≤ fuel + st.length →
      ∃ b st', findCycle fuel task st m = .ok (b, st') ∧ (b = true → st' = st) ∧
        StackStored m st'
  | 0, task, st, _, hst, hf => by
    have := hst.short
    omega
  | fuel + 1, task, st, ht, hst, hf => by
    rw [findCycle]
    by_cases hidx : stackIndex st task.Id ≥ 0
    · simp only [hidx, if_true]
      exact ⟨false, st, rfl, by simp, hst⟩
    · simp only [hidx, if_false]
      have hnot : task.Id ∉ st.map Task.Id := fun h => hidx ((stackIndex_nonneg_iff _ _).2 h)
      have hpush : StackStored m (st ++ [task]) := hst.extend ht hnot
      have hrec : ∀ c, m.Registered c → ∃ b st', findCycle fuel c (st ++ [task]) m = .ok (b, st') ∧
          (b = true → st' = st ++ [task]) ∧ StackStored m st' := by
        intro c hc
        refine findCycle_total m fuel c (st ++ [task]) hc hpush ?_
        simp only [List.length_append, List.length_singleton]
        omega
      obtain ⟨b, st', hres, hb, hst'⟩ := findCycleDeps_total m
        (fun child st' => findCycle fuel child st' m) (st ++ [task]) hpush hrec task.Needs
      cases b with
      | false => exact ⟨false, st', by simp [hres], by simp, hst'⟩
      | true => exact ⟨true, st, by simp [hres], fun _ => rfl, hst⟩

/-- The loop of `FindCyclicalReferences` returns, or stops at a nil entry. -/
theorem findCyclicalLoop_total (m : TaskMap) (fuel : Nat)
    (hf : m.entries.length + 1 ≤ fuel) :
    ∀ (es : List (String × Option Task)) (cycles stack : List Task),
      (∀ kv ∈ es, kv ∈ m.entries) → StackStored m stack →
      (∃ cs, findCyclicalLoop fuel m es cycles stack = .ok cs) ∨
        (findCyclicalLoop fuel m es cycles stack = .error .nilDeref ∧ ∃ kv ∈ es, kv.2 = none)
  | [], cycles, stack, _, _ => Or.inl ⟨cycles, by simp [findCyclicalLoop]⟩
  | (k, none) :: rest, cycles, stack, _, _ =>
    Or.inr ⟨by simp [findCyclicalLoop], (k, none), List.mem_cons_self _ _, rfl⟩
  | (k, some task) :: rest, cycles, stack, hes, hst => by
    have hes' : ∀ kv ∈ rest, kv ∈ m.entries := fun kv hkv => hes kv (List.mem_cons_of_mem _ hkv)
    obtain ⟨b, st', hres, -, hst'⟩ := findCycle_total m fuel task stack
      ⟨k, hes _ (List.mem_cons_self _ _)⟩ hst (by omega)
    rw [findCyclicalLoop]
    cases b with
    | false =>
      simp only [hres]
      rcases findCyclicalLoop_total m fuel hf rest (cycles ++ [task]) st' hes' hst' with h | ⟨h, kv, hkv, hn⟩
      · exact Or.inl h
      · exact Or.inr ⟨h, kv, List.mem_cons_of_mem _ hkv, hn⟩
    | true =>
      simp only [hres]
      rcases findCyclicalLoop_total m fuel hf rest cycles st' hes' hst' with h | ⟨h, kv, hkv, hn⟩
      · exact Or.inl h
      · exact Or.inr ⟨h, kv, List.mem_cons_of_mem _ hkv, hn⟩

/-- The function `findCycle` on an empty stack returns false exactly for the
tasks from which a cycle can be reached. -/
theorem findCycle_fresh (m : TaskMap) (hO : m.OwnId) (fuel : Nat)
    (hf : m.entries.length + 1 ≤ fuel) (t : Task) (ht : m.Get t.Id = some t) :
    ∃ b st, findCycle fuel t [] m = .ok (b, st) ∧ (b = false ↔ m.ReachesCycle t.Id) := by
  have hinv : ∀ u ∈ ([] : List Task), m.ReachesCycle u.Id := by simp
  rcases findCycle_spec m hO fuel t [] ht ⟨by simp, by simp⟩ (by simpa using hf) with
    ⟨hnb, hres⟩ | ⟨hb, st', hres, -, -⟩
  · refine ⟨true, [], hres, ?_⟩
    simp only [Bool.true_eq_false, false_iff]
    exact fun h => hnb ((blocked_iff_reachesCycle hinv _).2 h)
  · refine ⟨false, [] ++ st', hres, ?_⟩
    simp only [true_iff]
    exact (blocked_iff_reachesCycle hinv _).1 hb

/-! ## The iteration order of the map -/

theorem lookup_perm {β : Type} {l1 l2 : List (String × β)} (hp : l1.Perm l2)
    (hn : (l2.map Prod.fst).Nodup) (k : String) : l1.lookup k = l2.lookup k := by
  cases h : l1.lookup k with
  | some v =>
    exact (lookup_of_mem k v l2 hn (hp.subset (lookup_mem k v l1 h))).symm
  | none =>
    symm
    rw [List.lookup_eq_none_iff] at h ⊢
    exact fun p hp2 => h p (hp.symm.subset hp2)

theorem TaskMap.Get_perm {m m' : TaskMap} (hp : m'.entries.Perm m.entries)
    (hU : m.UniqueKeys) (k : String) : m'.Get k = m.Get k := by
  rw [TaskMap.Get_eq, TaskMap.Get_eq, lookup_perm hp hU k]

theorem TaskMap.Edge_perm {m m' : TaskMap} (hp : m'.entries.Perm m.entries)
    (hU : m.UniqueKeys) : m'.Edge = m.Edge := by
  funext a b
  unfold TaskMap.Edge
  simp only [TaskMap.Get_perm hp hU]

theorem TaskMap.ReachesCycle_perm {m m' : TaskMap} (hp : m'.entries.Perm m.entries)
    (hU : m.UniqueKeys) (a : String) : m'.ReachesCycle a ↔ m.ReachesCycle a := by
  unfold TaskMap.ReachesCycle
  rw [TaskMap.Edge_perm hp hU]

theorem TaskMap.UniqueKeys_perm {m m' : TaskMap} (hp : m'.entries.Perm m.entries)
    (hU : m.UniqueKeys) : m'.UniqueKeys :=
  ((hp.map Prod.fst).nodup_iff).2 hU

theorem TaskMap.OwnId_perm {m m' : TaskMap} (hp : m'.entries.Perm m.entries)
    (hO : m.OwnId) : m'.OwnId :=
  fun kv hkv => hO kv (hp.subset hkv)

theorem TaskMap.Registered_perm {m m' : TaskMap} (hp : m'.entries.Perm m.entries)
    (t : Task) : m'.Registered t ↔ m.Registered t :=
  ⟨fun ⟨k, hk⟩ => ⟨k, hp.subset hk⟩, fun ⟨k, hk⟩ => ⟨k, hp.symm.subset hk⟩⟩

/-! ## The containers keep their invariant -/

theorem lookup_isSome_iff_mem {β : Type} (k : String) (l : List (String × β)) :
    (l.lookup k).isSome = true ↔ k ∈ l.map Prod.fst := by
  rw [List.lookup_isSome_iff]
  constructor
  · rintro ⟨p, hp, hk⟩
    have : k = p.1 := by simpa using hk
    exact List.mem_map.2 ⟨p, hp, this.symm⟩
  · intro h
    obtain ⟨p, hp, hk⟩ := List.mem_map.1 h
    exact ⟨p, hp, by simp [hk]⟩

theorem keys_goMapSet_of_mem {β : Type} (k : String) (v : β) :
    ∀ l : List (String × β), k ∈ l.map Prod.fst →
      (goMapSet k v l).map Prod.fst = l.map Prod.fst
  | [], h => by simp at h
  | (k', v') :: l, h => by
    rw [goMapSet]
    by_cases hk : k' = k
    · simp [hk]
    · simp only [hk, if_false, List.map_cons]
      have h2 : k ∈ l.map Prod.fst := by
        rcases List.mem_cons.1 h with h1 | h1
        · exact absurd h1.symm hk
        · exact h1
      rw [keys_goMapSet_of_mem k v l h2]

theorem goMapSet_of_not_mem {β : Type} (k : String) (v : β) :
    ∀ l : List (String × β), k ∉ l.map Prod.fst → goMapSet k v l = l ++ [(k, v)]
  | [], _ => rfl
  | (k', v') :: l, h => by
    rw [goMapSet]
    have hk : ¬ k' = k := fun e => h (by simp [e])
    have h2 : k ∉ l.map Prod.fst := fun e => h (List.mem_cons_of_mem _ e)
    simp only [hk, if_false, List.cons_append]
    rw [goMapSet_of_not_mem k v l h2]

theorem keys_goMapDelete {β : Type} (k : String) :
    ∀ l : List (String × β),
      (goMapDelete k l).map Prod.fst = (l.map Prod.fst).filter (fun a => a != k)
  | [] => rfl
  | (k', v') :: l => by
    have ih := keys_goMapDelete k l
    unfold goMapDelete at ih ⊢
    by_cases hk : k' = k
    · simp [List.filter_cons, hk, ih]
    · simp [List.filter_cons, hk, ih]

theorem goMapCopy_eq {β : Type} :
    ∀ l acc : List (String × β), ((acc ++ l).map Prod.fst).Nodup → goMapCopy l acc = acc ++ l
  | [], acc, _ => by simp [goMapCopy]
  | (k, v) :: l, acc, h => by
    rw [goMapCopy]
    have hk : k ∉ acc.map Prod.fst := by
      intro hmem
      rw [List.map_append, List.nodup_append] at h
      exact h.2.2 hmem (by simp)
    rw [goMapSet_of_not_mem k v acc hk]
    have h2 : (((acc ++ [(k, v)]) ++ l).map Prod.fst).Nodup := by
      simpa using h
    rw [goMapCopy_eq l (acc ++ [(k, v)]) h2]
    simp

theorem findIdx_erase (key : String) :
    ∀ (s : List String) (i : Nat),
      s.findIdx? (fun k => k == key) = some i → s.erase key = removeAt s i
  | [], i, h => by simp at h
  | a :: s, i, h => by
    rw [List.findIdx?_cons] at h
    by_cases ha : a = key
    · subst ha
      simp only [beq_self_eq_true, if_true, Option.some.injEq] at h
      subst h
      simp [removeAt]
    · have hb : (a == key) = false := by simpa using ha
      simp only [hb, Bool.false_eq_true, if_false] at h
      rw [List.findIdx?_succ, Option.map_eq_some'] at h
      obtain ⟨j, hj, hi⟩ := h
      subst hi
      rw [List.erase_cons_tail (by simpa using ha), findIdx_erase key s j hj]
      simp [removeAt]

theorem slicesIndex_cases (s : List String) (key : String) :
    (slicesIndex s key = -1 ∧ s.erase key = s) ∨
      (0 ≤ slicesIndex s key ∧ s.erase key = removeAt s (slicesIndex s key).toNat) := by
  unfold slicesIndex
  cases h : s.findIdx? (fun k => k == key) with
  | none =>
    left
    refine ⟨rfl, List.erase_of_not_mem ?_⟩
    rw [List.findIdx?_eq_none_iff] at h
    intro hmem
    simpa using h key hmem
  | some i =>
    right
    exact ⟨by simp, by simpa using findIdx_erase key s i h⟩

theorem removeAt_ge (s : List String) (key : String) :
    (if slicesIndex s key ≥ 0 then removeAt s (slicesIndex s key).toNat else s) =
      s.erase key := by
  rcases slicesIndex_cases s key with ⟨h1, h2⟩ | ⟨h1, h2⟩
  · rw [h1, h2]
    simp
  · rw [if_pos h1, h2]

theorem removeAt_ne (s : List String) (key : String) :
    (if slicesIndex s key ≠ -1 then removeAt s (slicesIndex s key).toNat else s) =
      s.erase key := by
  rcases slicesIndex_cases s key with ⟨h1, h2⟩ | ⟨h1, h2⟩
  · rw [h1, h2]
    simp
  · rw [if_pos (by omega), h2]

theorem PairInv.nil {β : Type} : PairInv ([] : List (String × β)) [] :=
  ⟨List.nodup_nil, List.nodup_nil, fun _ => Iff.rfl⟩

theorem PairInv.set {β : Type} {items : List (String × β)} {order : List String}
    (h : PairInv items order) (k : String) (v : β) :
    PairInv (goMapSet k v items)
      (if (items.lookup k).isSome = true then order else order ++ [k]) := by
  obtain ⟨h1, h2, h3⟩ := h
  by_cases hk : (items.lookup k).isSome = true
  · have hmem := (lookup_isSome_iff_mem k items).1 hk
    rw [if_pos hk]
    refine ⟨h1, ?_, ?_⟩
    · rw [keys_goMapSet_of_mem k v items hmem]; exact h2
    · intro a
      rw [keys_goMapSet_of_mem k v items hmem]; exact h3 a
  · have hmem : k ∉ items.map Prod.fst := fun e => hk ((lookup_isSome_iff_mem k items).2 e)
    have hord : k ∉ order := fun e => hmem ((h3 k).1 e)
    rw [if_neg hk, goMapSet_of_not_mem k v items hmem]
    refine ⟨?_, ?_, ?_⟩
    · rw [List.nodup_append]
      refine ⟨h1, by simp, ?_⟩
      intro a ha hb
      have : a = k := by simpa using hb
      subst this
      exact hord ha
    · rw [List.map_append, List.nodup_append]
      refine ⟨h2, by simp, ?_⟩
      intro a ha hb
      have : a = k := by simpa using hb
      subst this
      exact hmem ha
    · intro a
      simp only [List.mem_append, List.map_append, List.map_cons, List.map_nil,
        List.mem_singleton]
      rw [h3 a]

theorem PairInv.delete {β : Type} {items : List (String × β)} {order : List String}
    (h : PairInv items order) (k : String) :
    PairInv (goMapDelete k items) (order.erase k) := by
  obtain ⟨h1, h2, h3⟩ := h
  refine ⟨h1.erase k, ?_, ?_⟩
  · rw [keys_goMapDelete]
    exact h2.filter _
  · intro a
    rw [keys_goMapDelete, h1.mem_erase_iff, List.mem_filter, h3 a]
    simp [and_comm]

theorem PairInv.length_eq {β : Type} {items : List (String × β)} {order : List String}
    (h : PairInv items order) : order.length = items.length := by
  have hp : order.Perm (items.map Prod.fst) := (List.perm_ext_iff_of_nodup h.1 h.2.1).2 h.2.2
  simpa using hp.length_eq

theorem OrderedMap.step_pairInv {V : Type} (o : OrderedMap V) (op : OrderedMap.Op V)
    (h : PairInv o.entries o.order) : PairInv (o.step op).entries (o.step op).order := by
  obtain ⟨items, order⟩ := o
  cases op with
  | add key value =>
    cases items with
    | none =>
      have h2 := h.set key value
      simpa [OrderedMap.step, OrderedMap.Add, OrderedMap.entries] using h2
    | some l =>
      by_cases hk : (l.lookup key).isSome = true
      · simpa [OrderedMap.step, OrderedMap.Add, OrderedMap.entries, hk] using h
      · have h2 := h.set key value
        simp only [OrderedMap.entries, Option.getD_some, hk, if_false] at h2
        simpa [OrderedMap.step, OrderedMap.Add, OrderedMap.entries, hk] using h2
  | set key value =>
    have h2 := h.set key value
    cases items with
    | none => simpa [OrderedMap.step, OrderedMap.Set, OrderedMap.entries] using h2
    | some l => simpa [OrderedMap.step, OrderedMap.Set, OrderedMap.entries] using h2
  | delete key =>
    cases items with
    | none => simpa [OrderedMap.step, OrderedMap.Delete, OrderedMap.entries] using h
    | some l =>
      by_cases hk : (l.lookup key).isSome = true
      · have h2 := h.delete key
        simp only [OrderedMap.step, OrderedMap.Delete, hk, not_true_eq_false, if_false,
          OrderedMap.entries, Option.getD_some, removeAt_ne]
        exact h2
      · simp only [OrderedMap.step, OrderedMap.Delete, hk, not_false_eq_true, if_true]
        exact h
  | clear => exact PairInv.nil
  | copy =>
    simp only [OrderedMap.step, OrderedMap.Copy, OrderedMap.entries, Option.getD_some]
    rw [goMapCopy_eq _ [] (by simpa using h.2.1)]
    simpa [OrderedMap.entries] using h

theorem OrderedMap.run_pairInv {V : Type} (ops : List (OrderedMap.Op V)) :
    PairInv (OrderedMap.run ops).entries (OrderedMap.run ops).order := by
  unfold OrderedMap.run
  induction ops using List.reverseRecOn with
  | nil => exact PairInv.nil
  | append_singleton ops op ih =>
    rw [List.foldl_append]
    exact OrderedMap.step_pairInv _ op ih

theorem TaskMap.step_keeps (o : TaskMap) (op : TaskMap.Op)
    (h : PairInv o.entries o.order) : PairInv (o.step op).entries (o.step op).order := by
  obtain ⟨items, order⟩ := o
  cases op with
  | add key value =>
    cases items with
    | none =>
      have h2 := h.set key value
      simpa [TaskMap.step, TaskMap.Add, TaskMap.entries] using h2
    | some l =>
      by_cases hk : (l.lookup key).isSome = true
      · simpa [TaskMap.step, TaskMap.Add, TaskMap.entries, hk] using h
      · have h2 := h.set key value
        simp only [TaskMap.entries, Option.getD_some, hk, if_false] at h2
        simpa [TaskMap.step, TaskMap.Add, TaskMap.entries, hk] using h2
  | set key value =>
    have h2 := h.set key (some value)
    cases items with
    | none => simpa [TaskMap.step, TaskMap.Set, TaskMap.entries] using h2
    | some l => simpa [TaskMap.step, TaskMap.Set, TaskMap.entries] using h2
  | delete key =>
    cases items with
    | none => simpa [TaskMap.step, TaskMap.Delete, TaskMap.entries] using h
    | some l =>
      have h2 := h.delete key
      simp only [TaskMap.step, TaskMap.Delete, TaskMap.entries, Option.getD_some, removeAt_ge]
      exact h2
  | clear => exact PairInv.nil
  | copy =>
    simp only [TaskMap.step, TaskMap.Copy, TaskMap.entries, Option.getD_some]
    rw [goMapCopy_eq _ [] (by simpa using h.2.1)]
    simpa [TaskMap.entries] using h

theorem TaskMap.run_keeps (ops : List TaskMap.Op) :
    PairInv (TaskMap.run ops).entries (TaskMap.run ops).order := by
  unfold TaskMap.run
  induction ops using List.reverseRecOn with
  | nil => exact PairInv.nil
  | append_singleton ops op ih =>
    rw [List.foldl_append]
    exact TaskMap.step_keeps _ op ih

theorem TaskMap.Inv_of_pairInv {m : TaskMap} (h : PairInv m.entries m.order) :
    m.Inv ∧ m.UniqueKeys := by
  refine ⟨⟨h.1, ?_, ?_⟩, h.2.1⟩
  · intro k hk
    rw [TaskMap.Has_eq]
    exact (lookup_isSome_iff_mem k _).2 ((h.2.2 k).1 hk)
  · intro kv hkv
    exact (h.2.2 kv.1).2 (List.mem_map.2 ⟨kv, hkv, rfl⟩)

/-- A position below the length of the order sequence holds a key of the lookup
table. -/
theorem PairInv.lookup_at {β : Type} {items : List (String × β)} {order : List String}
    (h : PairInv items order) (i : Nat) (hi : i < order.length) :
    ∃ value, items.lookup (order.getD i "") = some value ∧ order[i]? = some (order.getD i "") := by
  have hget : order[i]? = some (order.getD i "") := by
    rw [List.getD_eq_getElem?_getD, List.getElem?_eq_getElem hi]
    rfl
  have hmem : order.getD i "" ∈ order := List.getElem?_mem hget
  have hs := (lookup_isSome_iff_mem _ items).2 ((h.2.2 _).1 hmem)
  obtain ⟨value, hv⟩ := Option.isSome_iff_exists.1 hs
  exact ⟨value, hv, hget⟩

theorem mem_goMapSet {β : Type} (k : String) (v : β) (p : String × β) :
    ∀ l : List (String × β), p ∈ goMapSet k v l → p ∈ l ∨ p = (k, v)
  | [], h => by
    right
    simpa [goMapSet] using h
  | (k', v') :: l, h => by
    rw [goMapSet] at h
    by_cases hk : k' = k
    · simp only [hk, if_true, List.mem_cons] at h
      rcases h with h | h
      · exact Or.inr h
      · exact Or.inl (List.mem_cons_of_mem _ h)
    · simp only [hk, if_false, List.mem_cons] at h
      rcases h with h | h
      · exact Or.inl (by simp [h])
      · rcases mem_goMapSet k v p l h with h1 | h1
        · exact Or.inl (List.mem_cons_of_mem _ h1)
        · exact Or.inr h1

/-- A call other than `Add` with a nil pointer stores no nil pointer. -/
theorem TaskMap.step_noNil (o : TaskMap) (op : TaskMap.Op) (h : PairInv o.entries o.order)
    (hn : o.NoNil) (hop : ∀ key, op ≠ .add key none) : (o.step op).NoNil := by
  obtain ⟨items, order⟩ := o
  unfold TaskMap.NoNil at hn ⊢
  cases op with
  | add key value =>
    have hv : value ≠ none := fun e => hop key (by rw [e])
    have hset : ∀ l : List (String × Option Task), (∀ kv ∈ l, kv.2 ≠ none) →
        ∀ kv ∈ goMapSet key value l, kv.2 ≠ none := by
      intro l hl kv hkv
      rcases mem_goMapSet key value kv l hkv with h1 | h1
      · exact hl kv h1
      · rw [h1]; exact hv
    cases items with
    | none =>
      simp only [TaskMap.step, TaskMap.Add, TaskMap.entries, List.lookup_nil, Option.isSome_none,
        Bool.false_eq_true, if_false, Option.getD_some]
      exact hset [] (by simp)
    | some l =>
      by_cases hk : (l.lookup key).isSome = true
      · simpa [TaskMap.step, TaskMap.Add, TaskMap.entries, hk] using hn
      · simp only [TaskMap.step, TaskMap.Add, TaskMap.entries, hk, if_false, Option.getD_some]
        exact hset l (by simpa [TaskMap.entries] using hn)
  | set key value =>
    have hset : ∀ l : List (String × Option Task), (∀ kv ∈ l, kv.2 ≠ none) →
        ∀ kv ∈ goMapSet key (some value) l, kv.2 ≠ none := by
      intro l hl kv hkv
      rcases mem_goMapSet key (some value) kv l hkv with h1 | h1
      · exact hl kv h1
      · rw [h1]; simp
    cases items with
    | none =>
      simp only [TaskMap.step, TaskMap.Set, TaskMap.entries, Option.getD_some]
      exact hset [] (by simp)
    | some l =>
      simp only [TaskMap.step, TaskMap.Set, TaskMap.entries, Option.getD_some]
      exact hset l (by simpa [TaskMap.entries] using hn)
  | delete key =>
    cases items with
    | none => simp [TaskMap.step, TaskMap.Delete, TaskMap.entries]
    | some l =>
      simp only [TaskMap.step, TaskMap.Delete, TaskMap.entries, Option.getD_some]
      intro kv hkv
      exact hn kv (by simpa [TaskMap.entries] using (List.mem_filter.1 hkv).1)
  | clear =>
    simp [TaskMap.step, TaskMap.Clear, TaskMap.entries]
  | copy =>
    simp only [TaskMap.step, TaskMap.Copy, TaskMap.entries, Option.getD_some]
    rw [goMapCopy_eq _ [] (by simpa using h.2.1)]
    simpa [TaskMap.entries] using hn

theorem TaskMap.run_noNil (ops : List TaskMap.Op) (hops : ∀ key, TaskMap.Op.add key none ∉ ops) :
    (TaskMap.run ops).NoNil := by
  induction ops using List.reverseRecOn with
  | nil => simp [TaskMap.run, TaskMap.NoNil, TaskMap.entries]
  | append_singleton ops op ih =>
    have h1 : ∀ key, TaskMap.Op.add key none ∉ ops :=
      fun key hm => hops key (List.mem_append_left _ hm)
    have h2 : ∀ key, op ≠ .add key none := by
      intro key e
      exact hops key (by simp [e])
    have hr : TaskMap.run (ops ++ [op]) = (TaskMap.run ops).step op := by
      simp [TaskMap.run, List.foldl_append]
    rw [hr]
    exact TaskMap.step_noNil _ op (TaskMap.run_keeps ops) (ih h1) h2

theorem OrderedMap.At_in_range {V : Type} [Inhabited V] (o : OrderedMap V)
    (h : PairInv o.entries o.order) (i : Nat) (hi : i < o.Len) :
    ∃ key value, o.At (i : Int) = (key, value, true) ∧ o.order[i]? = some key ∧
      o.entries.lookup key = some value := by
  obtain ⟨value, hv, hget⟩ := h.lookup_at i hi
  refine ⟨o.order.getD i "", value, ?_, hget, hv⟩
  unfold OrderedMap.At
  unfold OrderedMap.Len at hi
  have hr : ¬ ((i : Int) < 0 ∨ (i : Int) ≥ (o.order.length : Int)) := by omega
  rw [if_neg hr]
  simp only [Int.toNat_ofNat, hv]

theorem TaskMap.At_lookup (o : TaskMap) (h : PairInv o.entries o.order) (i : Nat)
    (hi : i < o.Len) :
    ∃ key, o.order[i]? = some key ∧ o.Has key = true ∧
      (∀ t, o.Get key = some t → o.At (i : Int) = .ok (key, t, true)) ∧
      (o.Get key = none → o.At (i : Int) = .error .nilDeref) := by
  obtain ⟨value, hv, hget⟩ := h.lookup_at i hi
  unfold TaskMap.Len at hi
  have hr : ¬ ((i : Int) < 0 ∨ (i : Int) ≥ (o.order.length : Int)) := by omega
  refine ⟨o.order.getD i "", hget, ?_, ?_, ?_⟩
  · rw [TaskMap.Has_eq, hv]; rfl
  · intro t ht
    rw [TaskMap.Get_eq, hv] at ht
    have hvt : value = some t := by simpa using ht
    subst hvt
    unfold TaskMap.At
    rw [if_neg hr]
    simp only [Int.toNat_ofNat, hv]
  · intro ht
    rw [TaskMap.Get_eq, hv] at ht
    have hvt : value = none := by simpa using ht
    subst hvt
    unfold TaskMap.At
    rw [if_neg hr]
    simp only [Int.toNat_ofNat, hv]

/-! ## Task.Eval and the environment maps -/

theorem BuiltLiteral.evaluated {e : Expression} {value : String} (h : BuiltLiteral e value) :
    e.IsEvaluated = true ∧ e.Value = .str value := by
  rcases h with h | ⟨old, h⟩ | ⟨h, hm⟩
  · subst h; exact ⟨rfl, rfl⟩
  · subst h; exact ⟨rfl, rfl⟩
  · subst h
    unfold unmarshalEnvEntry
    simp [hm]

theorem liveEnv_congr {a b : TaskContext} (h : envsOf a = envsOf b) (k : String) :
    liveEnv a k = liveEnv b k := by
  unfold liveEnv; rw [h]

theorem stateEnv_congr {a b : TaskContext} (h : envsOf a = envsOf b) (k : String) :
    stateEnv a k = stateEnv b k := by
  unfold stateEnv; rw [h]

theorem envShared_congr {a b : TaskContext} (h : envsOf a = envsOf b) :
    envShared a = envShared b := by
  have := congrArg (fun p => p.2.2) h
  simpa [envsOf] using this

/-- When the state refers to the map of `ctx.Env`, it reads what `ctx.Env` reads. -/
theorem stateEnv_of_shared {ctx : TaskContext} (h : envShared ctx = true) (k : String) :
    stateEnv ctx k = liveEnv ctx k := by
  unfold envShared at h
  cases hS : ctx.State with
  | none => simp [hS] at h
  | some st =>
    simp only [hS] at h
    simp [stateEnv, liveEnv, envsOf, hS, h]

theorem ctxEnvSet_envs {ctx ctx1 : TaskContext} {k v : String}
    (h : ctxEnvSet ctx k v = .ok ctx1) :
    liveEnv ctx1 k = some v ∧
      (∀ k', k' ≠ k → liveEnv ctx1 k' = liveEnv ctx k' ∧ stateEnv ctx1 k' = stateEnv ctx k') ∧
      (envShared ctx = false → ∀ k', stateEnv ctx1 k' = stateEnv ctx k') ∧
      envShared ctx1 = envShared ctx := by
  unfold ctxEnvSet at h
  cases hE : ctx.Env with
  | none => simp [hE] at h
  | some env =>
    simp only [hE, Except.ok.injEq] at h
    subst h
    have hlive : ∀ k', k' ≠ k →
        liveEnv { ctx with Env := some (goMapSet k v env) } k' = liveEnv ctx k' := by
      intro k' hne
      simp [liveEnv, envsOf, hE, goMapSet_lookup_other k k' v hne]
    refine ⟨by simp [liveEnv, envsOf, goMapSet_lookup_self], ?_, ?_, rfl⟩
    · intro k' hne
      refine ⟨hlive k' hne, ?_⟩
      cases hS : ctx.State with
      | none => simp [stateEnv, envsOf, hS]
      | some st =>
        cases hF : st.EnvShared with
        | true => simp [stateEnv, envsOf, hS, hF, hE, goMapSet_lookup_other k k' v hne]
        | false => simp [stateEnv, envsOf, hS, hF]
    · intro hsh k'
      unfold envShared at hsh
      cases hS : ctx.State with
      | none => simp [stateEnv, envsOf, hS]
      | some st =>
        simp only [hS] at hsh
        simp [stateEnv, envsOf, hS, hsh]

theorem stateEnvSet_envs {ctx ctx1 : TaskContext} {k v : String}
    (h : stateEnvSet ctx k v = .ok ctx1) :
    stateEnv ctx1 k = some v ∧ (liveEnv ctx k = some v → liveEnv ctx1 k = some v) ∧
      (∀ k', k' ≠ k → liveEnv ctx1 k' = liveEnv ctx k' ∧ stateEnv ctx1 k' = stateEnv ctx k') ∧
      envShared ctx1 = envShared ctx := by
  unfold stateEnvSet at h
  cases hS : ctx.State with
  | none => simp [hS] at h
  | some st =>
    cases hF : st.EnvShared with
    | true =>
      simp only [hS, hF, if_true] at h
      obtain ⟨h1, h2, -, h4⟩ := ctxEnvSet_envs h
      have hsh : envShared ctx1 = true := by
        rw [h4]
        simp [envShared, hS, hF]
      exact ⟨by rw [stateEnv_of_shared hsh, h1], fun _ => h1, h2, h4⟩
    | false =>
      cases hE : st.Env with
      | none => simp [hS, hF, hE] at h
      | some env =>
        simp only [hS, hF, hE, Bool.false_eq_true, if_false, Except.ok.injEq] at h
        subst h
        refine ⟨by simp [stateEnv, envsOf, hF, goMapSet_lookup_self], fun hl => hl, ?_, ?_⟩
        · intro k' hne
          exact ⟨rfl, by simp [stateEnv, envsOf, hS, hF, hE, goMapSet_lookup_other k k' v hne]⟩
        · simp [envShared, hS, hF]

theorem stateInputsSet_envs {ctx ctx1 : TaskContext} {key : String} {x : Value}
    (h : stateInputsSet ctx key x = .ok ctx1) : envsOf ctx1 = envsOf ctx := by
  unfold stateInputsSet at h
  cases hS : ctx.State with
  | none => simp [hS] at h
  | some st =>
    cases hI : st.Inputs with
    | none => simp [hS, hI] at h
    | some inputs =>
      simp only [hS, hI, Except.ok.injEq] at h
      subst h
      simp [envsOf, envShared, hS]

theorem initState_shared (t : Task) (ctx : TaskContext) :
    envShared (initState t ctx) = envShared ctx := by
  unfold initState envShared
  cases hS : ctx.State with
  | none => rfl
  | some st => simp [hS]

theorem mergeEnvLoop_shared :
    ∀ (l : List (String × String)) (ctx ctx1 : TaskContext),
      mergeEnvLoop l ctx = .ok ctx1 → envShared ctx1 = envShared ctx
  | [], ctx, ctx1, h => by
    simp only [mergeEnvLoop, Except.ok.injEq] at h
    rw [h]
  | (k, v) :: rest, ctx, ctx1, h => by
    rw [mergeEnvLoop] at h
    cases hS : stateEnvSet ctx k v with
    | error f => simp [hS] at h
    | ok c =>
      simp only [hS] at h
      rw [mergeEnvLoop_shared rest c ctx1 h, (stateEnvSet_envs hS).2.2.2]

/-- An evaluated entry of `t.Env` goes through the body of the loop without a call
of the Evaluator. -/
theorem envStep_evaluated_es {σ : Type} (pf : FloatParser) (ev : Evaluator σ EvalData)
    (outputs vars : List (String × Value)) (key : String) (e : Expression)
    (ctx : TaskContext) (es : σ) (he : e.IsEvaluated = true) :
    (envStep pf ev outputs vars key e ctx es).es = es := by
  unfold envStep resolve
  simp only [he, Bool.not_true, Bool.false_eq_true, if_false]
  repeat' split
  all_goals rfl

theorem envStep_target {σ : Type} (pf : FloatParser) (ev : Evaluator σ EvalData)
    (outputs vars : List (String × Value)) (key : String) (e : Expression)
    (ctx : TaskContext) (es : σ) (s : String) (he : e.IsEvaluated = true)
    (hv : e.Value = .str s)
    (hok : (envStep pf ev outputs vars key e ctx es).outcome = .ok ()) :
    liveEnv (envStep pf ev outputs vars key e ctx es).ctx key = some s ∧
      stateEnv (envStep pf ev outputs vars key e ctx es).ctx key = some s := by
  unfold envStep resolve at hok ⊢
  simp only [he, Bool.not_true, Bool.false_eq_true, if_false, hv, Value.assertString]
    at hok ⊢
  cases hC : ctxEnvSet ctx key s with
  | error f => simp [hC] at hok
  | ok ctx1 =>
    simp only [hC] at hok ⊢
    cases hS : stateEnvSet ctx1 key s with
    | error f => simp [hS] at hok
    | ok ctx2 =>
      simp only [hS]
      have h1 := ctxEnvSet_envs hC
      have h2 := stateEnvSet_envs hS
      exact ⟨h2.2.1 h1.1, h2.1⟩

theorem envStep_other {σ : Type} (pf : FloatParser) (ev : Evaluator σ EvalData)
    (outputs vars : List (String × Value)) (key k0 : String) (e : Expression)
    (ctx : TaskContext) (es : σ) :
    (k0 ≠ key →
        liveEnv (envStep pf ev outputs vars key e ctx es).ctx k0 = liveEnv ctx k0 ∧
          stateEnv (envStep pf ev outputs vars key e ctx es).ctx k0 = stateEnv ctx k0) ∧
      envShared (envStep pf ev outputs vars key e ctx es).ctx = envShared ctx := by
  unfold envStep
  dsimp only
  split
  · exact ⟨fun _ => ⟨rfl, rfl⟩, rfl⟩
  · split
    · exact ⟨fun _ => ⟨rfl, rfl⟩, rfl⟩
    · split
      · exact ⟨fun _ => ⟨rfl, rfl⟩, rfl⟩
      · rename_i ctx1 hC
        have h1 := ctxEnvSet_envs hC
        split
        · exact ⟨fun hne => h1.2.1 k0 hne, h1.2.2.2⟩
        · rename_i ctx2 hS
          have h2 := stateEnvSet_envs hS
          exact ⟨fun hne => ⟨(h2.2.2.1 k0 hne).1.trans (h1.2.1 k0 hne).1,
            (h2.2.2.1 k0 hne).2.trans (h1.2.1 k0 hne).2⟩, h2.2.2.2.trans h1.2.2.2⟩

theorem envLoop_other {σ : Type} (pf : FloatParser) (ev : Evaluator σ EvalData)
    (outputs vars : List (String × Value)) (k0 : String) :
    ∀ (entries : List (String × Expression)) (ctx : TaskContext) (es : σ),
      (k0 ∉ entries.map Prod.fst →
        liveEnv (envLoop pf ev outputs vars entries ctx es).ctx k0 = liveEnv ctx k0 ∧
          stateEnv (envLoop pf ev outputs vars entries ctx es).ctx k0 = stateEnv ctx k0) ∧
      envShared (envLoop pf ev outputs vars entries ctx es).ctx = envShared ctx
  | [], ctx, es => by simp [envLoop]
  | (key, value) :: rest, ctx, es => by
    have hstep := envStep_other pf ev outputs vars key k0 value ctx es
    rw [envLoop]
    rcases hs : envStep pf ev outputs vars key value ctx es with ⟨oc, c1, s1⟩
    rw [hs] at hstep
    cases oc with
    | error f =>
      exact ⟨fun h => hstep.1 (fun hk => h (by simp [hk])), hstep.2⟩
    | ok u =>
      cases u
      simp only at hstep ⊢
      have ih := envLoop_other pf ev outputs vars k0 rest c1 s1
      refine ⟨fun h => ?_, ih.2.trans hstep.2⟩
      have hne : k0 ≠ key := fun hk => h (by simp [hk])
      have hrest : k0 ∉ rest.map Prod.fst := fun hk => h (by simp [hk])
      exact ⟨(ih.1 hrest).1.trans (hstep.1 hne).1, (ih.1 hrest).2.trans (hstep.1 hne).2⟩

theorem envLoop_target {σ : Type} (pf : FloatParser) (ev : Evaluator σ EvalData)
    (outputs vars : List (String × Value)) (key : String) (e : Expression) (s : String)
    (he : e.IsEvaluated = true) (hv : e.Value = .str s) :
    ∀ (entries : List (String × Expression)) (ctx : TaskContext) (es : σ),
      (entries.map Prod.fst).Nodup → (key, e) ∈ entries →
      (envLoop pf ev outputs vars entries ctx es).outcome = .ok () →
      liveEnv (envLoop pf ev outputs vars entries ctx es).ctx key = some s ∧
        stateEnv (envLoop pf ev outputs vars entries ctx es).ctx key = some s
  | [], _, _, _, hmem, _ => by simp at hmem
  | (k0, e0) :: rest, ctx, es, hnd, hmem, hok => by
    rw [List.map_cons, List.nodup_cons] at hnd
    rw [envLoop] at hok ⊢
    rcases hs : envStep pf ev outputs vars k0 e0 ctx es with ⟨oc, c1, s1⟩
    rw [hs] at hok
    cases oc with
    | error f => simp at hok
    | ok u =>
      cases u
      simp only at hok ⊢
      rcases List.mem_cons.1 hmem with h | h
      · cases h
        have hstep := envStep_target pf ev outputs vars key e ctx es s he hv (by rw [hs])
        rw [hs] at hstep
        have hkeep := (envLoop_other pf ev outputs vars key rest c1 s1).1 hnd.1
        exact ⟨hkeep.1.trans hstep.1, hkeep.2.trans hstep.2⟩
      · exact envLoop_target pf ev outputs vars key e s he hv rest c1 s1 hnd.2 h hok

theorem withStep_envs {σ : Type} (pf : FloatParser) (underscore : String → String)
    (ev : Evaluator σ EvalData) (outputs vars : List (String × Value)) (t : Task)
    (d : TaskDescriptor) (key k0 : String) (value : Expression) (ctx : TaskContext) (es : σ) :
    (k0 ≠ "INPUT_" ++ underscore key →
        liveEnv (withStep pf underscore ev outputs vars t d key value ctx es).ctx k0 =
            liveEnv ctx k0 ∧
          stateEnv (withStep pf underscore ev outputs vars t d key value ctx es).ctx k0 =
            stateEnv ctx k0) ∧
      (envShared ctx = false →
        stateEnv (withStep pf underscore ev outputs vars t d key value ctx es).ctx k0 =
          stateEnv ctx k0) ∧
      envShared (withStep pf underscore ev outputs vars t d key value ctx es).ctx =
        envShared ctx := by
  unfold withStep
  split
  · exact ⟨fun _ => ⟨rfl, rfl⟩, fun _ => rfl, rfl⟩
  · dsimp only
    split
    · exact ⟨fun _ => ⟨rfl, rfl⟩, fun _ => rfl, rfl⟩
    · split
      · exact ⟨fun _ => ⟨rfl, rfl⟩, fun _ => rfl, rfl⟩
      · split
        · exact ⟨fun _ => ⟨rfl, rfl⟩, fun _ => rfl, rfl⟩
        · split
          · exact ⟨fun _ => ⟨rfl, rfl⟩, fun _ => rfl, rfl⟩
          · rename_i ctx1 hC
            have h1 := ctxEnvSet_envs hC
            have hone : (k0 ≠ "INPUT_" ++ underscore key →
                liveEnv ctx1 k0 = liveEnv ctx k0 ∧ stateEnv ctx1 k0 = stateEnv ctx k0) ∧
                (envShared ctx = false → stateEnv ctx1 k0 = stateEnv ctx k0) ∧
                envShared ctx1 = envShared ctx :=
              ⟨fun hne => h1.2.1 k0 hne, fun hsh => h1.2.2.1 hsh k0, h1.2.2.2⟩
            split
            · exact hone
            · exact hone
            · split
              · exact hone
              · rename_i ctx2 hS
                have h2 := stateInputsSet_envs hS
                rw [liveEnv_congr h2 k0, stateEnv_congr h2 k0, envShared_congr h2]
                exact hone

/-- A `With` entry that resolves to `w` leaves `w` in `ctx.Env` under the name of
its export when the body of the loop goes through. -/
theorem withStep_hit {σ : Type} (pf : FloatParser) (underscore : String → String)
    (ev : Evaluator σ EvalData) (outputs vars : List (String × Value)) (t : Task)
    (d : TaskDescriptor) (key : String) (value : Expression) (ctx : TaskContext) (es : σ)
    (w : String) (hres : ResolvesTo ev value w)
    (hok : (withStep pf underscore ev outputs vars t d key value ctx es).outcome = .ok ()) :
    liveEnv (withStep pf underscore ev outputs vars t d key value ctx es).ctx
      ("INPUT_" ++ underscore key) = some w := by
  have h1 := (resolve_of_resolvesTo hres pf (mkData ctx outputs vars) es).1
  have h2 := (resolve_of_resolvesTo hres pf (mkData ctx outputs vars) es).2
  unfold withStep at hok ⊢
  cases hl : d.Inputs.lookup key with
  | none => simp [hl] at hok
  | some inp =>
    simp only [hl, h1, h2, Value.assertString] at hok ⊢
    by_cases hreq : inp.IsRequired = true ∧ w = ""
    · simp [hreq] at hok
    · simp only [hreq, if_false] at hok ⊢
      cases hE : ctxEnvSet ctx ("INPUT_" ++ underscore key) w with
      | error f => simp [hE] at hok
      | ok ctx1 =>
        have hlive := (ctxEnvSet_envs hE).1
        simp only [hE] at hok ⊢
        cases hco : coerceInput pf t key inp w with
        | error e => simp [hco] at hok
        | ok ox =>
          cases ox with
          | none =>
            simp only [hco]
            exact hlive
          | some x =>
            simp only [hco] at hok ⊢
            cases hS : stateInputsSet ctx1 key x with
            | error f => simp [hS] at hok
            | ok ctx2 =>
              simp only [hS]
              rw [liveEnv_congr (stateInputsSet_envs hS)]
              exact hlive

theorem withLoop_envs {σ : Type} (pf : FloatParser) (underscore : String → String)
    (ev : Evaluator σ EvalData) (outputs vars : List (String × Value)) (t : Task)
    (d : TaskDescriptor) (k0 : String) :
    ∀ (entries : List (String × Expression)) (ctx : TaskContext) (es : σ),
      ((∀ kv ∈ entries, k0 ≠ "INPUT_" ++ underscore kv.1) →
          liveEnv (withLoop pf underscore ev outputs vars t d entries ctx es).ctx k0 =
              liveEnv ctx k0 ∧
            stateEnv (withLoop pf underscore ev outputs vars t d entries ctx es).ctx k0 =
              stateEnv ctx k0) ∧
        (envShared ctx = false →
          stateEnv (withLoop pf underscore ev outputs vars t d entries ctx es).ctx k0 =
            stateEnv ctx k0) ∧
        envShared (withLoop pf underscore ev outputs vars t d entries ctx es).ctx =
          envShared ctx
  | [], ctx, es => by simp [withLoop]
  | (key, value) :: rest, ctx, es => by
    have hstep := withStep_envs pf underscore ev outputs vars t d key k0 value ctx es
    rw [withLoop]
    rcases hs : withStep pf underscore ev outputs vars t d key value ctx es with ⟨oc, c1, s1⟩
    rw [hs] at hstep
    cases oc with
    | error f =>
      exact ⟨fun h => hstep.1 (h (key, value) (List.mem_cons_self _ _)), hstep.2.1, hstep.2.2⟩
    | ok u =>
      cases u
      simp only at hstep ⊢
      have ih := withLoop_envs pf underscore ev outputs vars t d k0 rest c1 s1
      refine ⟨fun h => ?_, fun hsh => ?_, ih.2.2.trans hstep.2.2⟩
      · have hr := ih.1 fun kv hkv => h kv (List.mem_cons_of_mem _ hkv)
        have hh := hstep.1 (h (key, value) (List.mem_cons_self _ _))
        exact ⟨hr.1.trans hh.1, hr.2.trans hh.2⟩
      · exact (ih.2.1 (hstep.2.2.trans hsh)).trans (hstep.2.1 hsh)

/-- When entries of `t.With` are exported under the name `k0` and all of them
resolve to `w`, a loop that goes through leaves `w` in `ctx.Env` under `k0`. -/
theorem withLoop_hit {σ : Type} (pf : FloatParser) (underscore : String → String)
    (ev : Evaluator σ EvalData) (outputs vars : List (String × Value)) (t : Task)
    (d : TaskDescriptor) (k0 w : String) :
    ∀ (entries : List (String × Expression)) (ctx : TaskContext) (es : σ),
      (∃ kv ∈ entries, k0 = "INPUT_" ++ underscore kv.1) →
      (∀ kv ∈ entries, k0 = "INPUT_" ++ underscore kv.1 → ResolvesTo ev kv.2 w) →
      (withLoop pf underscore ev outputs vars t d entries ctx es).outcome = .ok () →
      liveEnv (withLoop pf underscore ev outputs vars t d entries ctx es).ctx k0 = some w
  | [], _, _, hex, _, _ => by
    obtain ⟨kv, hkv, -⟩ := hex
    simp at hkv
  | (key, value) :: rest, ctx, es, hex, hall, hok => by
    rw [withLoop] at hok ⊢
    have hhit := withStep_hit pf underscore ev outputs vars t d key value ctx es w
    have hkeep := withStep_envs pf underscore ev outputs vars t d key k0 value ctx es
    rcases hs : withStep pf underscore ev outputs vars t d key value ctx es with ⟨oc, c1, s1⟩
    rw [hs] at hok hhit hkeep
    cases oc with
    | error f => simp at hok
    | ok u =>
      cases u
      simp only at hok hhit hkeep ⊢
      have hall' : ∀ kv ∈ rest, k0 = "INPUT_" ++ underscore kv.1 → ResolvesTo ev kv.2 w :=
        fun kv hkv => hall kv (List.mem_cons_of_mem _ hkv)
      by_cases hrest : ∃ kv ∈ rest, k0 = "INPUT_" ++ underscore kv.1
      · exact withLoop_hit pf underscore ev outputs vars t d k0 w rest c1 s1 hrest hall' hok
      · have hhead : k0 = "INPUT_" ++ underscore key := by
          obtain ⟨kv, hkv, hk⟩ := hex
          rcases List.mem_cons.1 hkv with h | h
          · rw [h] at hk; exact hk
          · exact absurd ⟨kv, h, hk⟩ hrest
        have hfree : ∀ kv ∈ rest, k0 ≠ "INPUT_" ++ underscore kv.1 :=
          fun kv hkv hk => hrest ⟨kv, hkv, hk⟩
        have h1 := ((withLoop_envs pf underscore ev outputs vars t d k0 rest c1 s1).1 hfree).1
        rw [h1, hhead]
        exact hhit (hall (key, value) (List.mem_cons_self _ _) hhead) trivial

theorem withPhase_envs {σ : Type} (pf : FloatParser) (underscore : String → String)
    (ev : Evaluator σ EvalData) (outputs vars : List (String × Value)) (t : Task)
    (k0 : String) (ctx : TaskContext) (es : σ) :
    ((∀ kv ∈ t.With, k0 ≠ "INPUT_" ++ underscore kv.1) →
        liveEnv (withPhase pf underscore ev outputs vars t ctx es).ctx k0 = liveEnv ctx k0 ∧
          stateEnv (withPhase pf underscore ev outputs vars t ctx es).ctx k0 =
            stateEnv ctx k0) ∧
      (envShared ctx = false →
        stateEnv (withPhase pf underscore ev outputs vars t ctx es).ctx k0 = stateEnv ctx k0) ∧
      envShared (withPhase pf underscore ev outputs vars t ctx es).ctx = envShared ctx := by
  unfold withPhase
  split
  · split
    · exact ⟨fun _ => ⟨rfl, rfl⟩, fun _ => rfl, rfl⟩
    · exact withLoop_envs pf underscore ev outputs vars t _ k0 t.With ctx es
  · exact ⟨fun _ => ⟨rfl, rfl⟩, fun _ => rfl, rfl⟩

theorem withPhase_hit {σ : Type} (pf : FloatParser) (underscore : String → String)
    (ev : Evaluator σ EvalData) (outputs vars : List (String × Value)) (t : Task)
    (k0 w : String) (ctx : TaskContext) (es : σ)
    (hex : ∃ kv ∈ t.With, k0 = "INPUT_" ++ underscore kv.1)
    (hall : ∀ kv ∈ t.With, k0 = "INPUT_" ++ underscore kv.1 → ResolvesTo ev kv.2 w)
    (hok : (withPhase pf underscore ev outputs vars t ctx es).outcome = .ok ()) :
    liveEnv (withPhase pf underscore ev outputs vars t ctx es).ctx k0 = some w := by
  unfold withPhase at hok ⊢
  have hlen : t.With.length > 0 := by
    obtain ⟨kv, hkv, -⟩ := hex
    exact List.length_pos_of_mem hkv
  simp only [hlen, if_true] at hok ⊢
  cases hd : ctx.Descriptor with
  | none => simp [hd] at hok
  | some d =>
    simp only [hd] at hok ⊢
    exact withLoop_hit pf underscore ev outputs vars t d k0 w t.With ctx es hex hall hok

theorem evalField_envs {σ : Type} (pf : FloatParser) (ev : Evaluator σ EvalData)
    (outputs vars : List (String × Value)) (field : Option Expression)
    (assign : Value → TaskState → Except Fault TaskState)
    (hassign : ∀ v st st', assign v st = .ok st' →
      st'.Env = st.Env ∧ st'.EnvShared = st.EnvShared)
    (ctx : TaskContext) (es : σ) :
    envsOf (evalField pf ev outputs vars field assign ctx es).ctx = envsOf ctx := by
  unfold evalField
  split
  · rfl
  · dsimp only
    split
    · rfl
    · split
      · rfl
      · rename_i st hst
        split
        · rfl
        · rename_i st' hst'
          simp [envsOf, envShared, hst, (hassign _ _ _ hst').1, (hassign _ _ _ hst').2]

theorem assignTimeout_env (v : Value) (st st' : TaskState)
    (h : assignTimeout v st = .ok st') : st'.Env = st.Env ∧ st'.EnvShared = st.EnvShared := by
  unfold assignTimeout at h
  cases hv : v.assertUint32 with
  | error f => simp [hv] at h
  | ok n =>
    simp only [hv, Except.ok.injEq] at h
    subst h
    exact ⟨rfl, rfl⟩

theorem assignBool_env (v : Value) (st st' : TaskState) :
    (assignForce v st = .ok st' → st'.Env = st.Env ∧ st'.EnvShared = st.EnvShared) ∧
      (assignIf v st = .ok st' → st'.Env = st.Env ∧ st'.EnvShared = st.EnvShared) := by
  unfold assignForce assignIf
  cases hv : v.assertBool with
  | error f => simp
  | ok b =>
    simp only [Except.ok.injEq]
    exact ⟨fun h => by subst h; exact ⟨rfl, rfl⟩, fun h => by subst h; exact ⟨rfl, rfl⟩⟩

theorem assignString_env (v : Value) (st st' : TaskState) :
    (assignCwd v st = .ok st' → st'.Env = st.Env ∧ st'.EnvShared = st.EnvShared) ∧
      (assignRunExpr v st = .ok st' → st'.Env = st.Env ∧ st'.EnvShared = st.EnvShared) := by
  unfold assignCwd assignRunExpr
  cases hv : v.assertString with
  | error f => simp
  | ok b =>
    simp only [Except.ok.injEq]
    exact ⟨fun h => by subst h; exact ⟨rfl, rfl⟩, fun h => by subst h; exact ⟨rfl, rfl⟩⟩

/-- The five optional fields leave the two environment maps alone. -/
theorem fieldsPhase_envs {σ : Type} (pf : FloatParser) (ev : Evaluator σ EvalData)
    (outputs vars : List (String × Value)) (t : Task) (ctx : TaskContext) (es : σ) :
    envsOf (fieldsPhase pf ev outputs vars t ctx es).ctx = envsOf ctx := by
  unfold fieldsPhase
  have e1 := evalField_envs pf ev outputs vars t.Timeout assignTimeout
    assignTimeout_env ctx es
  rcases h1 : evalField pf ev outputs vars t.Timeout assignTimeout ctx es with ⟨oc1, f1, c1, s1⟩
  rw [h1] at e1
  cases oc1 with
  | error f => exact e1
  | ok u1 =>
    cases u1
    simp only
    have e2 := evalField_envs pf ev outputs vars t.Force assignForce
      (fun v st st' => (assignBool_env v st st').1) c1 s1
    rcases h2 : evalField pf ev outputs vars t.Force assignForce c1 s1 with ⟨oc2, f2, c2, s2⟩
    rw [h2] at e2
    cases oc2 with
    | error f => exact e2.trans e1
    | ok u2 =>
      cases u2
      simp only
      have e3 := evalField_envs pf ev outputs vars t.Cwd assignCwd
        (fun v st st' => (assignString_env v st st').1) c2 s2
      rcases h3 : evalField pf ev outputs vars t.Cwd assignCwd c2 s2 with ⟨oc3, f3, c3, s3⟩
      rw [h3] at e3
      cases oc3 with
      | error f => exact e3.trans (e2.trans e1)
      | ok u3 =>
        cases u3
        simp only
        have e4 := evalField_envs pf ev outputs vars t.If assignIf
          (fun v st st' => (assignBool_env v st st').2) c3 s3
        rcases h4 : evalField pf ev outputs vars t.If assignIf c3 s3 with ⟨oc4, f4, c4, s4⟩
        rw [h4] at e4
        cases oc4 with
        | error f => exact e4.trans (e3.trans (e2.trans e1))
        | ok u4 =>
          cases u4
          simp only
          have e5 := evalField_envs pf ev outputs vars t.RunExpr assignRunExpr
            (fun v st st' => (assignString_env v st st').2) c4 s4
          rcases h5 : evalField pf ev outputs vars t.RunExpr assignRunExpr c4 s4 with
            ⟨oc5, f5, c5, s5⟩
          rw [h5] at e5
          cases oc5 with
          | error f => exact e5.trans (e4.trans (e3.trans (e2.trans e1)))
          | ok u5 =>
            cases u5
            exact e5.trans (e4.trans (e3.trans (e2.trans e1)))

/-- A successful `Task.Eval` went through the loop over `t.Env`, the block of
`t.With` and the optional fields. -/
theorem Task.Eval_ok_env_inv {σ : Type} (pf : FloatParser) (underscore : String → String)
    (ev : Evaluator σ EvalData) (t : Task) (ctx : TaskContext) (es : σ)
    (hok : (t.Eval pf underscore ev ctx es).outcome = .ok ()) :
    ∃ ctx0 outputs vars, envShared ctx0 = envShared ctx ∧
      (envLoop pf ev outputs vars t.Env ctx0 es).outcome = .ok () ∧
      (withPhase pf underscore ev outputs vars t
          (envLoop pf ev outputs vars t.Env ctx0 es).ctx
          (envLoop pf ev outputs vars t.Env ctx0 es).es).outcome = .ok () ∧
      envsOf (t.Eval pf underscore ev ctx es).ctx =
        envsOf (withPhase pf underscore ev outputs vars t
          (envLoop pf ev outputs vars t.Env ctx0 es).ctx
          (envLoop pf ev outputs vars t.Env ctx0 es).es).ctx := by
  unfold Task.Eval at hok ⊢
  dsimp only at hok ⊢
  cases hM : mergeEnvLoop ((initState t ctx).Env.getD []) (initState t ctx) with
  | error f => simp [hM] at hok
  | ok c0 =>
    simp only [hM] at hok ⊢
    cases hO : mapOutputs c0.Outputs with
    | error f => simp [hO] at hok
    | ok outputs =>
      simp only [hO] at hok ⊢
      cases hV : mapOutputs c0.Vars with
      | error f => simp [hV] at hok
      | ok vars =>
        simp only [hV] at hok ⊢
        refine ⟨c0, outputs, vars,
          (mergeEnvLoop_shared _ _ _ hM).trans (initState_shared t ctx), ?_⟩
        rcases hE : envLoop pf ev outputs vars t.Env c0 es with ⟨oc1, c1, s1⟩
        rw [hE] at hok
        cases oc1 with
        | error f => simp at hok
        | ok u1 =>
          cases u1
          simp only at hok ⊢
          refine ⟨trivial, ?_⟩
          rcases hW : withPhase pf underscore ev outputs vars t c1 s1 with ⟨oc2, c2, s2⟩
          rw [hW] at hok
          cases oc2 with
          | error f => simp at hok
          | ok u2 =>
            cases u2
            simp only
            exact ⟨trivial, fieldsPhase_envs pf ev outputs vars t c2 s2⟩

/-- The entry that `SetEnvEntry` leaves under the key is built for the value. -/
theorem Task.SetEnvEntry_built (t : Task) (key value : String) :
    ∃ e, (t.SetEnvEntry key value).Env.lookup key = some e ∧ BuiltLiteral e value := by
  unfold Task.SetEnvEntry
  cases h : t.Env.lookup key with
  | none => exact ⟨literalEntry value, goMapSet_lookup_self _ _ _, Or.inl rfl⟩
  | some old => exact ⟨overwriteEntry old value, goMapSet_lookup_self _ _ _, Or.inr (Or.inl ⟨old, rfl⟩)⟩

/-- Every entry that `SetEnv` stores is built for a value of its argument. -/
theorem Task.SetEnv_built (t : Task) (env : List (String × String)) (key : String)
    (e : Expression) (h : (key, e) ∈ (t.SetEnv env).Env) :
    ∃ value, (key, value) ∈ env ∧ BuiltLiteral e value := by
  have hgen : ∀ (l : List (String × String)) (acc : List (String × Expression)),
      (∀ p ∈ acc, ∃ value, (p.1, value) ∈ env ∧ p.2 = literalEntry value) →
      (∀ kv ∈ l, kv ∈ env) →
      ∀ p ∈ l.foldl (fun m kv => goMapSet kv.1 (literalEntry kv.2) m) acc,
        ∃ value, (p.1, value) ∈ env ∧ p.2 = literalEntry value := by
    intro l
    induction l with
    | nil => intro acc hacc _ p hp; exact hacc p hp
    | cons kv rest ih =>
      intro acc hacc hl p hp
      rw [List.foldl_cons] at hp
      refine ih _ ?_ (fun x hx => hl x (List.mem_cons_of_mem _ hx)) p hp
      intro q hq
      rcases mem_goMapSet kv.1 (literalEntry kv.2) q acc hq with h1 | h1
      · exact hacc q h1
      · rw [h1]
        exact ⟨kv.2, hl kv (List.mem_cons_self _ _), rfl⟩
  obtain ⟨value, hv, he⟩ := hgen env [] (by simp) (fun _ hx => hx) (key, e) h
  exact ⟨value, hv, Or.inl he⟩

/-! ## The claims -/

/-- C1 (the code departs from the claim): the diamond map is acyclic, each of
its tasks is registered under its own Id, and the target `top` is drawn from
it, yet for every sufficient recursion budget `Flatten` returns `base` at two
positions; flattening all tasks of the pipeline map likewise returns `build`
three times and `test` twice. -/
theorem Flatten_repeats_shared_dependency :
    diamondMap.Acyclic ∧ diamondMap.OwnId ∧ diamondMap.Inv ∧
      diamondMap.Get taskTop.Id = some taskTop ∧
      (∀ fuel, 3 ≤ fuel → diamondMap.Flatten fuel [taskTop] =
        .ok [taskBase, taskLeft, taskBase, taskRight, taskTop]) ∧
      ¬ ([taskBase, taskLeft, taskBase, taskRight, taskTop].map Task.Id).Nodup ∧
      (∀ fuel, 3 ≤ fuel → pipelineMap.Flatten fuel [] =
        .ok [taskBuild, taskBuild, taskTest, taskBuild, taskTest, taskDeploy]) :=
  ⟨TaskMap.acyclic_of_rank _ (fun k => if k = "base" then 0 else if k = "top" then 2 else 1)
      (by decide),
    by decide, by decide, by decide,
    fun _ hf => TaskMap.Flatten_mono _ hf _ _ (by decide),
    by decide,
    fun _ hf => TaskMap.Flatten_mono _ hf _ _ (by decide)⟩

/-- C2: on an acyclic map that satisfies the invariant of the container, in
which each task is registered under its own Id and all Needs are registered,
`Flatten` of targets drawn from the map returns no error (every sufficient
recursion budget gives the same sequence), every target
occurs in the sequence (every registered task when the target list is empty),
and every Id an element transitively needs occurs at a strictly earlier
position. -/
theorem Flatten_dependencies_first (m : TaskMap) (targets : List Task)
    (hI : m.Inv) (hO : m.OwnId) (hN : m.NeedsRegistered) (hA : m.Acyclic)
    (hT : ∀ t ∈ targets, m.Get t.Id = some t) :
    ∃ r N, (∀ fuel, N ≤ fuel → m.Flatten fuel targets = .ok r) ∧
      (∀ t ∈ targets, t ∈ r) ∧
      (targets = [] → ∀ k t, m.Get k = some t → t ∈ r) ∧
      ∀ (i : Nat) (h : i < r.length) (id : String),
        Relation.TransGen m.NeedsId (r[i]).Id id → id ∈ (r.take i).map Task.Id := by
  obtain ⟨r, N, hr, hdb, -, hin, hall⟩ := Flatten_fuel m hI hO hA targets hT
  refine ⟨r, N, hr, hin, hall, ?_⟩
  intro i h id hid
  have hE : Relation.TransGen m.Edge (r[i]).Id id :=
    Relation.TransGen.mono (fun a b hab => TaskMap.Edge_of_NeedsId hO hN hab) hid
  rcases DepsBefore.take m r [] hdb i h id hE with h1 | h1
  · simp at h1
  · exact h1

/-- C2, witness: the pipeline map with target `deploy`. -/
theorem Flatten_dependencies_first_witness :
    ∃ r N, (∀ fuel, N ≤ fuel → pipelineMap.Flatten fuel [taskDeploy] = .ok r) ∧
      (∀ t ∈ [taskDeploy], t ∈ r) ∧
      ([taskDeploy] = [] → ∀ k t, pipelineMap.Get k = some t → t ∈ r) ∧
      ∀ (i : Nat) (h : i < r.length) (id : String),
        Relation.TransGen pipelineMap.NeedsId (r[i]).Id id → id ∈ (r.take i).map Task.Id :=
  Flatten_dependencies_first pipelineMap [taskDeploy] (by decide) (by decide) (by decide)
    (TaskMap.acyclic_of_rank _ pipelineRank (by decide)) (by decide)

/-- C3 (contradicted by the code): `flatten` tests `tasks.Has(dep)` and goes on to
the next Id before it reaches the statement that builds the error `depends on
missing task`.  The target `lonely` lists the unregistered Id `ghost` and
`Flatten` returns `[lonely]` and no error; the target `host` needs `lonely`, and
`Flatten` returns `[lonely, host]` and no error.  On every acyclic map with the
invariant of the container and each task under its own Id, `Flatten` of targets
drawn from the map returns a sequence that holds every target, holds registered
tasks only and has every registered Id an element transitively needs at an
earlier position, whether or not some Needs are unregistered.  On every map the
only Go error `Flatten` returns names a task and an Id of its Needs that is
registered with a nil task. -/
theorem Flatten_ignores_unregistered_need :
    (lonelyMap.Get taskLonely.Id = some taskLonely ∧ "ghost" ∈ taskLonely.Needs ∧
      lonelyMap.Has "ghost" = false ∧
      ∀ fuel, 1 ≤ fuel → lonelyMap.Flatten fuel [taskLonely] = .ok [taskLonely]) ∧
    (hostMap.Get taskHost.Id = some taskHost ∧ "lonely" ∈ taskHost.Needs ∧
      hostMap.Get "lonely" = some taskLonely ∧ hostMap.Has "ghost" = false ∧
      ∀ fuel, 2 ≤ fuel → hostMap.Flatten fuel [taskHost] = .ok [taskLonely, taskHost]) ∧
    (∀ (m : TaskMap) (targets : List Task), m.Inv → m.OwnId → m.Acyclic →
      (∀ t ∈ targets, m.Get t.Id = some t) →
      ∃ r N, (∀ fuel, N ≤ fuel → m.Flatten fuel targets = .ok r) ∧
        (∀ t ∈ targets, t ∈ r) ∧ (∀ u ∈ r, m.Get u.Id = some u) ∧
        ∀ (i : Nat) (h : i < r.length) (id : String),
          Relation.TransGen m.Edge (r[i]).Id id → id ∈ (r.take i).map Task.Id) ∧
    (∀ (m : TaskMap) (fuel : Nat) (targets : List Task) (e : GoError),
      m.Flatten fuel targets = .error (.error e) → IsMissingTaskError m e) := by
  refine ⟨⟨by decide, by decide, by decide,
      fun _ hf => TaskMap.Flatten_mono _ hf _ _ (by decide)⟩,
    ⟨by decide, by decide, by decide, by decide,
      fun _ hf => TaskMap.Flatten_mono _ hf _ _ (by decide)⟩,
    ?_, fun m fuel targets e h => TaskMap.Flatten_error m fuel targets e h⟩
  intro m targets hI hO hA hT
  obtain ⟨r, N, hr, hdb, hreg, hin, -⟩ := Flatten_fuel m hI hO hA targets hT
  refine ⟨r, N, hr, hin, hreg, ?_⟩
  intro i h id hid
  rcases DepsBefore.take m r [] hdb i h id hid with h1 | h1
  · simp at h1
  · exact h1

/-- C4: for a chain of `n ≥ 1` registered tasks with distinct Ids, the first
needing nothing and each later one needing exactly the task before it,
`Flatten` of the last task returns no error and exactly the chain, for every
recursion budget of at least `n`. -/
theorem Flatten_chain (m : TaskMap) (ts : List Task) (hne : ts ≠ [])
    (hfirst : (ts.head hne).Needs = []) (hchain : IsChain ts)
    (hnd : (ts.map Task.Id).Nodup) (hreg : ∀ t ∈ ts, m.Get t.Id = some t) :
    ∀ fuel, ts.length ≤ fuel → m.Flatten fuel [ts.getLast hne] = .ok ts := by
  intro fuel hf
  have hsplit : ts.dropLast ++ [ts.getLast hne] = ts := List.dropLast_append_getLast hne
  have hlen : ts.dropLast.length + 1 ≤ fuel := by
    have : ts.length = ts.dropLast.length + 1 := by
      conv_lhs => rw [← hsplit]
      simp
    omega
  have hmain := flatten_chain m ts.dropLast (ts.getLast hne)
    (by
      rw [hsplit]
      intro t ht
      have : ts.head hne = t := by
        cases ts with
        | nil => exact absurd rfl hne
        | cons a l => simpa using ht
      rw [← this]
      exact hfirst)
    (by rw [hsplit]; exact hchain) (by rw [hsplit]; exact hnd)
    (by rw [hsplit]; exact hreg) fuel hlen
  rw [hsplit] at hmain
  simp [TaskMap.Flatten, hmain]

/-- C4, witness: `build`, `test needs build`, `deploy needs test` flattens from
`deploy` to `[build, test, deploy]`. -/
theorem Flatten_chain_witness :
    pipelineMap.Flatten 3 [taskDeploy] = .ok [taskBuild, taskTest, taskDeploy] :=
  Flatten_chain pipelineMap [taskBuild, taskTest, taskDeploy] (by decide) rfl (by decide)
    (by decide) (by decide) 3 (by decide)

/-- C5: for a map (no key twice) in which each task is registered under its own
Id, and every recursion budget above the number of registered tasks,
`FindCyclicalReferences`
returns a result, which is nil exactly when the graph of Needs edges between
registered tasks has no cycle (a task needing itself is a cycle); a non-nil
result is not empty, and two registered tasks that need each other make the
result non-nil. -/
theorem FindCyclicalReferences_nil_iff_acyclic (m : TaskMap) (hU : m.UniqueKeys)
    (hO : m.OwnId) (fuel : Nat) (hf : m.entries.length + 1 ≤ fuel) :
    ∃ res, m.FindCyclicalReferences fuel = .ok res ∧ (res = none ↔ m.Acyclic) ∧
      (∀ cycles, res = some cycles → cycles ≠ []) ∧
      (∀ a b ta tb, m.Get a = some ta → m.Get b = some tb → b ∈ ta.Needs → a ∈ tb.Needs →
        res ≠ none) := by
  obtain ⟨cs, hcs, hmem⟩ := FindCyclicalReferences_spec m hU hO fuel hf
  have hiff : (if cs.length = 0 then none else some cs) = none ↔ m.Acyclic := by
    constructor
    · intro hnone a ha
      have hnil : cs = [] := by
        by_cases h : cs.length = 0
        · exact List.length_eq_zero.1 h
        · simp [h] at hnone
      obtain ⟨t, ht, hreg⟩ := TaskMap.registered_of_cycle ha
      have : t ∈ cs := (hmem t).2 ⟨hreg, by
        rw [TaskMap.Id_of_Get hO ht]
        exact ⟨a, Relation.ReflTransGen.refl, ha⟩⟩
      rw [hnil] at this
      simp at this
    · intro hA
      have hnil : cs = [] := by
        apply List.eq_nil_iff_forall_not_mem.2
        intro t ht
        obtain ⟨-, x, -, hx⟩ := (hmem t).1 ht
        exact hA x hx
      simp [hnil]
  refine ⟨_, hcs, hiff, ?_, ?_⟩
  · intro cycles hc
    by_cases h : cs.length = 0
    · simp [h] at hc
    · simp only [h, if_false, Option.some.injEq] at hc
      subst hc
      intro hnil
      exact h (by simp [hnil])
  · intro a b ta tb ha hb hab hba hnone
    have hA := hiff.1 hnone
    exact hA a (Relation.TransGen.tail (Relation.TransGen.single ⟨ta, tb, ha, hab, hb⟩)
      ⟨tb, ta, hb, hba, ha⟩)

/-- C5, witness: the map of `ping` and `pong`, which need each other. -/
theorem FindCyclicalReferences_nil_iff_acyclic_witness :
    ∃ res, pingPongMap.FindCyclicalReferences 3 = .ok res ∧
      (res = none ↔ pingPongMap.Acyclic) ∧
      (∀ cycles, res = some cycles → cycles ≠ []) ∧
      (∀ a b ta tb, pingPongMap.Get a = some ta → pingPongMap.Get b = some tb →
        b ∈ ta.Needs → a ∈ tb.Needs → res ≠ none) :=
  FindCyclicalReferences_nil_iff_acyclic pingPongMap (by decide) (by decide) 3 (by decide)

/-- C6, counterexample: in the map of `entry` (needs `spin`) and `spin` (needs
itself) `FindCyclicalReferences` returns `entry`, in either order of iteration,
and no path of Needs edges leads from `entry` back to `entry`. -/
theorem FindCyclicalReferences_reports_task_off_cycle :
    spinMap.UniqueKeys ∧ spinMap.OwnId ∧
      (∀ fuel, 3 ≤ fuel → spinMap.FindCyclicalReferences fuel = .ok (some [taskEntry, taskSpin])) ∧
      ¬ Relation.TransGen spinMap.Edge taskEntry.Id taskEntry.Id ∧
      (∀ fuel, 3 ≤ fuel →
        spinMapRev.FindCyclicalReferences fuel = .ok (some [taskSpin, taskEntry])) ∧
      ¬ Relation.TransGen spinMapRev.Edge taskEntry.Id taskEntry.Id :=
  ⟨by decide, by decide,
    fun _ hf => TaskMap.FindCyclicalReferences_mono _ hf _ (by decide),
    TaskMap.no_path_into spinMap taskEntry.Id (by decide) taskEntry.Id,
    fun _ hf => TaskMap.FindCyclicalReferences_mono _ hf _ (by decide),
    TaskMap.no_path_into spinMapRev taskEntry.Id (by decide) taskEntry.Id⟩

/-- C6, as amended: every task returned by `FindCyclicalReferences` is a
registered task from which a cycle can be reached: a path of zero or more Needs
edges through registered tasks leads from it to a task that has a non-empty
path back to itself. -/
theorem FindCyclicalReferences_reaches_cycle (m : TaskMap) (hU : m.UniqueKeys)
    (hO : m.OwnId) (fuel : Nat) (hf : m.entries.length + 1 ≤ fuel) :
    ∃ res, m.FindCyclicalReferences fuel = .ok res ∧
      ∀ cycles, res = some cycles → ∀ t ∈ cycles, m.Registered t ∧ m.ReachesCycle t.Id := by
  obtain ⟨cs, hcs, hmem⟩ := FindCyclicalReferences_spec m hU hO fuel hf
  refine ⟨_, hcs, ?_⟩
  intro cycles hc t ht
  by_cases h : cs.length = 0
  · simp [h] at hc
  · simp only [h, if_false, Option.some.injEq] at hc
    subst hc
    exact (hmem t).1 ht

/-- C6, witness: the map of `entry` and `spin`. -/
theorem FindCyclicalReferences_reaches_cycle_witness :
    ∃ res, spinMap.FindCyclicalReferences 3 = .ok res ∧
      ∀ cycles, res = some cycles →
        ∀ t ∈ cycles, spinMap.Registered t ∧ spinMap.ReachesCycle t.Id :=
  FindCyclicalReferences_reaches_cycle spinMap (by decide) (by decide) 3 (by decide)

/-- C7: on a map without nil entries `MissingDependencies` returns no failure
if and only if every Id listed in the Needs of every registered task is
registered, and a failure it returns carries a registered task that has an
unregistered Id in its Needs. -/
theorem MissingDependencies_none_iff (m : TaskMap) (hnil : m.NoNil) :
    ∃ res, m.MissingDependencies = .ok res ∧ (res = none ↔ m.NeedsRegistered) ∧
      ∀ e, res = some e →
        ∃ t, e.Tasks.Task = some t ∧ m.Registered t ∧ ∃ d ∈ t.Needs, m.Has d = false := by
  obtain ⟨missing, hres, h1, h2⟩ := missingDepsLoop_spec m m.entries {} hnil
  unfold TaskMap.MissingDependencies
  rw [hres]
  by_cases hT : missing.Task = none
  · refine ⟨none, by simp [hT], ?_, by simp⟩
    simp only [true_iff]
    exact (h1.1 hT).2
  · refine ⟨some { message := "missing dependencies", Tasks := missing }, by simp [hT], ?_, ?_⟩
    · constructor
      · intro hc
        cases hc
      · intro hN
        exact absurd (h1.2 ⟨rfl, hN⟩) hT
    · intro e he
      simp only [Option.some.injEq] at he
      subst he
      obtain ⟨t, ht⟩ := Option.ne_none_iff_exists'.1 hT
      rcases h2 t ht with h3 | h3
      · cases h3
      · exact ⟨t, ht, h3.1, h3.2⟩

/-- C7, witness: the map whose only task needs the unregistered `ghost`. -/
theorem MissingDependencies_none_iff_witness :
    ∃ res, lonelyMap.MissingDependencies = .ok res ∧ (res = none ↔ lonelyMap.NeedsRegistered) ∧
      ∀ e, res = some e →
        ∃ t, e.Tasks.Task = some t ∧ lonelyMap.Registered t ∧
          ∃ d ∈ t.Needs, lonelyMap.Has d = false :=
  MissingDependencies_none_iff lonelyMap (by decide)

/-- C8 (the code departs from the claim): with `lonely` needing the unregistered
`ghost` and `stray` needing the unregistered `phantom`, the failure carries one
task and the missing Ids of both tasks, in either order of iteration, while the
unregistered Needs of the reported task are a single Id. -/
theorem MissingDependencies_mixes_tasks :
    strayMap.MissingDependencies =
        .ok (some { message := "missing dependencies",
                    Tasks := { Task := some taskLonely, Missing := ["ghost", "phantom"] } }) ∧
      taskLonely.Needs.filter (fun d => !strayMap.Has d) = ["ghost"] ∧
      strayMapRev.MissingDependencies =
        .ok (some { message := "missing dependencies",
                    Tasks := { Task := some taskStray, Missing := ["phantom", "ghost"] } }) ∧
      taskStray.Needs.filter (fun d => !strayMapRev.Has d) = ["phantom"] := by
  decide

/-- C9: `Eval` on an Expression already marked evaluated returns no error and
leaves the Expression and the state of the Evaluator as they were, for every
Evaluator and context; the Evaluator is not called (its call counter does not
move), and a second call gives what the first gave. -/
theorem Eval_evaluated_is_noop {σ κ : Type} (pf : FloatParser) (ev : Evaluator σ κ) (ctx : κ)
    (e : Expression) (s : σ) (h : e.IsEvaluated = true) :
    e.Eval pf ev ctx s = ⟨none, e, s⟩ ∧
      (∀ n : Nat, (e.Eval pf ev.counted ctx (s, n)).state = (s, n)) ∧
      (e.Eval pf ev ctx s).expr.Eval pf ev ctx (e.Eval pf ev ctx s).state =
        e.Eval pf ev ctx s := by
  have hnoop : ∀ {τ : Type} (ev' : Evaluator τ κ) (s' : τ),
      e.Eval pf ev' ctx s' = ⟨none, e, s'⟩ := by
    intro τ ev' s'
    unfold Expression.Eval
    simp [h]
  refine ⟨hnoop ev s, fun n => by rw [hnoop], ?_⟩
  rw [hnoop ev s]
  exact hnoop ev s

/-- C9, witness: an int64 Expression evaluated to 1, and an Evaluator that would
answer 2. -/
theorem Eval_evaluated_is_noop_witness :
    exprOne.Eval noFloats constEvaluator () () = ⟨none, exprOne, ()⟩ ∧
      (∀ n : Nat, (exprOne.Eval noFloats constEvaluator.counted () ((), n)).state = ((), n)) ∧
      (exprOne.Eval noFloats constEvaluator () ()).expr.Eval noFloats constEvaluator ()
          (exprOne.Eval noFloats constEvaluator () ()).state =
        exprOne.Eval noFloats constEvaluator () () :=
  Eval_evaluated_is_noop noFloats constEvaluator () exprOne () rfl

/-- C10: when the Evaluator returns an error for the raw text of an unevaluated
Expression, `Eval` returns exactly that error and leaves the Expression as it
was, still not marked evaluated; a later `Eval` on it calls the Evaluator again
(its call counter moves by one). -/
theorem Eval_evaluator_error {σ κ : Type} (pf : FloatParser) (ev : Evaluator σ κ) (ctx : κ)
    (e : Expression) (s s1 : σ) (err : GoError) (h : e.IsEvaluated = false)
    (hev : ev e.Raw ctx s = (.error err, s1)) :
    e.Eval pf ev ctx s = ⟨some err, e, s1⟩ ∧
      (e.Eval pf ev ctx s).expr.IsEvaluated = false ∧
      ∀ (s2 : σ) (n : Nat),
        ((e.Eval pf ev ctx s).expr.Eval pf ev.counted ctx (s2, n)).state.2 = n + 1 := by
  have h1 : e.Eval pf ev ctx s = ⟨some err, e, s1⟩ := by
    unfold Expression.Eval
    simp [h, hev]
  refine ⟨h1, by rw [h1]; exact h, ?_⟩
  intro s2 n
  rw [h1]
  simp only
  rw [Expression.Eval_state pf ev.counted ctx e (s2, n) h]
  rfl

/-- C10, witness: an unevaluated int64 Expression and an Evaluator that fails. -/
theorem Eval_evaluator_error_witness :
    exprPending.Eval noFloats failEvaluator () () =
        ⟨some (.msg "unresolved"), exprPending, ()⟩ ∧
      (exprPending.Eval noFloats failEvaluator () ()).expr.IsEvaluated = false ∧
      ∀ (s2 : Unit) (n : Nat),
        ((exprPending.Eval noFloats failEvaluator () ()).expr.Eval noFloats
          failEvaluator.counted () (s2, n)).state.2 = n + 1 :=
  Eval_evaluator_error noFloats failEvaluator () exprPending () () (.msg "unresolved") rfl rfl

/-- C11 (the code departs from the claim): the unsigned cases of `Eval` parse
with `strconv.ParseInt`.  The numerals of `2^32 - 1` and `2^31` are rejected for
type uint32 and the numeral of `2^64 - 1` for types uint64 and uint, and the
negative numeral `-1` is accepted and stored as the largest unsigned value;
`strconv.ParseUint`, which the timeout literal of `UnmarshalYAML` uses, does the
opposite on each of these strings. -/
theorem Eval_unsigned_parsed_as_signed :
    (exprU32.Eval noFloats (sayEvaluator "4294967295") () ()).err =
        some (.num "ParseInt" "4294967295" .range) ∧
      (exprU32.Eval noFloats (sayEvaluator " 2147483648 ") () ()).err =
        some (.num "ParseInt" "2147483648" .range) ∧
      ParseUint "4294967295" 10 32 = .ok 4294967295 ∧
      (exprU64.Eval noFloats (sayEvaluator "18446744073709551615") () ()).err =
        some (.num "ParseInt" "18446744073709551615" .range) ∧
      (exprUint.Eval noFloats (sayEvaluator "18446744073709551615") () ()).err =
        some (.num "ParseInt" "18446744073709551615" .range) ∧
      ParseUint "18446744073709551615" 10 64 = .ok 18446744073709551615 ∧
      (exprU32.Eval noFloats (sayEvaluator "-1") () ()).err = none ∧
      (exprU32.Eval noFloats (sayEvaluator "-1") () ()).expr.Value = .uint32 4294967295 ∧
      (exprU64.Eval noFloats (sayEvaluator "-1") () ()).err = none ∧
      (exprU64.Eval noFloats (sayEvaluator "-1") () ()).expr.Value =
        .uint64 18446744073709551615 ∧
      ParseUint "-1" 10 32 = .error (.num "ParseUint" "-1" .invalid) ∧
      ParseUint "-1" 10 64 = .error (.num "ParseUint" "-1" .invalid) := by
  decide

/-- C12: when the Evaluator succeeds on an unevaluated Expression with a string
that trims to the empty string, `Eval` returns no error for each of the ten
declared types, the Value is the string itself for type string, false for bool,
and the zero of the matching numeric type otherwise. -/
theorem Eval_blank_gives_zero {σ κ : Type} (pf : FloatParser) (ev : Evaluator σ κ) (ctx : κ)
    (e : Expression) (s s1 : σ) (v : String) (h : e.IsEvaluated = false)
    (hev : ev e.Raw ctx s = (.ok v, s1)) (hv : TrimSpace v = "") :
    (e.Typ ∈ ["string", "bool", "int32", "int64", "int", "uint32", "uint64", "uint",
        "float32", "float64"] → (e.Eval pf ev ctx s).err = none) ∧
      (e.Typ = "string" → (e.Eval pf ev ctx s).expr.Value = .str v) ∧
      (e.Typ = "bool" → (e.Eval pf ev ctx s).expr.Value = .bool false) ∧
      (e.Typ = "int32" → (e.Eval pf ev ctx s).expr.Value = .int32 0) ∧
      (e.Typ = "int64" ∨ e.Typ = "int" → (e.Eval pf ev ctx s).expr.Value = .int64 0) ∧
      (e.Typ = "uint32" → (e.Eval pf ev ctx s).expr.Value = .uint32 0) ∧
      (e.Typ = "uint64" ∨ e.Typ = "uint" → (e.Eval pf ev ctx s).expr.Value = .uint64 0) ∧
      (e.Typ = "float32" → (e.Eval pf ev ctx s).expr.Value = .float32 .zero) ∧
      (e.Typ = "float64" → (e.Eval pf ev ctx s).expr.Value = .float64 .zero) := by
  unfold Expression.Eval
  simp only [h, Bool.not_false, if_true, hev, coerceCase, hv, ne_eq, not_true_eq_false,
    if_false]
  refine ⟨?_, ?_, ?_, ?_, ?_, ?_, ?_, ?_, ?_⟩
  · intro _
    repeat' split
    all_goals rfl
  all_goals
    intro ht
    first
      | (rcases ht with ht | ht <;> simp [ht])
      | simp [ht]

/-- C12, witness: a bool Expression and an Evaluator that answers blanks. -/
theorem Eval_blank_gives_zero_witness :
    (exprFlag.Typ ∈ ["string", "bool", "int32", "int64", "int", "uint32", "uint64", "uint",
        "float32", "float64"] →
        (exprFlag.Eval noFloats (sayEvaluator "  ") () ()).err = none) ∧
      (exprFlag.Typ = "string" →
        (exprFlag.Eval noFloats (sayEvaluator "  ") () ()).expr.Value = .str "  ") ∧
      (exprFlag.Typ = "bool" →
        (exprFlag.Eval noFloats (sayEvaluator "  ") () ()).expr.Value = .bool false) ∧
      (exprFlag.Typ = "int32" →
        (exprFlag.Eval noFloats (sayEvaluator "  ") () ()).expr.Value = .int32 0) ∧
      (exprFlag.Typ = "int64" ∨ exprFlag.Typ = "int" →
        (exprFlag.Eval noFloats (sayEvaluator "  ") () ()).expr.Value = .int64 0) ∧
      (exprFlag.Typ = "uint32" →
        (exprFlag.Eval noFloats (sayEvaluator "  ") () ()).expr.Value = .uint32 0) ∧
      (exprFlag.Typ = "uint64" ∨ exprFlag.Typ = "uint" →
        (exprFlag.Eval noFloats (sayEvaluator "  ") () ()).expr.Value = .uint64 0) ∧
      (exprFlag.Typ = "float32" →
        (exprFlag.Eval noFloats (sayEvaluator "  ") () ()).expr.Value = .float32 .zero) ∧
      (exprFlag.Typ = "float64" →
        (exprFlag.Eval noFloats (sayEvaluator "  ") () ()).expr.Value = .float64 .zero) :=
  Eval_blank_gives_zero noFloats (sayEvaluator "  ") () exprFlag () () "  " rfl rfl (by decide)

/-- C13 (the code departs from the claim): the string `-1` is not empty after
trimming and is no unsigned integer (`strconv.ParseUint` rejects it), yet `Eval`
on an Expression of type uint32, uint64 or uint returns no failure.  What holds
for every declared type: whenever `Eval` returns a failure after the Evaluator
succeeded with `v`, the Expression is left marked evaluated with ValueString
`v`, and a later `Eval` returns no error and does not call the Evaluator. -/
theorem Eval_parse_failure_sticks :
    (TrimSpace "-1" ≠ "" ∧ ParseUint (TrimSpace "-1") 10 32 = .error (.num "ParseUint" "-1" .invalid) ∧
      (exprU32.Eval noFloats (sayEvaluator "-1") () ()).err = none ∧
      (exprU64.Eval noFloats (sayEvaluator "-1") () ()).err = none ∧
      (exprUint.Eval noFloats (sayEvaluator "-1") () ()).err = none) ∧
    (∀ {σ κ : Type} (pf : FloatParser) (ev : Evaluator σ κ) (ctx : κ) (e : Expression)
      (s s1 : σ) (v : String) (err : GoError), e.IsEvaluated = false →
      ev e.Raw ctx s = (.ok v, s1) → (e.Eval pf ev ctx s).err = some err →
      (e.Eval pf ev ctx s).expr.IsEvaluated = true ∧
        (e.Eval pf ev ctx s).expr.ValueString = v ∧
        ∀ (s2 : σ), (e.Eval pf ev ctx s).expr.Eval pf ev ctx s2 =
          ⟨none, (e.Eval pf ev ctx s).expr, s2⟩) := by
  refine ⟨by decide, ?_⟩
  intro σ κ pf ev ctx e s s1 v err h hev _
  have hflag : (e.Eval pf ev ctx s).expr.IsEvaluated = true ∧
      (e.Eval pf ev ctx s).expr.ValueString = v := Expression.Eval_flags pf ev ctx e s s1 v h hev
  refine ⟨hflag.1, hflag.2, ?_⟩
  intro s2
  generalize (e.Eval pf ev ctx s).expr = e' at hflag ⊢
  unfold Expression.Eval
  simp [hflag.1]

/-- C14 (the code departs from the claim): the check of the required inputs sits
inside the body of the loop over `t.With`, so a task without `With` entries
never meets it.  The descriptor declares the required input `count`, the task
has no `With` entry, and `Task.Eval` returns no error; the same holds for every
task without `With` and `Env` entries and optional fields, whatever the
descriptor requires. -/
theorem Eval_no_with_skips_required_check :
    (countDescriptor.Inputs.lookup "count" =
        some { Name := "count", Typ := "int64", IsRequired := true } ∧
      taskBare.With = [] ∧
      (taskBare.Eval noFloats screaming (answer "1") (readyContext countDescriptor) ()).outcome =
        .ok ()) ∧
    (∀ {σ : Type} (pf : FloatParser) (underscore : String → String)
      (ev : Evaluator σ EvalData) (t : Task) (ctx : TaskContext) (es : σ),
      t.With = [] → t.Env = [] → t.Timeout = none → t.Force = none → t.Cwd = none →
      t.If = none → t.RunExpr = none → ctx.State = none → ctx.Outputs ≠ none →
      ctx.Vars ≠ none → (t.Eval pf underscore ev ctx es).outcome = .ok ()) := by
  refine ⟨by decide, ?_⟩
  intro σ pf underscore ev t ctx es hWith hEnv hTimeout hForce hCwd hIf hRun hstate hout hvars
  obtain ⟨outs, hout1⟩ := Option.ne_none_iff_exists'.1 hout
  obtain ⟨vars, hvars1⟩ := Option.ne_none_iff_exists'.1 hvars
  obtain ⟨cEnv, cVars, cSecrets, cOutputs, cState, cDesc⟩ := ctx
  simp only at hstate hout1 hvars1
  subst hstate hout1 hvars1
  obtain ⟨env', hmerge⟩ := mergeEnvLoop_ok (cEnv.getD [])
    ⟨cEnv, some vars, cSecrets, some outs, some (freshState t), cDesc⟩
    (freshState t) [] rfl rfl rfl
  simp only at hmerge
  unfold Task.Eval
  simp only [initState, hmerge, mapOutputs, hEnv, envLoop, withPhase, hWith, List.length_nil,
    gt_iff_lt, lt_self_iff_false, if_false, fieldsPhase, evalField, hTimeout, hForce, hCwd,
    hIf, hRun]

/-- C15 (the code departs from the claim): the check of the required inputs runs
after the first `With` entry, not after the last.  Both inputs of the descriptor
are required int64 inputs, the task gives both as valid numerals, and `Task.Eval`
fails on the input that the loop has not reached yet, in either order of
iteration.  The defect is the one of C14: the check sits inside the loop body. -/
theorem Eval_required_check_inside_loop :
    (taskPair.Eval noFloats screaming (answer "1") (readyContext pairDescriptor) ()).outcome =
        .error (.error (.msg "input second is required for task job")) ∧
      (taskPairRev.Eval noFloats screaming (answer "1") (readyContext pairDescriptor)
        ()).outcome = .error (.error (.msg "input first is required for task job")) ∧
      ParseInt "1" 10 64 = .ok 1 ∧ ParseInt "2" 10 64 = .ok 2 := by
  decide

/-- C16 (the code departs from the claim): the type switch has no case for the
declared type string.  `Task.Eval` returns no error on a task that gives the
optional string input `msg`, and the Inputs of the state are empty afterwards;
when the same input is required the call fails, telling that the input it was
given is required. -/
theorem Eval_string_input_not_stored :
    (taskMsg.Eval noFloats screaming (answer "1") (readyContext msgDescriptor) ()).outcome =
        .ok () ∧
      inputsOf (taskMsg.Eval noFloats screaming (answer "1") (readyContext msgDescriptor)
        ()).ctx = some { Items := none, order := [] } ∧
      (inputsOf (taskMsg.Eval noFloats screaming (answer "1") (readyContext msgDescriptor)
        ()).ctx).map (fun o => o.Has "msg") = some false ∧
      (taskMsg.Eval noFloats screaming (answer "1") (readyContext requiredMsgDescriptor)
        ()).outcome = .error (.error (.msg "input msg is required for task job")) := by
  decide

/-- C17: for every key `k` and every 64-bit signed integer `n`, a task whose only
`With` entry is `k`, an unevaluated string Expression (and that has no `Env`
entry and none of the optional fields), a descriptor whose only input is `k`
(Name `k`, type int64, required), an Evaluator that answers the decimal numeral
of `n`, and a context with nil State and allocated Env, Outputs and Vars:
`Task.Eval` returns no error and `State.Inputs.Get(k)` is the int64 `n`. -/
theorem Eval_required_int64_input {σ : Type} (pf : FloatParser) (underscore : String → String)
    (ev : Evaluator σ EvalData) (k : String) (n : Int) (t : Task) (e : Expression)
    (d : TaskDescriptor) (inp : InputDescriptor) (ctx : TaskContext) (es : σ)
    (hlo : -(2 ^ 63 : Int) ≤ n) (hhi : n < (2 ^ 63 : Int))
    (hWith : t.With = [(k, e)]) (hEnv : t.Env = []) (hTimeout : t.Timeout = none)
    (hForce : t.Force = none) (hCwd : t.Cwd = none) (hIf : t.If = none)
    (hRun : t.RunExpr = none) (he : e.IsEvaluated = false) (het : e.Typ = "string")
    (hd : ctx.Descriptor = some d) (hin : d.Inputs = [(k, inp)]) (hname : inp.Name = k)
    (htyp : inp.Typ = "int64") (hreq : inp.IsRequired = true) (hstate : ctx.State = none)
    (henv : ctx.Env ≠ none) (hout : ctx.Outputs ≠ none) (hvars : ctx.Vars ≠ none)
    (hev : ∀ raw data s, (ev raw data s).1 = .ok (toString n)) :
    (t.Eval pf underscore ev ctx es).outcome = .ok () ∧
      ∃ st inputs, (t.Eval pf underscore ev ctx es).ctx.State = some st ∧
        st.Inputs = some inputs ∧ inputs.Get k = .int64 n := by
  obtain ⟨env, henv1⟩ := Option.ne_none_iff_exists'.1 henv
  obtain ⟨outs, hout1⟩ := Option.ne_none_iff_exists'.1 hout
  obtain ⟨vars, hvars1⟩ := Option.ne_none_iff_exists'.1 hvars
  obtain ⟨cEnv, cVars, cSecrets, cOutputs, cState, cDesc⟩ := ctx
  simp only at hd hstate henv1 hout1 hvars1
  subst hd hstate henv1 hout1 hvars1
  obtain ⟨env', hmerge⟩ := mergeEnvLoop_ok env
    ⟨some env, some vars, cSecrets, some outs, some (freshState t), some d⟩
    (freshState t) [] rfl rfl rfl
  simp only at hmerge
  have hparse := ParseInt_toString n 64 (by omega) (by omega) (by simpa using hlo)
    (by simpa using hhi)
  have hne := toString_int_ne_empty n hlo hhi
  unfold Task.Eval
  simp only [initState, Option.getD_some, hmerge, mapOutputs, hEnv, envLoop,
    withPhase, hWith, List.length_singleton, Nat.lt_one_iff, pos_of_gt, if_true, withLoop,
    withStep, hin, List.lookup_cons, beq_self_eq_true, zero_lt_one]
  rw [resolve_unevaluated_string pf ev _ e es (toString n) he het (hev _ _ _)]
  simp only [Value.assertString, hreq, hne, and_false, if_false, ctxEnvSet, coerceInput,
    htyp, or_true, ne_eq, not_false_eq_true, if_true, hparse, stateInputsSet, freshState,
    requiredCheck, stateInputsHas, hname, ObjectMap.Has_Set_self, fieldsPhase, evalField,
    hTimeout, hForce, hCwd, hIf, hRun, true_and]
  exact ⟨_, _, rfl, rfl, ObjectMap.Get_Set_self _ _ _⟩


/-- C17, witness: the input `count` and an Evaluator that answers `1`. -/
theorem Eval_required_int64_input_witness :
    (taskCount.Eval noFloats screaming (answer "1") (readyContext countDescriptor) ()).outcome =
        .ok () ∧
      ∃ st inputs,
        (taskCount.Eval noFloats screaming (answer "1") (readyContext countDescriptor)
          ()).ctx.State = some st ∧
        st.Inputs = some inputs ∧ inputs.Get "count" = .int64 1 :=
  Eval_required_int64_input noFloats screaming (answer "1") "count" 1 taskCount
    { Raw := "${{ 1 }}", Typ := "string" } countDescriptor
    { Name := "count", Typ := "int64", IsRequired := true } (readyContext countDescriptor) ()
    (by decide) (by decide) rfl rfl rfl rfl rfl rfl rfl rfl rfl rfl rfl rfl rfl rfl rfl
    (by decide) (by decide) (by decide) (fun _ _ _ => rfl)

/-- C18 (the code departs from the claim): `Task.Eval` parses the resolved value
as it is, without trimming.  For the optional int64 input `count`, the value
` 5 ` and the blank value both make the call fail, while `Expression.Eval` with
the declared type int64 reads the first as 5 and the second as 0. -/
theorem Eval_input_not_trimmed :
    (taskPadded.Eval noFloats screaming (answer "1") (readyContext optionalCountDescriptor)
        ()).outcome = .error (.error (.msg "input count must be a valid integer for task job")) ∧
      (taskBlank.Eval noFloats screaming (answer "1") (readyContext optionalCountDescriptor)
        ()).outcome = .error (.error (.msg "input count must be a valid integer for task job")) ∧
      (exprPending.Eval noFloats (sayEvaluator " 5 ") () ()).err = none ∧
      (exprPending.Eval noFloats (sayEvaluator " 5 ") () ()).expr.Value = .int64 5 ∧
      (exprPending.Eval noFloats (sayEvaluator "  ") () ()).err = none ∧
      (exprPending.Eval noFloats (sayEvaluator "  ") () ()).expr.Value = .int64 0 := by
  decide

/-- C19: when `Task.Eval` succeeds, a `With` entry whose input is declared with one
of the integer, float or bool types and whose value resolves to the empty
string has stored under its key the Default of the descriptor if that has the
declared type, and the zero value of the declared type otherwise.  The keys of
`With` are those of a Go map (no key twice).  No assumption on `IsRequired` is
needed: with a required input the call does not succeed. -/
theorem Eval_empty_input_default {σ : Type} (pf : FloatParser) (underscore : String → String)
    (ev : Evaluator σ EvalData) (t : Task) (ctx : TaskContext) (es : σ) (d : TaskDescriptor)
    (key : String) (e : Expression) (inp : InputDescriptor)
    (hU : (t.With.map Prod.fst).Nodup) (hmem : (key, e) ∈ t.With)
    (hd : ctx.Descriptor = some d) (hin : d.Inputs.lookup key = some inp)
    (htyp : inp.Typ ∈ ["int", "int64", "int32", "uint", "uint64", "uint32", "number", "float",
      "float64", "float32", "bool"])
    (hres : ResolvesTo ev e "")
    (hok : (t.Eval pf underscore ev ctx es).outcome = .ok ()) :
    ∃ st inputs, (t.Eval pf underscore ev ctx es).ctx.State = some st ∧
      st.Inputs = some inputs ∧
      inputs.Get key = expectedForEmpty inp := by
  obtain ⟨ctx1, es1, outputs, vars, hd1, hwok, hinputs⟩ :=
    Task.Eval_ok_inv pf underscore ev t ctx es hok
  have hlen : t.With.length > 0 := List.length_pos_of_mem hmem
  unfold withPhase at hwok hinputs
  rw [hd1, hd] at hwok hinputs
  simp only [hlen, if_true] at hwok hinputs
  obtain ⟨o, ho, hget⟩ := withLoop_target pf underscore ev outputs vars t d key e inp "" _ hin
    (fun data es' => resolve_of_resolvesTo hres pf data es')
    (coerceInput_empty pf t key inp htyp) t.With ctx1 es1 hU hmem hwok
  rw [ho] at hinputs
  unfold inputsOf at hinputs
  cases hS : (t.Eval pf underscore ev ctx es).ctx.State with
  | none => simp [hS] at hinputs
  | some st =>
    rw [hS] at hinputs
    simp only [Option.some_bind] at hinputs
    exact ⟨st, o, rfl, hinputs, hget⟩


/-- C19, witness: an optional int64 input with the Default 7, given as the empty
string. -/
theorem Eval_empty_input_default_witness :
    ∃ st inputs,
      (taskEmptyCount.Eval noFloats screaming (answer "1") (readyContext defaultDescriptor)
        ()).ctx.State = some st ∧
      st.Inputs = some inputs ∧
      inputs.Get "count" = expectedForEmpty { Name := "count", Typ := "int64", Default := .int64 7 } :=
  Eval_empty_input_default noFloats screaming (answer "1") taskEmptyCount
    (readyContext defaultDescriptor) () defaultDescriptor "count" (literal "")
    { Name := "count", Typ := "int64", Default := .int64 7 } (by decide) (by decide) rfl rfl
    (by decide) (Or.inl ⟨rfl, rfl⟩) (by decide)

/-- C20 (the code departs from the claim): for an empty or blank timeout scalar
`UnmarshalYAML` stores the untyped constant 0, an `int`, in an Expression of
type uint32 marked evaluated, and `Task.Eval` on the task stops in the failed
type assertion `t.Timeout.Value.(uint32)`, as does the accessor `Uint32`.  A
numeral is stored as a `uint32` and goes through. -/
theorem Eval_empty_timeout_panics :
    unmarshalTimeout "" 1 1 =
        .ok { Raw := "", Value := .int 0, ValueString := "0", IsEvaluated := true,
              Typ := "uint32" } ∧
      (unmarshalTimeout "" 1 1).map Expression.Uint32 = .ok (.error .typeAssert) ∧
      (taskWithTimeout "").map (fun t =>
        (t.Eval noFloats screaming (answer "1") (readyContext {}) ()).outcome) =
        some (.error .typeAssert) ∧
      (taskWithTimeout "  ").map (fun t =>
        (t.Eval noFloats screaming (answer "1") (readyContext {}) ()).outcome) =
        some (.error .typeAssert) ∧
      (taskWithTimeout "30").map (fun t =>
        (t.Eval noFloats screaming (answer "1") (readyContext {}) ()).outcome) =
        some (.ok ()) ∧
      (taskWithTimeout "30").map (fun t =>
        (t.Eval noFloats screaming (answer "1") (readyContext {}) ()).ctx.State.map
          fun st => st.Timeout) = some (some 30) := by
  decide

/-- C21 (counterexample): the task has the input `count` given as "5" and, set by
`SetEnvEntry`, the environment entry `INPUT_COUNT` with the value "a".  `Task.Eval`
succeeds and the live `Env["INPUT_COUNT"]` is "5", because the loop over `t.With`
exports the input under this name after the loop over `t.Env` has run.
`State.Env["INPUT_COUNT"]` is "a" when `Task.Eval` makes the state, and "5" as
well when the caller's state refers to the map of `ctx.Env`. -/
theorem Eval_env_entry_overwritten_by_input :
    taskClash.Env = [("INPUT_COUNT", literalEntry "a")] ∧
      ((taskClash.Eval noFloats shout (answer "1") (readyContext optionalCountDescriptor)
          ()).outcome = .ok () ∧
        stateEnv (taskClash.Eval noFloats shout (answer "1")
          (readyContext optionalCountDescriptor) ()).ctx "INPUT_COUNT" = some "a" ∧
        liveEnv (taskClash.Eval noFloats shout (answer "1")
          (readyContext optionalCountDescriptor) ()).ctx "INPUT_COUNT" = some "5") ∧
      ((taskClash.Eval noFloats shout (answer "1") (sharedContext optionalCountDescriptor)
          ()).outcome = .ok () ∧
        stateEnv (taskClash.Eval noFloats shout (answer "1")
          (sharedContext optionalCountDescriptor) ()).ctx "INPUT_COUNT" = some "5" ∧
        liveEnv (taskClash.Eval noFloats shout (answer "1")
          (sharedContext optionalCountDescriptor) ()).ctx "INPUT_COUNT" = some "5") := by
  decide

/-- C21 (amended): let `e` be the entry of `t.Env` under `key`, built for `value`
by `SetEnv` or `SetEnvEntry`, or by `UnmarshalYAML` from a value without the
template marker.  Then `e` is marked evaluated and the body of the loop over
`t.Env` leaves the state of the Evaluator as it is.  After a successful
`Task.Eval`: when no input of `t.With` is exported under the name `key`, both
`State.Env[key]` and the live `Env[key]` are `value`; when the state does not
refer to the map of `ctx.Env`, `State.Env[key]` is `value` in any case; and when
inputs of `t.With` are exported under the name `key` and all of them resolve to
`w`, the live `Env[key]` is `w`, and so is `State.Env[key]` when the state refers
to the map of `ctx.Env`. -/
theorem Eval_literal_env_entry {σ : Type} (pf : FloatParser) (underscore : String → String)
    (ev : Evaluator σ EvalData) (t : Task) (ctx : TaskContext) (es : σ) (key : String)
    (e : Expression) (value : String) (hmem : (key, e) ∈ t.Env)
    (hU : (t.Env.map Prod.fst).Nodup) (hsrc : BuiltLiteral e value)
    (hok : (t.Eval pf underscore ev ctx es).outcome = .ok ()) :
    e.IsEvaluated = true ∧
      (∀ outputs vars c s, (envStep pf ev outputs vars key e c s).es = s) ∧
      ((∀ kv ∈ t.With, key ≠ "INPUT_" ++ underscore kv.1) →
        stateEnv (t.Eval pf underscore ev ctx es).ctx key = some value ∧
          liveEnv (t.Eval pf underscore ev ctx es).ctx key = some value) ∧
      (envShared ctx = false →
        stateEnv (t.Eval pf underscore ev ctx es).ctx key = some value) ∧
      (∀ w, (∃ kv ∈ t.With, key = "INPUT_" ++ underscore kv.1) →
        (∀ kv ∈ t.With, key = "INPUT_" ++ underscore kv.1 → ResolvesTo ev kv.2 w) →
        liveEnv (t.Eval pf underscore ev ctx es).ctx key = some w ∧
          (envShared ctx = true →
            stateEnv (t.Eval pf underscore ev ctx es).ctx key = some w)) := by
  obtain ⟨he, hv⟩ := hsrc.evaluated
  obtain ⟨c0, outputs, vars, hsh0, hE, hW, hfin⟩ :=
    Task.Eval_ok_env_inv pf underscore ev t ctx es hok
  have htarget := envLoop_target pf ev outputs vars key e value he hv t.Env c0 es hU hmem hE
  have hsh1 := (envLoop_other pf ev outputs vars key t.Env c0 es).2
  have hwith := withPhase_envs pf underscore ev outputs vars t key
    (envLoop pf ev outputs vars t.Env c0 es).ctx (envLoop pf ev outputs vars t.Env c0 es).es
  refine ⟨he, fun outputs vars c s => envStep_evaluated_es pf ev outputs vars key e c s he,
    ?_, ?_, ?_⟩
  · intro hfree
    rw [stateEnv_congr hfin key, liveEnv_congr hfin key, (hwith.1 hfree).1, (hwith.1 hfree).2]
    exact ⟨htarget.2, htarget.1⟩
  · intro hsh
    rw [stateEnv_congr hfin key, hwith.2.1 (hsh1.trans (hsh0.trans hsh))]
    exact htarget.2
  · intro w hex hall
    have hlive : liveEnv (t.Eval pf underscore ev ctx es).ctx key = some w := by
      rw [liveEnv_congr hfin key]
      exact withPhase_hit pf underscore ev outputs vars t key w _ _ hex hall hW
    refine ⟨hlive, fun hsh => ?_⟩
    have hfinal : envShared (t.Eval pf underscore ev ctx es).ctx = true := by
      rw [envShared_congr hfin, hwith.2.2, hsh1, hsh0, hsh]
    rw [stateEnv_of_shared hfinal, hlive]

/-- C21, witness: the task with the input `count` after
`SetEnvEntry("GREETING", "hello")`, in a context without a state; and the task
with the entry `INPUT_COUNT`, in a context whose state refers to the map of
`ctx.Env`. -/
theorem Eval_literal_env_entry_witness :
    ((literalEntry "hello").IsEvaluated = true ∧
      (∀ outputs vars c s,
        (envStep noFloats (answer "1") outputs vars "GREETING" (literalEntry "hello") c s).es =
          s) ∧
      ((∀ kv ∈ taskGreeting.With, "GREETING" ≠ "INPUT_" ++ shout kv.1) →
        stateEnv (taskGreeting.Eval noFloats shout (answer "1")
            (readyContext optionalCountDescriptor) ()).ctx "GREETING" = some "hello" ∧
          liveEnv (taskGreeting.Eval noFloats shout (answer "1")
            (readyContext optionalCountDescriptor) ()).ctx "GREETING" = some "hello") ∧
      (envShared (readyContext optionalCountDescriptor) = false →
        stateEnv (taskGreeting.Eval noFloats shout (answer "1")
          (readyContext optionalCountDescriptor) ()).ctx "GREETING" = some "hello") ∧
      (∀ w, (∃ kv ∈ taskGreeting.With, "GREETING" = "INPUT_" ++ shout kv.1) →
        (∀ kv ∈ taskGreeting.With, "GREETING" = "INPUT_" ++ shout kv.1 →
          ResolvesTo (answer "1") kv.2 w) →
        liveEnv (taskGreeting.Eval noFloats shout (answer "1")
            (readyContext optionalCountDescriptor) ()).ctx "GREETING" = some w ∧
          (envShared (readyContext optionalCountDescriptor) = true →
            stateEnv (taskGreeting.Eval noFloats shout (answer "1")
              (readyContext optionalCountDescriptor) ()).ctx "GREETING" = some w))) ∧
    ((literalEntry "a").IsEvaluated = true ∧
      (∀ outputs vars c s,
        (envStep noFloats (answer "1") outputs vars "INPUT_COUNT" (literalEntry "a") c s).es =
          s) ∧
      ((∀ kv ∈ taskClash.With, "INPUT_COUNT" ≠ "INPUT_" ++ shout kv.1) →
        stateEnv (taskClash.Eval noFloats shout (answer "1")
            (sharedContext optionalCountDescriptor) ()).ctx "INPUT_COUNT" = some "a" ∧
          liveEnv (taskClash.Eval noFloats shout (answer "1")
            (sharedContext optionalCountDescriptor) ()).ctx "INPUT_COUNT" = some "a") ∧
      (envShared (sharedContext optionalCountDescriptor) = false →
        stateEnv (taskClash.Eval noFloats shout (answer "1")
          (sharedContext optionalCountDescriptor) ()).ctx "INPUT_COUNT" = some "a") ∧
      (∀ w, (∃ kv ∈ taskClash.With, "INPUT_COUNT" = "INPUT_" ++ shout kv.1) →
        (∀ kv ∈ taskClash.With, "INPUT_COUNT" = "INPUT_" ++ shout kv.1 →
          ResolvesTo (answer "1") kv.2 w) →
        liveEnv (taskClash.Eval noFloats shout (answer "1")
            (sharedContext optionalCountDescriptor) ()).ctx "INPUT_COUNT" = some w ∧
          (envShared (sharedContext optionalCountDescriptor) = true →
            stateEnv (taskClash.Eval noFloats shout (answer "1")
              (sharedContext optionalCountDescriptor) ()).ctx "INPUT_COUNT" = some w))) :=
  ⟨Eval_literal_env_entry noFloats shout (answer "1") taskGreeting
      (readyContext optionalCountDescriptor) () "GREETING" (literalEntry "hello") "hello"
      (by decide) (by decide) (Or.inl rfl) (by decide),
    Eval_literal_env_entry noFloats shout (answer "1") taskClash
      (sharedContext optionalCountDescriptor) () "INPUT_COUNT" (literalEntry "a") "a"
      (by decide) (by decide) (Or.inl rfl) (by decide)⟩

/-- C22 (contradicted by the code): `ObjectMap.Delete` removes the key from `Items`
and leaves `order` as it is, so `Keys()` is the same before and after every
`Delete`.  After `Add("a", 1)` and `Delete("a")` on an empty map, `Has("a")` is
false, `Keys()` is still `["a"]`, `Len()` is 0 and not `len(Keys())`, and a later
`Set("a", 2)` makes `Keys()` hold `a` twice. -/
theorem ObjectMap_Delete_keeps_order :
    (∀ (o : ObjectMap) (key : String), (o.Delete key).Keys = o.Keys) ∧
      ((({} : ObjectMap).Add "a" (.int64 1)).1.Delete "a").Has "a" = false ∧
      ((({} : ObjectMap).Add "a" (.int64 1)).1.Delete "a").Keys = ["a"] ∧
      ((({} : ObjectMap).Add "a" (.int64 1)).1.Delete "a").Len = 0 ∧
      ((({} : ObjectMap).Add "a" (.int64 1)).1.Delete "a").Len ≠
        ((({} : ObjectMap).Add "a" (.int64 1)).1.Delete "a").Keys.length ∧
      (((({} : ObjectMap).Add "a" (.int64 1)).1.Delete "a").Set "a" (.int64 2)).Keys =
        ["a", "a"] := by
  refine ⟨?_, by decide, by decide, by decide, by decide, by decide⟩
  intro o key
  unfold ObjectMap.Delete ObjectMap.Keys
  cases o.Items <;> rfl

/-- C23 (counterexample): after `Add("a", nil)` on an empty `TaskMap` the map has
one key, `Len()` is 1 and the lookup table holds the key, and `At(0)` dereferences
the nil pointer stored under it: the call panics instead of succeeding. -/
theorem TaskMap_At_nil_pointer :
    (TaskMap.run [.add "a" none]).Len = 1 ∧ (TaskMap.run [.add "a" none]).Has "a" = true ∧
      (TaskMap.run [.add "a" none]).order = ["a"] ∧
      (TaskMap.run [.add "a" none]).At 0 = .error .nilDeref := by
  decide

/-- C23 (amended): every `OrderedMap` and every `TaskMap` reached from the empty
container by calls of Add, Set, Delete, Clear and Copy has an order sequence
without a repeated key whose keys are exactly the keys of the lookup table, and
`Len()` is the number of keys of the lookup table.  On the `OrderedMap`, `At(i)`
returns the key at position `i`, its value and true for every `i` below `Len()`.
On the `TaskMap`, the key at position `i` is in the lookup table, and `At(i)`
returns the key, the task and true when the pointer stored under the key is not
nil, which is so at every position when no call was `Add` with a nil pointer;
`At(i)` panics when the stored pointer is nil. -/
theorem containers_keep_invariant (V : Type) [Inhabited V] (ops : List (OrderedMap.Op V))
    (tops : List TaskMap.Op) :
    (PairInv (OrderedMap.run ops).entries (OrderedMap.run ops).order ∧
      (OrderedMap.run ops).Len = (OrderedMap.run ops).entries.length ∧
      ∀ i : Nat, i < (OrderedMap.run ops).Len →
        ∃ key value, (OrderedMap.run ops).At (i : Int) = (key, value, true) ∧
          (OrderedMap.run ops).order[i]? = some key ∧
          (OrderedMap.run ops).entries.lookup key = some value) ∧
    (PairInv (TaskMap.run tops).entries (TaskMap.run tops).order ∧
      (TaskMap.run tops).Inv ∧ (TaskMap.run tops).UniqueKeys ∧
      (TaskMap.run tops).Len = (TaskMap.run tops).entries.length ∧
      (∀ i : Nat, i < (TaskMap.run tops).Len →
        ∃ key, (TaskMap.run tops).order[i]? = some key ∧ (TaskMap.run tops).Has key = true ∧
          (∀ t, (TaskMap.run tops).Get key = some t →
            (TaskMap.run tops).At (i : Int) = .ok (key, t, true)) ∧
          ((TaskMap.run tops).Get key = none →
            (TaskMap.run tops).At (i : Int) = .error .nilDeref)) ∧
      ((∀ key, TaskMap.Op.add key none ∉ tops) →
        ∀ i : Nat, i < (TaskMap.run tops).Len →
          ∃ key t, (TaskMap.run tops).order[i]? = some key ∧
            (TaskMap.run tops).At (i : Int) = .ok (key, t, true))) := by
  have ho := OrderedMap.run_pairInv ops
  have ht := TaskMap.run_keeps tops
  refine ⟨⟨ho, ho.length_eq, fun i hi => OrderedMap.At_in_range _ ho i hi⟩,
    ht, (TaskMap.Inv_of_pairInv ht).1, (TaskMap.Inv_of_pairInv ht).2, ht.length_eq,
    fun i hi => TaskMap.At_lookup _ ht i hi, ?_⟩
  intro hops i hi
  obtain ⟨key, hkey, hhas, hsome, -⟩ := TaskMap.At_lookup _ ht i hi
  have hnn := TaskMap.run_noNil tops hops
  cases hg : (TaskMap.run tops).Get key with
  | some t => exact ⟨key, t, hkey, hsome t hg⟩
  | none =>
    exfalso
    rw [TaskMap.Has_eq] at hhas
    rw [TaskMap.Get_eq] at hg
    obtain ⟨v, hv⟩ := Option.isSome_iff_exists.1 hhas
    rw [hv] at hg
    have hvn : v = none := by simpa using hg
    exact hnn (key, v) (lookup_mem key v _ hv) hvn

/-- C23, witness: an `OrderedMap` of numbers and a `TaskMap`, each after calls of
all five kinds. -/
theorem containers_keep_invariant_witness :
    (PairInv (OrderedMap.run numberCalls).entries (OrderedMap.run numberCalls).order ∧
      (OrderedMap.run numberCalls).Len = (OrderedMap.run numberCalls).entries.length ∧
      ∀ i : Nat, i < (OrderedMap.run numberCalls).Len →
        ∃ key value, (OrderedMap.run numberCalls).At (i : Int) = (key, value, true) ∧
          (OrderedMap.run numberCalls).order[i]? = some key ∧
          (OrderedMap.run numberCalls).entries.lookup key = some value) ∧
    (PairInv (TaskMap.run taskCalls).entries (TaskMap.run taskCalls).order ∧
      (TaskMap.run taskCalls).Inv ∧ (TaskMap.run taskCalls).UniqueKeys ∧
      (TaskMap.run taskCalls).Len = (TaskMap.run taskCalls).entries.length ∧
      (∀ i : Nat, i < (TaskMap.run taskCalls).Len →
        ∃ key, (TaskMap.run taskCalls).order[i]? = some key ∧
          (TaskMap.run taskCalls).Has key = true ∧
          (∀ t, (TaskMap.run taskCalls).Get key = some t →
            (TaskMap.run taskCalls).At (i : Int) = .ok (key, t, true)) ∧
          ((TaskMap.run taskCalls).Get key = none →
            (TaskMap.run taskCalls).At (i : Int) = .error .nilDeref)) ∧
      ((∀ key, TaskMap.Op.add key none ∉ taskCalls) →
        ∀ i : Nat, i < (TaskMap.run taskCalls).Len →
          ∃ key t, (TaskMap.run taskCalls).order[i]? = some key ∧
            (TaskMap.run taskCalls).At (i : Int) = .ok (key, t, true))) :=
  containers_keep_invariant Nat numberCalls taskCalls

/-- C24 (counterexample): a result that failed with the error `boom` and is then
finished has Status 1 and still holds the error: `Finish` leaves the terminal
state of `Fail`, and a non-nil Error stands next to a Status other than 10. -/
theorem TaskResult_Finish_after_Fail :
    ((({} : TaskResult).Fail 5 (some boom)).Finish 6).Status = 1 ∧
      ((({} : TaskResult).Fail 5 (some boom)).Finish 6).Error = some boom ∧
      (({} : TaskResult).Fail 5 (some boom)).Status = 10 := by
  decide

/-- C24 (amended): the transitions of `TaskResult` do not look at the current
state.  `Start` keeps Status and Error; `Finish`, `Skip` and `Cancel` set Status
to 1, 2 and 5 and keep Error; `Fail` sets Status to 10 and Error to its argument. -/
theorem TaskResult_transitions_overwrite (t : TaskResult) (now : Nat)
    (err : Option GoError) :
    ((t.Start now).Status = t.Status ∧ (t.Start now).Error = t.Error) ∧
      ((t.Finish now).Status = 1 ∧ (t.Finish now).Error = t.Error) ∧
      (t.Skip.Status = 2 ∧ t.Skip.Error = t.Error) ∧
      ((t.Cancel now).Status = 5 ∧ (t.Cancel now).Error = t.Error) ∧
      ((t.Fail now err).Status = 10 ∧ (t.Fail now err).Error = err) :=
  ⟨⟨rfl, rfl⟩, ⟨rfl, rfl⟩, ⟨rfl, rfl⟩, ⟨rfl, rfl⟩, ⟨rfl, rfl⟩⟩

/-- C25: let each task of `m` be registered under its own Id, and let `m2` hold
the same entries in another iteration order.  With a recursion budget above the
number of entries, `FindCyclicalReferences` returns on both maps, the two slices
have the same members, and a registered task is a member exactly when
`findCycle` on that task and an empty stack returns false, which is exactly when
a cycle can be reached from the task. -/
theorem FindCyclicalReferences_order_irrelevant (m m2 : TaskMap) (hU : m.UniqueKeys)
    (hO : m.OwnId) (hp : m2.entries.Perm m.entries) (fuel : Nat)
    (hf : m.entries.length + 1 ≤ fuel) :
    ∃ cs cs2,
      m.FindCyclicalReferences fuel = .ok (if cs.length = 0 then none else some cs) ∧
      m2.FindCyclicalReferences fuel = .ok (if cs2.length = 0 then none else some cs2) ∧
      (∀ t, t ∈ cs2 ↔ t ∈ cs) ∧ (∀ t ∈ cs, m.Registered t) ∧
      ∀ t, m.Registered t → ∃ b st, findCycle fuel t [] m = .ok (b, st) ∧
        (t ∈ cs ↔ b = false) ∧ (t ∈ cs ↔ m.ReachesCycle t.Id) := by
  obtain ⟨cs, hcs, hmem⟩ := FindCyclicalReferences_spec m hU hO fuel hf
  obtain ⟨cs2, hcs2, hmem2⟩ := FindCyclicalReferences_spec m2
    (TaskMap.UniqueKeys_perm hp hU) (TaskMap.OwnId_perm hp hO) fuel (by rw [hp.length_eq]; exact hf)
  refine ⟨cs, cs2, hcs, hcs2, ?_, fun t ht => ((hmem t).1 ht).1, ?_⟩
  · intro t
    rw [hmem t, hmem2 t, TaskMap.Registered_perm hp, TaskMap.ReachesCycle_perm hp hU]
  · intro t ht
    obtain ⟨k, hk⟩ := ht
    obtain ⟨t', ht', hid⟩ := hO _ hk
    simp only [Option.some.injEq] at ht'
    subst ht'
    have hget : m.Get t.Id = some t := by
      rw [hid]
      exact TaskMap.Get_of_mem hU hk
    obtain ⟨b, st, hres, hb⟩ := findCycle_fresh m hO fuel hf t hget
    refine ⟨b, st, hres, ?_, ?_⟩
    · rw [hmem t, hb]
      exact ⟨fun h => h.2, fun h => ⟨⟨k, hk⟩, h⟩⟩
    · rw [hmem t]
      exact ⟨fun h => h.2, fun h => ⟨⟨k, hk⟩, h⟩⟩

/-- C25, witness: the map of `entry` and `spin`, and the same map visited in the
other order. -/
theorem FindCyclicalReferences_order_irrelevant_witness :
    ∃ cs cs2,
      spinMap.FindCyclicalReferences 3 = .ok (if cs.length = 0 then none else some cs) ∧
      spinMapRev.FindCyclicalReferences 3 =
        .ok (if cs2.length = 0 then none else some cs2) ∧
      (∀ t, t ∈ cs2 ↔ t ∈ cs) ∧ (∀ t ∈ cs, spinMap.Registered t) ∧
      ∀ t, spinMap.Registered t → ∃ b st, findCycle 3 t [] spinMap = .ok (b, st) ∧
        (t ∈ cs ↔ b = false) ∧ (t ∈ cs ↔ spinMap.ReachesCycle t.Id) :=
  FindCyclicalReferences_order_irrelevant spinMap spinMapRev (by decide) (by decide)
    (List.Perm.swap _ _ _) 3 (by decide)

/-- C26 (contradicted by the code): `Task.Eval` never changes the `Env` and `With`
maps of the task, so an entry that was not evaluated before the call is not
marked evaluated after it.  For a task with one unevaluated `Env` entry, and for
one with one unevaluated `With` entry, the first `Task.Eval` succeeds with one
call of the Evaluator, and a second `Task.Eval` on the task and context that the
first one left calls the Evaluator once more. -/
theorem Eval_entry_evaluated_again :
    (∀ (σ : Type) (pf : FloatParser) (underscore : String → String)
        (ev : Evaluator σ EvalData) (t : Task) (ctx : TaskContext) (es : σ),
        (t.Eval pf underscore ev ctx es).task.Env = t.Env ∧
          (t.Eval pf underscore ev ctx es).task.With = t.With) ∧
      ((taskLazyEnv.Eval noFloats shout (answer "hi").counted (readyContext {})
          ((), 0)).outcome = .ok () ∧
        (taskLazyEnv.Eval noFloats shout (answer "hi").counted (readyContext {})
          ((), 0)).es = ((), 1) ∧
        (taskLazyEnv.Eval noFloats shout (answer "hi").counted (readyContext {})
          ((), 0)).task.Env.lookup "GREETING" =
            some { Raw := "${{ g }}", IsEvaluated := false, Typ := "string" } ∧
        ((taskLazyEnv.Eval noFloats shout (answer "hi").counted (readyContext {})
          ((), 0)).task.Eval noFloats shout (answer "hi").counted
            (taskLazyEnv.Eval noFloats shout (answer "hi").counted (readyContext {})
              ((), 0)).ctx ((), 1)).outcome = .ok () ∧
        ((taskLazyEnv.Eval noFloats shout (answer "hi").counted (readyContext {})
          ((), 0)).task.Eval noFloats shout (answer "hi").counted
            (taskLazyEnv.Eval noFloats shout (answer "hi").counted (readyContext {})
              ((), 0)).ctx ((), 1)).es = ((), 2)) ∧
      ((taskCount.Eval noFloats shout (answer "1").counted
          (readyContext optionalCountDescriptor) ((), 0)).outcome = .ok () ∧
        (taskCount.Eval noFloats shout (answer "1").counted
          (readyContext optionalCountDescriptor) ((), 0)).es = ((), 1) ∧
        (taskCount.Eval noFloats shout (answer "1").counted
          (readyContext optionalCountDescriptor) ((), 0)).task.With.lookup "count" =
            some { Raw := "${{ 1 }}", IsEvaluated := false, Typ := "string" } ∧
        ((taskCount.Eval noFloats shout (answer "1").counted
          (readyContext optionalCountDescriptor) ((), 0)).task.Eval noFloats shout
            (answer "1").counted
            (taskCount.Eval noFloats shout (answer "1").counted
              (readyContext optionalCountDescriptor) ((), 0)).ctx ((), 1)).outcome = .ok () ∧
        ((taskCount.Eval noFloats shout (answer "1").counted
          (readyContext optionalCountDescriptor) ((), 0)).task.Eval noFloats shout
            (answer "1").counted
            (taskCount.Eval noFloats shout (answer "1").counted
              (readyContext optionalCountDescriptor) ((), 0)).ctx ((), 1)).es = ((), 2)) := by
  refine ⟨fun σ pf us ev t ctx es => Task.Eval_task_maps pf us ev t ctx es, ?_, ?_⟩
  · refine ⟨by decide, by decide, by decide, by decide, by decide⟩
  · refine ⟨by decide, by decide, by decide, by decide, by decide⟩

/-- C27: on every map, `FindCyclicalReferences` with a recursion budget of the
number of entries plus one does not exhaust the budget: it returns, or it stops
at a nil entry of the map, and it returns whenever the map has no nil entry.
Every call of `findCycle` on a stored task and a stack of stored tasks without a
repeated Id returns within the budget left by the stack, and the stack it leaves
again has no repeated Id and is no longer than the number of entries. -/
theorem FindCyclicalReferences_terminates (m : TaskMap) (fuel : Nat)
    (hf : m.entries.length + 1 ≤ fuel) :
    ((∃ res, m.FindCyclicalReferences fuel = .ok res) ∨
        (m.FindCyclicalReferences fuel = .error .nilDeref ∧ ¬ m.NoNil)) ∧
      (m.NoNil → ∃ res, m.FindCyclicalReferences fuel = .ok res) ∧
      ∀ (task : Task) (st : List Task) (budget : Nat), m.Registered task → StackStored m st →
        m.entries.length + 1 ≤ budget + st.length →
        ∃ b st2, findCycle budget task st m = .ok (b, st2) ∧ StackStored m st2 ∧
          (st2.map Task.Id).Nodup ∧ st2.length ≤ m.entries.length := by
  have hloop := findCyclicalLoop_total m fuel hf m.entries [] [] (fun _ h => h)
    ⟨by simp, by simp⟩
  have hmain : (∃ res, m.FindCyclicalReferences fuel = .ok res) ∨
      (m.FindCyclicalReferences fuel = .error .nilDeref ∧ ¬ m.NoNil) := by
    unfold TaskMap.FindCyclicalReferences
    rcases hloop with ⟨cs, hcs⟩ | ⟨herr, kv, hkv, hn⟩
    · left
      rw [hcs]
      by_cases h : cs.length = 0 <;> simp [h]
    · right
      rw [herr]
      exact ⟨rfl, fun hnn => hnn kv hkv hn⟩
  refine ⟨hmain, ?_, ?_⟩
  · intro hnn
    rcases hmain with h | ⟨-, h⟩
    · exact h
    · exact absurd hnn h
  · intro task st budget ht hst hb
    obtain ⟨b, st2, hres, -, hst2⟩ := findCycle_total m budget task st ht hst hb
    exact ⟨b, st2, hres, hst2, hst2.1, hst2.short⟩

/-- C27, witness: the map of `ping` and `pong`, which need each other. -/
theorem FindCyclicalReferences_terminates_witness :
    ((∃ res, pingPongMap.FindCyclicalReferences 3 = .ok res) ∨
        (pingPongMap.FindCyclicalReferences 3 = .error .nilDeref ∧ ¬ pingPongMap.NoNil)) ∧
      (pingPongMap.NoNil → ∃ res, pingPongMap.FindCyclicalReferences 3 = .ok res) ∧
      ∀ (task : Task) (st : List Task) (budget : Nat), pingPongMap.Registered task →
        StackStored pingPongMap st → pingPongMap.entries.length + 1 ≤ budget + st.length →
        ∃ b st2, findCycle budget task st pingPongMap = .ok (b, st2) ∧
          StackStored pingPongMap st2 ∧ (st2.map Task.Id).Nodup ∧
          st2.length ≤ pingPongMap.entries.length :=
  FindCyclicalReferences_terminates pingPongMap 3 (by decide)

end Jolt9
